import Mathlib

/-!
Verification of the b3d math-DSL compiler (scripts/gen-math.py) and the
math-usage lint tool (scripts/check-math-usage.py) against their
natural-language specification.

The Python sources are shallowly embedded: source text and generated C text
are `List Char`, tokens and AST nodes are inductive types mirroring the
Python dataclasses, and every stage is an executable Lean function.
Recursions that are not structural in Python (the lexer loop, the
recursive-descent functions, the code-generator walk, the regex-style
scanners) take an explicit fuel argument, pattern-matched structurally so
that the kernel can evaluate them; fuel exhaustion returns a designated
default and wrapper functions supply fuel that provably suffices.

Python character-class predicates (str.isdigit, str.isalpha, str.isalnum,
the regex classes \w and \s) are modelled on the character repertoire this
pipeline actually deals with: ASCII, the lowercase Greek letters the lexer
admits in identifiers, and the specific Unicode math symbols in its tables.
Wide-Unicode corner cases (for example CPython classifying subscript
letters as alphanumeric) are outside the modelled repertoire.

Python exceptions (SyntaxError in the parser, ValueError / IndexError in
the code generator) are modelled as Except / Option results.
-/

namespace B3D

/-- Convenience: the character list of a string literal. -/
def S (s : String) : List Char := s.data

/-- Opening brace character. -/
def lbr : Char := Char.ofNat 123

/-- Closing brace character. -/
def rbr : Char := Char.ofNat 125

/-- Lowercase Greek letters accepted by the lexer: the range α..ω without
the final sigma, exactly the characters of the literal
"αβγδεζηθικλμνξοπρστυφχψω" in gen-math.py line 341. -/
def isGreekLower (c : Char) : Bool :=
  decide (0x3B1 ≤ c.val) && decide (c.val ≤ 0x3C9) && decide (c.val ≠ 0x3C2)

/-- Models Python str.isdigit on the modelled repertoire (ASCII digits). -/
def pyDigit (c : Char) : Bool := c.isDigit

/-- Models Python str.isalnum on the modelled repertoire: ASCII
alphanumerics plus lowercase Greek letters. -/
def pyAlnum (c : Char) : Bool := c.isAlphanum || isGreekLower c

/-- First character of an identifier, gen-math.py line 341:
ch.isalpha() or ch == "_" or ch in the Greek-letter string. -/
def identFirst (c : Char) : Bool := c.isAlpha || c = '_' || isGreekLower c

/-- Continuation character of an identifier, gen-math.py line 256:
ch.isalnum() or ch == "_". -/
def identCont (c : Char) : Bool := pyAlnum c || c = '_'

/-- Models the regex class \w (used via the word-boundary anchors \b in
CodeGen.substitute_index and in check-math-usage.py) on the modelled
repertoire. -/
def wordChar (c : Char) : Bool := pyAlnum c || c = '_'

/-- Models Python str.lower for the ASCII keywords the lexer compares
against (gen-math.py line 268). -/
def lowerAscii (c : Char) : Char :=
  if 'A' ≤ c && c ≤ 'Z' then Char.ofNat (c.toNat + 32) else c

/-- Lowercasing of a name, character by character. -/
def lowerStr (s : List Char) : List Char := s.map lowerAscii

/-- Token kinds, mirroring the TokenType enum of gen-math.py. -/
inductive TokenType where
  | IDENT | NUMBER
  | DOT | CROSS | NORM_OPEN | SQRT | SUM | IN | TRANSPOSE
  | THETA | PI | EPSILON | DELTA
  | SUBSCRIPT
  | REAL | INT | SUPERSCRIPT
  | PLUS | MINUS | STAR | SLASH | EQ | LT | GT | LE | GE | PIPE
  | LPAREN | RPAREN | LBRACKET | RBRACKET | LBRACE | RBRACE
  | COMMA | COLON | SEMICOLON | NEWLINE
  | WHERE | LET | IN_KW | IF | THEN | ELSE
  | SIN | COS | TAN | ABS | FLOOR | MIN | MAX | CLAMP
  | EOF
deriving DecidableEq, Repr

/-- Tokens, mirroring the Token dataclass of gen-math.py. -/
structure Token where
  ttype : TokenType
  value : List Char
  line : Nat
  col : Nat
deriving DecidableEq, Repr

/-- UNICODE_MAP of gen-math.py, as an association table. -/
def unicodeTable : List (Char × TokenType) :=
  [('·', .DOT), ('⋅', .DOT), ('×', .CROSS), ('‖', .NORM_OPEN), ('√', .SQRT),
   ('∑', .SUM), ('∈', .IN), ('ᵀ', .TRANSPOSE), ('θ', .THETA), ('π', .PI),
   ('ε', .EPSILON), ('δ', .DELTA), ('ℝ', .REAL), ('ℤ', .INT)]

/-- Lookup in UNICODE_MAP. -/
def unicodeMap (c : Char) : Option TokenType :=
  (unicodeTable.find? (fun p => p.1 = c)).map (fun p => p.2)

/-- LATEX_ESCAPES of gen-math.py, as an association table. -/
def latexTable : List (List Char × TokenType) :=
  [(S "sum", .SUM), (S "in", .IN), (S "cdot", .DOT), (S "dot", .DOT),
   (S "times", .CROSS), (S "cross", .CROSS), (S "sqrt", .SQRT),
   (S "norm", .NORM_OPEN), (S "T", .TRANSPOSE), (S "transpose", .TRANSPOSE),
   (S "theta", .THETA), (S "pi", .PI), (S "epsilon", .EPSILON),
   (S "eps", .EPSILON), (S "delta", .DELTA), (S "R", .REAL), (S "Real", .REAL),
   (S "Z", .INT), (S "Int", .INT)]

/-- Lookup in LATEX_ESCAPES. -/
def latexEscape (nm : List Char) : Option TokenType :=
  (latexTable.find? (fun p => p.1 = nm)).map (fun p => p.2)

/-- SUBSCRIPTS of gen-math.py. -/
def subMap (c : Char) : Option Char :=
  if c = 'ᵢ' then some 'i'
  else if c = 'ⱼ' then some 'j'
  else if c = 'ₖ' then some 'k'
  else if c = 'ₗ' then some 'l'
  else if c = 'ₘ' then some 'm'
  else if c = 'ₙ' then some 'n'
  else if c = '₀' then some '0'
  else if c = '₁' then some '1'
  else if c = '₂' then some '2'
  else if c = '₃' then some '3'
  else if c = '₄' then some '4'
  else none

/-- SUPERSCRIPTS of gen-math.py. -/
def supMap (c : Char) : Option Char :=
  if c = '⁰' then some '0'
  else if c = '¹' then some '1'
  else if c = '²' then some '2'
  else if c = '³' then some '3'
  else if c = '⁴' then some '4'
  else if c = '⁵' then some '5'
  else if c = 'ˣ' then some 'x'
  else none

/-- KEYWORDS of gen-math.py, as an association table. -/
def kwTable : List (List Char × TokenType) :=
  [(S "where", .WHERE), (S "let", .LET), (S "in", .IN_KW), (S "if", .IF),
   (S "then", .THEN), (S "else", .ELSE), (S "sin", .SIN), (S "cos", .COS),
   (S "tan", .TAN), (S "abs", .ABS), (S "floor", .FLOOR), (S "min", .MIN),
   (S "max", .MAX), (S "clamp", .CLAMP)]

/-- Lookup in KEYWORDS (on the lowercased name). -/
def kwLookup (nm : List Char) : Option TokenType :=
  (kwTable.find? (fun p => p.1 = nm)).map (fun p => p.2)

/-- Single-character operator table of gen-math.py lines 398-416, as an
association table.  Braces are written through lbr / rbr. -/
def simpleTable : List (Char × TokenType) :=
  [('+', .PLUS), ('-', .MINUS), ('*', .STAR), ('/', .SLASH), ('=', .EQ),
   ('<', .LT), ('>', .GT), ('|', .PIPE), ('(', .LPAREN), (')', .RPAREN),
   ('[', .LBRACKET), (']', .RBRACKET), (lbr, .LBRACE), (rbr, .RBRACE),
   (',', .COMMA), (':', .COLON), (';', .SEMICOLON)]

/-- Lookup in the single-character operator table. -/
def simpleMap (c : Char) : Option TokenType :=
  (simpleTable.find? (fun p => p.1 = c)).map (fun p => p.2)

/-- Lexer state: current line, column, bracket depth and paren depth.
The character position is represented by the remaining source suffix. -/
structure LexSt where
  line : Nat
  col : Nat
  bd : Nat
  pd : Nat
deriving DecidableEq, Repr

/-- Lexer.advance of gen-math.py, line/column bookkeeping for one
consumed character. -/
def advCh (st : LexSt) (c : Char) : LexSt :=
  if c = '\n' then { st with line := st.line + 1, col := 1 }
  else { st with col := st.col + 1 }

/-- Line/column bookkeeping for a run of consumed characters. -/
def advStr (st : LexSt) (cs : List Char) : LexSt := cs.foldl advCh st

/-- Lexer.skip_whitespace_and_comments of gen-math.py: consumes spaces,
tabs, carriage returns, and '#'-comments up to (not including) the
newline.  Fuelled; fuel at least the source length suffices. -/
def skipWC : Nat → List Char → LexSt → List Char × LexSt
  | 0, s, st => (s, st)
  | _ + 1, [], st => ([], st)
  | fuel + 1, c :: cs, st =>
    if c = '#' then
      skipWC fuel (cs.dropWhile (fun x => x ≠ '\n'))
        (advStr st (c :: cs.takeWhile (fun x => x ≠ '\n')))
    else if c = ' ' || c = '\t' || c = '\r' then
      skipWC fuel cs (advCh st c)
    else (c :: cs, st)

/-- Lexer.read_number of gen-math.py: digits with at most one decimal
point, where a point directly followed by another point (the range
operator ..) is not consumed.  Returns the literal and the rest. -/
def readNum (hasDec : Bool) : List Char → List Char × List Char
  | [] => ([], [])
  | c :: cs =>
    if pyDigit c then
      (c :: (readNum hasDec cs).1, (readNum hasDec cs).2)
    else if c = '.' && !hasDec then
      match cs with
      | '.' :: cs' => ([], c :: '.' :: cs')
      | _ => (c :: (readNum true cs).1, (readNum true cs).2)
    else ([], c :: cs)

/-- Tail of Lexer.read_ident of gen-math.py: alphanumerics and
underscores are kept, subscript characters are rewritten to an
underscore plus their ASCII image.  Returns (value tail, consumed
characters, rest). -/
def readIdentTail : List Char → List Char × List Char × List Char
  | [] => ([], [], [])
  | c :: cs =>
    if identCont c then
      (c :: (readIdentTail cs).1, c :: (readIdentTail cs).2.1, (readIdentTail cs).2.2)
    else
      match subMap c with
      | some d =>
        ('_' :: d :: (readIdentTail cs).1, c :: (readIdentTail cs).2.1,
          (readIdentTail cs).2.2)
      | none => ([], [], c :: cs)

/-- Newline branch of Lexer.tokenize (gen-math.py lines 283-289): a
NEWLINE token is appended only when both depth counters are zero. -/
def lexNewline (cs : List Char) (st : LexSt) :
    List (Token × Nat × Nat) × List Char × LexSt :=
  if st.bd = 0 && st.pd = 0 then
    ([(Token.mk .NEWLINE (S "\n") st.line st.col, st.bd, st.pd)], cs, advCh st '\n')
  else ([], cs, advCh st '\n')

/-- Backslash-escape branch of Lexer.tokenize (lines 291-309). -/
def lexEscape (cs : List Char) (st : LexSt) :
    List (Token × Nat × Nat) × List Char × LexSt :=
  let nm := cs.takeWhile pyAlnum
  let rest := cs.dropWhile pyAlnum
  let st₂ := advStr st ('\\' :: nm)
  let tok := match latexEscape nm with
    | some tt => Token.mk tt ('\\' :: nm) st.line st.col
    | none => Token.mk .IDENT nm st.line st.col
  ([(tok, st₂.bd, st₂.pd)], rest, st₂)

/-- Unicode-operator branch of Lexer.tokenize (lines 311-314). -/
def lexUni (c : Char) (tt : TokenType) (cs : List Char) (st : LexSt) :
    List (Token × Nat × Nat) × List Char × LexSt :=
  ([(Token.mk tt [c] st.line st.col, st.bd, st.pd)], cs, advCh st c)

/-- Standalone-subscript branch of Lexer.tokenize (lines 317-323). -/
def lexSubscr (c d : Char) (cs : List Char) (st : LexSt) :
    List (Token × Nat × Nat) × List Char × LexSt :=
  ([(Token.mk .SUBSCRIPT [d] st.line st.col, st.bd, st.pd)], cs, advCh st c)

/-- Superscript-run branch of Lexer.tokenize (lines 326-333). -/
def lexSup (c : Char) (cs : List Char) (st : LexSt) :
    List (Token × Nat × Nat) × List Char × LexSt :=
  let run := (c :: cs).takeWhile (fun x => (supMap x).isSome)
  let rest := (c :: cs).dropWhile (fun x => (supMap x).isSome)
  let st₂ := advStr st run
  ([(Token.mk .SUPERSCRIPT (run.filterMap supMap) st.line st.col, st₂.bd, st₂.pd)],
    rest, st₂)

/-- Number branch of Lexer.tokenize (lines 336-338). -/
def lexNum (c : Char) (cs : List Char) (st : LexSt) :
    List (Token × Nat × Nat) × List Char × LexSt :=
  let nr := readNum false (c :: cs)
  let st₂ := advStr st nr.1
  ([(Token.mk .NUMBER nr.1 st.line st.col, st₂.bd, st₂.pd)], nr.2, st₂)

/-- Identifier branch of Lexer.tokenize (lines 341-342, read_ident). -/
def lexIdent (c : Char) (cs : List Char) (st : LexSt) :
    List (Token × Nat × Nat) × List Char × LexSt :=
  let it := readIdentTail cs
  let nm := c :: it.1
  let st₂ := advStr st (c :: it.2.1)
  let tok := match kwLookup (lowerStr nm) with
    | some tt => Token.mk tt nm st.line st.col
    | none => Token.mk .IDENT nm st.line st.col
  ([(tok, st₂.bd, st₂.pd)], it.2.2, st₂)

/-- Period branches of Lexer.tokenize: the range operator .. (lines
346-350) and the field-access dot (lines 353-356). -/
def lexDot (cs : List Char) (st : LexSt) :
    List (Token × Nat × Nat) × List Char × LexSt :=
  match cs with
  | '.' :: cs' =>
    let st₂ := advCh (advCh st '.') '.'
    ([(Token.mk .IDENT (S "..") st.line st.col, st₂.bd, st₂.pd)], cs', st₂)
  | _ => ([(Token.mk .DOT (S ".") st.line st.col, st.bd, st.pd)], cs, advCh st '.')

/-- Arrow branch of Lexer.tokenize (lines 358-362). -/
def lexArrow (cs : List Char) (st : LexSt) :
    List (Token × Nat × Nat) × List Char × LexSt :=
  let st₂ := advCh (advCh st '-') '>'
  ([(Token.mk .IDENT (S "->") st.line st.col, st₂.bd, st₂.pd)], cs.drop 1, st₂)

/-- Double-pipe branch of Lexer.tokenize (lines 365-371). -/
def lexDPipe (cs : List Char) (st : LexSt) :
    List (Token × Nat × Nat) × List Char × LexSt :=
  let st₂ := advCh (advCh st '|') '|'
  ([(Token.mk .NORM_OPEN (S "||") st.line st.col, st₂.bd, st₂.pd)], cs.drop 1, st₂)

/-- Caret-superscript branch of Lexer.tokenize (lines 374-382). -/
def lexCaret (cs : List Char) (st : LexSt) :
    List (Token × Nat × Nat) × List Char × LexSt :=
  let run := cs.takeWhile (fun x => pyDigit x || x = 'x')
  let rest := cs.dropWhile (fun x => pyDigit x || x = 'x')
  let st₂ := advStr st ('^' :: run)
  ([(Token.mk .SUPERSCRIPT run st.line st.col, st₂.bd, st₂.pd)], rest, st₂)

/-- Less-or-equal branch of Lexer.tokenize (lines 385-389). -/
def lexLe (cs : List Char) (st : LexSt) :
    List (Token × Nat × Nat) × List Char × LexSt :=
  let st₂ := advCh (advCh st '<') '='
  ([(Token.mk .LE (S "<=") st.line st.col, st₂.bd, st₂.pd)], cs.drop 1, st₂)

/-- Greater-or-equal branch of Lexer.tokenize (lines 391-395). -/
def lexGe (cs : List Char) (st : LexSt) :
    List (Token × Nat × Nat) × List Char × LexSt :=
  let st₂ := advCh (advCh st '>') '='
  ([(Token.mk .GE (S ">=") st.line st.col, st₂.bd, st₂.pd)], cs.drop 1, st₂)

/-- Single-character operator branch of Lexer.tokenize (lines 418-430),
with the bracket/paren depth updates. -/
def lexSimple (c : Char) (tt : TokenType) (cs : List Char) (st : LexSt) :
    List (Token × Nat × Nat) × List Char × LexSt :=
  let st₂ := advCh st c
  let st₃ :=
    if c = '[' then { st₂ with bd := st₂.bd + 1 }
    else if c = ']' then { st₂ with bd := st₂.bd - 1 }
    else if c = '(' then { st₂ with pd := st₂.pd + 1 }
    else if c = ')' then { st₂ with pd := st₂.pd - 1 }
    else st₂
  ([(Token.mk tt [c] st.line st.col, st₃.bd, st₃.pd)], cs, st₃)

/-- Unknown-character branch of Lexer.tokenize (line 433): the
character is skipped and no token is produced. -/
def lexSkip (c : Char) (cs : List Char) (st : LexSt) :
    List (Token × Nat × Nat) × List Char × LexSt :=
  ([], cs, advCh st c)

/-- One step of the Lexer.tokenize main loop of gen-math.py, taken at a
nonempty source position after whitespace/comment skipping: the branch
dispatch of lines 282-433, in source order. -/
def lexStep (c : Char) (cs : List Char) (st : LexSt) :
    List (Token × Nat × Nat) × List Char × LexSt :=
  if c = '\n' then lexNewline cs st
  else if c = '\\' then lexEscape cs st
  else match unicodeMap c with
  | some tt => lexUni c tt cs st
  | none =>
  match subMap c with
  | some d => lexSubscr c d cs st
  | none =>
  if (supMap c).isSome then lexSup c cs st
  else if pyDigit c then lexNum c cs st
  else if identFirst c then lexIdent c cs st
  else if c = '.' then lexDot cs st
  else if c = '-' && cs.headD ' ' = '>' then lexArrow cs st
  else if c = '|' && cs.headD ' ' = '|' then lexDPipe cs st
  else if c = '^' && pyDigit (cs.headD ' ') then lexCaret cs st
  else if c = '<' && cs.headD ' ' = '=' then lexLe cs st
  else if c = '>' && cs.headD ' ' = '=' then lexGe cs st
  else match simpleMap c with
  | some tt => lexSimple c tt cs st
  | none => lexSkip c cs st

/-- Lexer.tokenize of gen-math.py, main loop: skip whitespace and
comments, then take one lexStep, until the source is exhausted.
Fuelled; fuel at least the source length plus one suffices. -/
def lexLoop : Nat → List Char → LexSt → List (Token × Nat × Nat) × LexSt
  | 0, _, st => ([], st)
  | fuel + 1, s, st =>
    let p := skipWC (s.length + 1) s st
    match p.1 with
    | [] => ([], p.2)
    | c :: cs =>
      let r := lexStep c cs p.2
      let q := lexLoop fuel r.2.1 r.2.2
      (r.1 ++ q.1, q.2)

/-- Complete run of Lexer.tokenize: the main loop followed by the final
EOF token, each token annotated with the depths at its emission. -/
def lexerRun (src : List Char) : List (Token × Nat × Nat) :=
  let r := lexLoop (src.length + 1) src (LexSt.mk 1 1 0 0)
  r.1 ++ [(Token.mk .EOF [] r.2.line r.2.col, r.2.bd, r.2.pd)]

/-- Lexer.tokenize of gen-math.py: the token list with the ghost depth
annotations erased. -/
def tokenize (src : List Char) : List Token := (lexerRun src).map (fun e => e.1)

/-- AST expressions, mirroring the Expr dataclasses of gen-math.py. -/
inductive Expr where
  | num (value : List Char)
  | var (name : List Char)
  | binOp (op : List Char) (left right : Expr)
  | unary (op : List Char) (operand : Expr)
  | call (func : List Char) (args : List Expr)
  | index (base idx : Expr)
  | matrixIndex (base row col : Expr)
  | dotAccess (base : Expr) (field : List Char)
  | sum (v rangeExpr : List Char) (body : Expr)
  | norm (operand : Expr)
  | vector (elements : List Expr)
  | compr (body : Expr) (v rangeExpr : List Char)
  | letE (bindings : List (List Char × Expr)) (body : Expr)
  | ifE (cond thenE elseE : Expr)
  | matrix (rows : List (List Expr))

/-- Param dataclass of gen-math.py. -/
structure Param where
  name : List Char
  typeStr : List Char
deriving DecidableEq, Repr

/-- FuncDef dataclass of gen-math.py. -/
structure FuncDef where
  name : List Char
  params : List Param
  returnType : List Char
  body : Expr

/-- Parser state: the token list and the current position. -/
structure PSt where
  toks : List Token
  pos : Nat
deriving Repr

/-- Parser outcomes: the SyntaxError raised by Parser.expect carries the
expected kind, the actual kind, the actual literal text and its line and
column (the five pieces of data interpolated into the Python message
string); fuelOut marks fuel exhaustion of the embedding and corresponds
to no Python behaviour when enough fuel is supplied. -/
inductive PErr where
  | syn (expected actual : TokenType) (value : List Char) (line col : Nat)
  | fuelOut
deriving DecidableEq, Repr

/-- Default token used only when the parser is run on an empty token
list (Parser.peek indexes tokens[-1], which the tokenize wrapper always
makes an EOF token). -/
def dummyTok : Token := ⟨.EOF, [], 0, 0⟩

/-- Parser.peek of gen-math.py: the token at pos + off, clamped to the
last token of the list. -/
def peekT (st : PSt) (off : Nat) : Token :=
  if st.pos + off < st.toks.length then st.toks.getD (st.pos + off) dummyTok
  else st.toks.getLastD dummyTok

/-- Parser.advance of gen-math.py: return the current token and step. -/
def advanceT (st : PSt) : Token × PSt :=
  (peekT st 0, ⟨st.toks, st.pos + 1⟩)

/-- Parser.expect of gen-math.py: consume one token; if its kind differs
from the requested kind, raise a syntax error carrying the expected
kind, actual kind, literal text, line and column. -/
def expectT (tt : TokenType) (st : PSt) : Except PErr (Token × PSt) :=
  let a := advanceT st
  if a.1.ttype = tt then .ok (a.1, a.2)
  else .error (.syn tt a.1.ttype a.1.value a.1.line a.1.col)

/-- Parser.skip_newlines of gen-math.py, fuelled loop body. -/
def skipNLAux : Nat → PSt → PSt
  | 0, st => st
  | fuel + 1, st =>
    if (peekT st 0).ttype = .NEWLINE then skipNLAux fuel ⟨st.toks, st.pos + 1⟩
    else st

/-- Parser.skip_newlines of gen-math.py. -/
def skipNL (st : PSt) : PSt := skipNLAux (st.toks.length + 1 - st.pos) st

/-- List membership of a substring, modelling the Python operator
`needle in hay` on strings. -/
def containsSub (needle : List Char) : List Char → Bool
  | [] => needle.isEmpty
  | c :: cs => needle.isPrefixOf (c :: cs) || containsSub needle cs

/-- Lookup in the where-block type map with default "scalar"
(param_types.get(name, "scalar") in gen-math.py); the map is kept in
latest-first order so the first match is the last Python write. -/
def lookupType (types : List (List Char × List Char)) (name : List Char) : List Char :=
  match types.find? (fun p => p.1 = name) with
  | some p => p.2
  | none => S "scalar"

/-- Parser.infer_return_type of gen-math.py. -/
def inferReturnType : Expr → List (List Char × List Char) → List Char
  | .matrix _, _ => S "mat4"
  | .vector _, _ => S "vec4"
  | .compr _ _ _, _ => S "vec4"
  | .sum _ _ _, _ => S "scalar"
  | .norm _, _ => S "scalar"
  | .ifE _ t e, ty =>
    let tt := inferReturnType t ty
    if tt ≠ S "scalar" then tt else inferReturnType e ty
  | .letE _ b, ty => inferReturnType b ty
  | .var n, ty =>
    let vt := lookupType ty n
    if vt = S "ℝ⁴" || vt = S "ℝ³" then S "vec4"
    else if vt = S "ℝ⁴ˣ⁴" then S "mat4"
    else S "scalar"
  | .call f _, _ =>
    if f = S "vec_dot" || f = S "vec_length" || f = S "vec_length_sq" then S "scalar"
    else if (S "mat_").isPrefixOf f then
      if containsSub (S "vec") f then S "vec4" else S "mat4"
    else if (S "vec_").isPrefixOf f then S "vec4"
    else S "scalar"
  | _, _ => S "scalar"

/-- Splitting a string at a separator character, modelling Python
str.split(sep). -/
def splitChar (sep : Char) : List Char → List (List Char)
  | [] => [[]]
  | c :: cs =>
    let r := splitChar sep cs
    if c = sep then [] :: r else (c :: r.headD []) :: r.tail

/-- The valid_indices set of Parser.parse_primary. -/
def validIdx (p : List Char) : Bool :=
  p = S "i" || p = S "j" || p = S "k" || p = S "l" || p = S "m" ||
  p = S "0" || p = S "1" || p = S "2" || p = S "3" || p = S "4"

/-- Parser.parse_type of gen-math.py: ℝ or ℤ with an optional
superscript token whose (already ASCII) text is appended. -/
def parseType (st : PSt) : List Char × PSt :=
  if (peekT st 0).ttype = .REAL then
    let st₁ := (advanceT st).2
    if (peekT st₁ 0).ttype = .SUPERSCRIPT then
      let a := advanceT st₁
      (S "ℝ" ++ a.1.value, a.2)
    else (S "ℝ", st₁)
  else if (peekT st 0).ttype = .INT then
    let st₁ := (advanceT st).2
    if (peekT st₁ 0).ttype = .SUPERSCRIPT then
      let a := advanceT st₁
      (S "ℤ" ++ a.1.value, a.2)
    else (S "ℤ", st₁)
  else (S "scalar", st)

/-- Parser.parse_range of gen-math.py: one token, optionally followed by
the range operator and another token, concatenated. -/
def parseRangeTok (st : PSt) : List Char × PSt :=
  let a := advanceT st
  if (peekT a.2 0).ttype = .IDENT && (peekT a.2 0).value = S ".." then
    let st₁ := (advanceT a.2).2
    let b := advanceT st₁
    (a.1.value ++ S ".." ++ b.1.value, b.2)
  else (a.1.value, a.2)

/-- Parser.parse_param_list of gen-math.py, continuation loop over
commas. -/
def parseParamsMore : Nat → PSt → List (List Char) × PSt
  | 0, st => ([], st)
  | fuel + 1, st =>
    if (peekT st 0).ttype = .COMMA then
      let st₁ := (advanceT st).2
      let a := advanceT st₁
      let p := if a.1.ttype = .THETA then S "a" else a.1.value
      let r := parseParamsMore fuel a.2
      (p :: r.1, r.2)
    else ([], st)

/-- Parser.parse_param_list of gen-math.py: θ becomes the parameter
name a, every other token contributes its literal text. -/
def parseParamList (fuel : Nat) (st : PSt) : List (List Char) × PSt :=
  if (peekT st 0).ttype = .RPAREN then ([], st)
  else
    let a := advanceT st
    let p := if a.1.ttype = .THETA then S "a" else a.1.value
    let r := parseParamsMore fuel a.2
    (p :: r.1, r.2)

/-- Parser.parse_where_block of gen-math.py.  The returned association
list is in latest-first order, so lookupType sees the last Python
write to the dict. -/
def parseWhereBlock : Nat → PSt → List (List Char × List Char) × PSt
  | 0, st => ([], st)
  | fuel + 1, st =>
    let st₁ := skipNL st
    let tok := peekT st₁ 0
    if tok.ttype = .IDENT && (peekT st₁ 1).ttype = .LPAREN then ([], st₁)
    else if tok.ttype = .IDENT || tok.ttype = .THETA then
      let a := advanceT st₁
      let name := if tok.ttype = .THETA then S "a" else a.1.value
      if (peekT a.2 0).ttype ≠ .IN then ([], ⟨a.2.toks, a.2.pos - 1⟩)
      else
        let st₂ := (advanceT a.2).2
        let ty := parseType st₂
        let r := parseWhereBlock fuel ty.2
        (r.1 ++ [(name, ty.1)], r.2)
    else ([], st₁)

/-- Whether an expression is a vector literal (isinstance check used in
Parser.parse_vector_or_matrix). -/
def isVectorE : Expr → Bool
  | .vector _ => true
  | _ => false

/-- Row extraction for the matrix conversion at the end of
Parser.parse_vector_or_matrix. -/
def toRowE : Expr → List Expr
  | .vector l => l
  | e => [e]

mutual

/-- Parser.parse_expr of gen-math.py. -/
def parseExpr : Nat → PSt → Except PErr (Expr × PSt)
  | 0, _ => .error .fuelOut
  | fuel + 1, st => parseLet fuel (skipNL st)

/-- Parser.parse_let of gen-math.py. -/
def parseLet : Nat → PSt → Except PErr (Expr × PSt)
  | 0, _ => .error .fuelOut
  | fuel + 1, st =>
    let st := skipNL st
    if (peekT st 0).ttype = .LET then do
      let st := (advanceT st).2
      let a := advanceT st
      let (_, st) ← expectT .EQ a.2
      let (value, st) ← parseConditional fuel st
      let (more, st) ← parseLetMore fuel st
      let st := if (peekT st 0).ttype = .IN_KW then (advanceT st).2 else st
      let (body, st) ← parseExpr fuel st
      .ok (Expr.letE ((a.1.value, value) :: more) body, st)
    else parseConditional fuel st

/-- Parser.parse_let of gen-math.py, loop over semicolon-separated
additional bindings. -/
def parseLetMore : Nat → PSt → Except PErr (List (List Char × Expr) × PSt)
  | 0, _ => .error .fuelOut
  | fuel + 1, st =>
    if (peekT st 0).ttype = .SEMICOLON then do
      let st := (advanceT st).2
      let st := skipNL st
      let st := if (peekT st 0).ttype = .LET then (advanceT st).2 else st
      let a := advanceT st
      let (_, st) ← expectT .EQ a.2
      let (value, st) ← parseConditional fuel st
      let (rest, st) ← parseLetMore fuel st
      .ok ((a.1.value, value) :: rest, st)
    else .ok ([], st)

/-- Parser.parse_conditional of gen-math.py. -/
def parseConditional : Nat → PSt → Except PErr (Expr × PSt)
  | 0, _ => .error .fuelOut
  | fuel + 1, st =>
    if (peekT st 0).ttype = .IF then do
      let st := (advanceT st).2
      let (cond, st) ← parseComparison fuel st
      let st := skipNL st
      let (_, st) ← expectT .THEN st
      let (thenE, st) ← parseLet fuel st
      let st := skipNL st
      let (_, st) ← expectT .ELSE st
      let (elseE, st) ← parseLet fuel st
      .ok (Expr.ifE cond thenE elseE, st)
    else parseComparison fuel st

/-- Parser.parse_comparison of gen-math.py. -/
def parseComparison : Nat → PSt → Except PErr (Expr × PSt)
  | 0, _ => .error .fuelOut
  | fuel + 1, st => do
    let (left, st) ← parseAdditive fuel st
    parseCompLoop fuel left st

/-- Parser.parse_comparison of gen-math.py, operator loop. -/
def parseCompLoop : Nat → Expr → PSt → Except PErr (Expr × PSt)
  | 0, _, _ => .error .fuelOut
  | fuel + 1, left, st =>
    let tt := (peekT st 0).ttype
    if tt = .LT || tt = .GT || tt = .LE || tt = .GE then do
      let a := advanceT st
      let (right, st) ← parseAdditive fuel a.2
      parseCompLoop fuel (Expr.binOp a.1.value left right) st
    else .ok (left, st)

/-- Parser.parse_additive of gen-math.py. -/
def parseAdditive : Nat → PSt → Except PErr (Expr × PSt)
  | 0, _ => .error .fuelOut
  | fuel + 1, st => do
    let (left, st) ← parseMultiplicative fuel st
    parseAddLoop fuel left st

/-- Parser.parse_additive of gen-math.py, operator loop. -/
def parseAddLoop : Nat → Expr → PSt → Except PErr (Expr × PSt)
  | 0, _, _ => .error .fuelOut
  | fuel + 1, left, st =>
    let tt := (peekT st 0).ttype
    if tt = .PLUS || tt = .MINUS then do
      let a := advanceT st
      let (right, st) ← parseMultiplicative fuel a.2
      parseAddLoop fuel (Expr.binOp a.1.value left right) st
    else .ok (left, st)

/-- Parser.parse_multiplicative of gen-math.py. -/
def parseMultiplicative : Nat → PSt → Except PErr (Expr × PSt)
  | 0, _ => .error .fuelOut
  | fuel + 1, st => do
    let (left, st) ← parseUnary fuel st
    parseMulLoop fuel left st

/-- Parser.parse_multiplicative of gen-math.py, operator loop: a DOT
token directly followed by an identifier is left for the postfix
layer (field access); any other DOT or CROSS in operator position is
consumed here, as the operator name dot or cross. -/
def parseMulLoop : Nat → Expr → PSt → Except PErr (Expr × PSt)
  | 0, _, _ => .error .fuelOut
  | fuel + 1, left, st =>
    let tt := (peekT st 0).ttype
    if tt = .STAR || tt = .SLASH || tt = .DOT || tt = .CROSS then
      if tt = .DOT && (peekT st 1).ttype = .IDENT then .ok (left, st)
      else do
        let a := advanceT st
        let op :=
          if a.1.ttype = .DOT then S "dot"
          else if a.1.ttype = .CROSS then S "cross"
          else a.1.value
        let (right, st) ← parseUnary fuel a.2
        parseMulLoop fuel (Expr.binOp op left right) st
    else .ok (left, st)

/-- Parser.parse_unary of gen-math.py. -/
def parseUnary : Nat → PSt → Except PErr (Expr × PSt)
  | 0, _ => .error .fuelOut
  | fuel + 1, st =>
    if (peekT st 0).ttype = .MINUS then do
      let st := (advanceT st).2
      let (operand, st) ← parseUnary fuel st
      .ok (Expr.unary (S "-") operand, st)
    else if (peekT st 0).ttype = .SQRT then do
      let st := (advanceT st).2
      if (peekT st 0).ttype = .LPAREN then do
        let st := (advanceT st).2
        let (operand, st) ← parseExpr fuel st
        let (_, st) ← expectT .RPAREN st
        .ok (Expr.call (S "sqrt") [operand], st)
      else do
        let (operand, st) ← parsePrimary fuel st
        .ok (Expr.call (S "sqrt") [operand], st)
    else parsePfx fuel st

/-- Parser.parse_postfix of gen-math.py. -/
def parsePfx : Nat → PSt → Except PErr (Expr × PSt)
  | 0, _ => .error .fuelOut
  | fuel + 1, st => do
    let (left, st) ← parsePrimary fuel st
    parsePfxLoop fuel left st

/-- Parser.parse_postfix of gen-math.py, loop: bracket indexing (one or
two indices), field access for a DOT token directly followed by an
identifier, and the transpose postfix. -/
def parsePfxLoop : Nat → Expr → PSt → Except PErr (Expr × PSt)
  | 0, _, _ => .error .fuelOut
  | fuel + 1, left, st =>
    if (peekT st 0).ttype = .LBRACKET then do
      let st := (advanceT st).2
      let (idx, st) ← parseExpr fuel st
      let (_, st) ← expectT .RBRACKET st
      if (peekT st 0).ttype = .LBRACKET then do
        let st := (advanceT st).2
        let (idx2, st) ← parseExpr fuel st
        let (_, st) ← expectT .RBRACKET st
        parsePfxLoop fuel (Expr.matrixIndex left idx idx2) st
      else
        parsePfxLoop fuel (Expr.index left idx) st
    else if (peekT st 0).ttype = .DOT && (peekT st 1).ttype = .IDENT then do
      let st := (advanceT st).2
      let a := advanceT st
      parsePfxLoop fuel (Expr.dotAccess left a.1.value) a.2
    else if (peekT st 0).ttype = .TRANSPOSE then do
      let st := (advanceT st).2
      parsePfxLoop fuel (Expr.unary (S "T") left) st
    else .ok (left, st)

/-- Parser.parse_primary of gen-math.py. -/
def parsePrimary : Nat → PSt → Except PErr (Expr × PSt)
  | 0, _ => .error .fuelOut
  | fuel + 1, st =>
    let tok := peekT st 0
    if tok.ttype = .NUMBER then
      .ok (Expr.num tok.value, (advanceT st).2)
    else if tok.ttype = .SUM then do
      let st := (advanceT st).2
      let (_, st) ← expectT .LPAREN st
      let a := advanceT st
      let (_, st) ← expectT .IN a.2
      let rng := parseRangeTok st
      let (_, st) ← expectT .RPAREN rng.2
      let (body, st) ← parseMultiplicative fuel st
      .ok (Expr.sum a.1.value rng.1 body, st)
    else if tok.ttype = .NORM_OPEN then do
      let st := (advanceT st).2
      let (operand, st) ← parseExpr fuel st
      let (_, st) ← expectT .NORM_OPEN st
      .ok (Expr.norm operand, st)
    else if tok.ttype = .PIPE then do
      let st := (advanceT st).2
      let (operand, st) ← parseExpr fuel st
      let (_, st) ← expectT .PIPE st
      .ok (Expr.call (S "abs") [operand], st)
    else if tok.ttype = .LBRACKET then
      parseVectorOrMatrix fuel st
    else if tok.ttype = .LPAREN then do
      let st := (advanceT st).2
      let (e, st) ← parseExpr fuel st
      let (_, st) ← expectT .RPAREN st
      .ok (e, st)
    else if tok.ttype = .SIN || tok.ttype = .COS || tok.ttype = .TAN ||
        tok.ttype = .ABS || tok.ttype = .FLOOR || tok.ttype = .MIN ||
        tok.ttype = .MAX || tok.ttype = .CLAMP then do
      let a := advanceT st
      let func := lowerStr a.1.value
      if (peekT a.2 0).ttype = .LPAREN then do
        let st := (advanceT a.2).2
        let (args, st) ← parseArgList fuel st
        let (_, st) ← expectT .RPAREN st
        .ok (Expr.call func args, st)
      else do
        let (arg, st) ← parseUnary fuel a.2
        .ok (Expr.call func [arg], st)
    else if tok.ttype = .PI then
      .ok (Expr.var (S "PI"), (advanceT st).2)
    else if tok.ttype = .EPSILON then
      .ok (Expr.var (S "EPSILON"), (advanceT st).2)
    else if tok.ttype = .THETA then
      .ok (Expr.var (S "a"), (advanceT st).2)
    else if tok.ttype = .DELTA then
      let st := (advanceT st).2
      if (peekT st 0).ttype = .SUBSCRIPT then
        let a := advanceT st
        if (peekT a.2 0).ttype = .SUBSCRIPT then
          let b := advanceT a.2
          .ok (Expr.call (S "kronecker") [Expr.var a.1.value, Expr.var b.1.value], b.2)
        else .ok (Expr.var (S "delta"), a.2)
      else .ok (Expr.var (S "delta"), st)
    else if tok.ttype = .IDENT then
      let a := advanceT st
      let name := a.1.value
      if (peekT a.2 0).ttype = .LPAREN then do
        let st := (advanceT a.2).2
        let (args, st) ← parseArgList fuel st
        let (_, st) ← expectT .RPAREN st
        .ok (Expr.call name args, st)
      else
        if name.contains '_' then
          let parts := splitChar '_' name
          if (parts.headD []).length = 1 && parts.tail.all validIdx then
            .ok (parts.tail.foldl (fun b p => Expr.index b (Expr.var p))
              (Expr.var (parts.headD [])), a.2)
          else .ok (Expr.var name, a.2)
        else .ok (Expr.var name, a.2)
    else
      .ok (Expr.var (S "_unknown_"), (advanceT st).2)

/-- Parser.parse_arg_list of gen-math.py. -/
def parseArgList : Nat → PSt → Except PErr (List Expr × PSt)
  | 0, _ => .error .fuelOut
  | fuel + 1, st =>
    if (peekT st 0).ttype = .RPAREN then .ok ([], st)
    else do
      let (first, st) ← parseExpr fuel st
      let (rest, st) ← parseArgsMore fuel st
      .ok (first :: rest, st)

/-- Parser.parse_arg_list of gen-math.py, comma loop. -/
def parseArgsMore : Nat → PSt → Except PErr (List Expr × PSt)
  | 0, _ => .error .fuelOut
  | fuel + 1, st =>
    if (peekT st 0).ttype = .COMMA then do
      let st := (advanceT st).2
      let (e, st) ← parseExpr fuel st
      let (rest, st) ← parseArgsMore fuel st
      .ok (e :: rest, st)
    else .ok ([], st)

/-- Parser.parse_vector_or_matrix of gen-math.py. -/
def parseVectorOrMatrix : Nat → PSt → Except PErr (Expr × PSt)
  | 0, _ => .error .fuelOut
  | fuel + 1, st => do
    let (_, st) ← expectT .LBRACKET st
    if (peekT st 0).ttype = .LBRACKET then do
      let (rows, st) ← parseMatrixRows fuel st
      let (_, st) ← expectT .RBRACKET st
      .ok (Expr.matrix rows, st)
    else do
      let (first, st) ← parseExpr fuel st
      if (peekT st 0).ttype = .PIPE then do
        let st := (advanceT st).2
        let a := advanceT st
        let (_, st) ← expectT .IN a.2
        let rng := parseRangeTok st
        let (_, st) ← expectT .RBRACKET rng.2
        .ok (Expr.compr first a.1.value rng.1, st)
      else do
        let (more, st) ← parseVecMore fuel st
        let (_, st) ← expectT .RBRACKET st
        let elements := first :: more
        if isVectorE first then .ok (Expr.matrix (elements.map toRowE), st)
        else .ok (Expr.vector elements, st)

/-- Parser.parse_vector_or_matrix of gen-math.py, vector element loop
(a trailing comma before the closing bracket is allowed). -/
def parseVecMore : Nat → PSt → Except PErr (List Expr × PSt)
  | 0, _ => .error .fuelOut
  | fuel + 1, st =>
    if (peekT st 0).ttype = .COMMA then do
      let st := (advanceT st).2
      if (peekT st 0).ttype = .RBRACKET then .ok ([], st)
      else do
        let (e, st) ← parseExpr fuel st
        let (rest, st) ← parseVecMore fuel st
        .ok (e :: rest, st)
    else .ok ([], st)

/-- Parser.parse_vector_or_matrix of gen-math.py, matrix row loop. -/
def parseMatrixRows : Nat → PSt → Except PErr (List (List Expr) × PSt)
  | 0, _ => .error .fuelOut
  | fuel + 1, st =>
    if (peekT st 0).ttype = .LBRACKET then do
      let st := (advanceT st).2
      let (first, st) ← parseExpr fuel st
      let (more, st) ← parseRowMore fuel st
      let (_, st) ← expectT .RBRACKET st
      let row := first :: more
      let st := if (peekT st 0).ttype = .COMMA then (advanceT st).2 else st
      if (peekT st 0).ttype = .RBRACKET then .ok ([row], st)
      else do
        let (rest, st) ← parseMatrixRows fuel st
        .ok (row :: rest, st)
    else .ok ([], st)

/-- Parser.parse_vector_or_matrix of gen-math.py, row element loop
(a trailing comma before the closing bracket is allowed). -/
def parseRowMore : Nat → PSt → Except PErr (List Expr × PSt)
  | 0, _ => .error .fuelOut
  | fuel + 1, st =>
    if (peekT st 0).ttype = .COMMA then do
      let st := (advanceT st).2
      if (peekT st 0).ttype = .RBRACKET then .ok ([], st)
      else do
        let (e, st) ← parseExpr fuel st
        let (rest, st) ← parseRowMore fuel st
        .ok (e :: rest, st)
    else .ok ([], st)

end

/-- Parser.parse_func of gen-math.py: one function definition, or none
when the leading token is not an identifier (which is skipped). -/
def parseFunc (fuel : Nat) (st : PSt) : Except PErr (Option FuncDef × PSt) := do
  let st := skipNL st
  if (peekT st 0).ttype ≠ .IDENT then
    .ok (none, (advanceT st).2)
  else do
    let a := advanceT st
    let (_, st) ← expectT .LPAREN a.2
    let pl := parseParamList fuel st
    let (_, st) ← expectT .RPAREN pl.2
    let (_, st) ← expectT .EQ st
    let (body, st) ← parseExpr fuel st
    let st := skipNL st
    let wb ←
      if (peekT st 0).ttype = .WHERE then
        let st := (advanceT st).2
        let st := skipNL st
        pure (parseWhereBlock fuel st)
      else pure (([] : List (List Char × List Char)), st)
    let typedParams := pl.1.map (fun p => Param.mk p (lookupType wb.1 p))
    let ret := inferReturnType body wb.1
    .ok (some (FuncDef.mk a.1.value typedParams ret body), wb.2)

/-- Parser.parse of gen-math.py: the list of function definitions. -/
def parseTop : Nat → PSt → Except PErr (List FuncDef × PSt)
  | 0, _ => .error .fuelOut
  | fuel + 1, st =>
    if (peekT st 0).ttype = .EOF then .ok ([], st)
    else do
      let st₁ := skipNL st
      if (peekT st₁ 0).ttype = .EOF then .ok ([], st₁)
      else do
        let (f?, st₂) ← parseFunc fuel st₁
        let (fs, st₃) ← parseTop fuel st₂
        match f? with
        | some f => .ok (f :: fs, st₃)
        | none => .ok (fs, st₃)

/-- Run of the whole parser on a token list with the given fuel. -/
def parseAll (fuel : Nat) (toks : List Token) : Except PErr (List FuncDef) :=
  match parseTop fuel ⟨toks, 0⟩ with
  | .ok r => .ok r.1
  | .error e => .error e

/-- Arithmetic modes, mirroring the Mode enum of gen-math.py. -/
inductive Mode where
  | float
  | fixed
deriving DecidableEq, Repr

/-- Join with ", " (Python ", ".join). -/
def joinComma (l : List (List Char)) : List Char := (S ", ").intercalate l

/-- Join with a newline (Python "\n".join). -/
def joinNL (l : List (List Char)) : List Char := (S "\n").intercalate l

/-- CodeGen.c_type of gen-math.py. -/
def cType (t : List Char) : List Char :=
  if t = S "ℝ" || t = S "scalar" || t = S "ℝ¹" then S "float"
  else if t = S "ℝ³" || t = S "ℝ⁴" || t = S "ℝ4" || t = S "vec4" || t = S "vec3" then
    S "b3d_vec_t"
  else if t = S "ℝ⁴ˣ⁴" || t = S "ℝ4x4" || t = S "mat4" then S "b3d_mat_t"
  else if t = S "ℤ" || t = S "int" then S "int"
  else S "float"

/-- Whether an expression is a let binding (isinstance check of
gen-math.py). -/
def isLetE : Expr → Bool
  | .letE _ _ => true
  | _ => false

/-- CodeGen.has_nested_conditional_lets of gen-math.py. -/
def hasNestedCondLets : Expr → Bool
  | .letE _ b => hasNestedCondLets b
  | .ifE _ t e =>
    (isLetE t || hasNestedCondLets t) || (isLetE e || hasNestedCondLets e)
  | _ => false

/-- CodeGen.infer_c_type of gen-math.py. -/
def inferCType : Expr → List Char
  | .norm _ => S "float"
  | .call f _ =>
    if f = S "vec_dot" || f = S "vec_length" || f = S "vec_length_sq" || f = S "sqrt" then
      S "float"
    else if f = S "mat_row3" then S "b3d_vec_t"
    else if (S "vec_").isPrefixOf f then S "b3d_vec_t"
    else if (S "mat_").isPrefixOf f then S "b3d_mat_t"
    else S "float"
  | .vector _ => S "b3d_vec_t"
  | .compr _ _ _ => S "b3d_vec_t"
  | .matrix _ => S "b3d_mat_t"
  | _ => S "float"

/-- CodeGen.emit_var of gen-math.py: the mode-dependent constants table
with fallback to the name itself. -/
def emitVar (mode : Mode) (suffix : List Char) (name : List Char) : List Char :=
  if name = S "PI" then
    if mode = .float then S "B3D_PI" else S "B3D_FP_PI"
  else if name = S "EPSILON" then
    if mode = .float then S "B3D_EPSILON" else S "B3D_FP_EPSILON"
  else if name = S "ZERO" then
    if mode = .float then S "0.0f" else S "0"
  else if name = S "ONE" then
    if mode = .float then S "1.0f" else S "B3D_FP_ONE"
  else if name = S "I" then S "b3d_mat_ident" ++ suffix ++ S "()"
  else name

/-- CodeGen.emit_binop of gen-math.py. -/
def emitBinop (mode : Mode) (suffix : List Char) (op l r : List Char) : List Char :=
  match mode with
  | .float =>
    if op = S "dot" then S "b3d_vec_dot" ++ suffix ++ S "(" ++ l ++ S ", " ++ r ++ S ")"
    else if op = S "cross" then
      S "b3d_vec_cross" ++ suffix ++ S "(" ++ l ++ S ", " ++ r ++ S ")"
    else S "((" ++ l ++ S ") " ++ op ++ S " (" ++ r ++ S "))"
  | .fixed =>
    if op = S "+" then S "B3D_FP_ADD(" ++ l ++ S ", " ++ r ++ S ")"
    else if op = S "-" then S "B3D_FP_SUB(" ++ l ++ S ", " ++ r ++ S ")"
    else if op = S "*" then S "B3D_FP_MUL(" ++ l ++ S ", " ++ r ++ S ")"
    else if op = S "/" then S "B3D_FP_DIV(" ++ l ++ S ", " ++ r ++ S ")"
    else if op = S "dot" then S "b3d_vec_dot" ++ suffix ++ S "(" ++ l ++ S ", " ++ r ++ S ")"
    else if op = S "cross" then
      S "b3d_vec_cross" ++ suffix ++ S "(" ++ l ++ S ", " ++ r ++ S ")"
    else S "((" ++ l ++ S ") " ++ op ++ S " (" ++ r ++ S "))"

/-- INT_PARAM_FUNCS of gen-math.py: argument positions emitted in
integer context. -/
def intParamIdxs (f : List Char) : List Nat :=
  if f = S "mat_row3" then [1] else []

/-- CodeGen.emit_call of gen-math.py.  The builtins index their argument
list; a missing argument is Python IndexError, modelled as none. -/
def emitCall (suffix func : List Char) (args : List (List Char)) : Option (List Char) :=
  if func = S "sqrt" then do
    let a0 ← args.get? 0
    some (S "b3d_sqrtf(" ++ a0 ++ S ")")
  else if func = S "sin" then do
    let a0 ← args.get? 0
    some (S "b3d_sinf(" ++ a0 ++ S ")")
  else if func = S "cos" then do
    let a0 ← args.get? 0
    some (S "b3d_cosf(" ++ a0 ++ S ")")
  else if func = S "tan" then do
    let a0 ← args.get? 0
    some (S "b3d_tanf(" ++ a0 ++ S ")")
  else if func = S "abs" then do
    let a0 ← args.get? 0
    some (S "b3d_fabsf(" ++ a0 ++ S ")")
  else if func = S "floor" then do
    let a0 ← args.get? 0
    some (S "floorf(" ++ a0 ++ S ")")
  else if func = S "min" then do
    let a0 ← args.get? 0
    let a1 ← args.get? 1
    some (S "fminf(" ++ a0 ++ S ", " ++ a1 ++ S ")")
  else if func = S "max" then do
    let a0 ← args.get? 0
    let a1 ← args.get? 1
    some (S "fmaxf(" ++ a0 ++ S ", " ++ a1 ++ S ")")
  else if func = S "clamp" then do
    let a0 ← args.get? 0
    let a1 ← args.get? 1
    let a2 ← args.get? 2
    some (S "fminf(fmaxf(" ++ a0 ++ S ", " ++ a1 ++ S "), " ++ a2 ++ S ")")
  else if func = S "kronecker" then do
    let a0 ← args.get? 0
    let a1 ← args.get? 1
    some (S "((" ++ a0 ++ S ") == (" ++ a1 ++ S ") ? 1.0f : 0.0f)")
  else some (S "b3d_" ++ func ++ suffix ++ S "(" ++ joinComma args ++ S ")")

/-- Value of a nonempty ASCII digit string. -/
def digitsVal (ds : List Char) : Nat :=
  ds.foldl (fun acc c => acc * 10 + (c.toNat - 48)) 0

/-- Decimal digits of a natural number, fuelled by the number itself. -/
def natDigs : Nat → Nat → List Char
  | 0, n => [Char.ofNat (48 + n % 10)]
  | fuel + 1, n =>
    if n < 10 then [Char.ofNat (48 + n)]
    else natDigs fuel (n / 10) ++ [Char.ofNat (48 + n % 10)]

/-- Models Python str on a natural number. -/
def natToStr (n : Nat) : List Char := natDigs n n

/-- Models Python str on an int. -/
def intToStr (i : Int) : List Char :=
  if i < 0 then '-' :: natToStr i.natAbs else natToStr i.natAbs

/-- Whitespace stripped by Python int(str). -/
def pyIntSp (c : Char) : Bool :=
  c = ' ' || c = '\t' || c = '\n' || c = '\r' ||
  c = Char.ofNat 11 || c = Char.ofNat 12

/-- Digit-string part of Python int(str). -/
def pyIntDigits (ds : List Char) : Option Int :=
  if ds ≠ [] && ds.all pyDigit then some (digitsVal ds) else none

/-- Models Python int(str): optional surrounding whitespace, optional
sign, at least one digit (underscore digit grouping is outside the
modelled repertoire); anything else raises ValueError, modelled as
none. -/
def pyInt (s : List Char) : Option Int :=
  let t := ((s.dropWhile pyIntSp).reverse.dropWhile pyIntSp).reverse
  if t.headD ' ' = '+' then pyIntDigits t.tail
  else if t.headD ' ' = '-' then (pyIntDigits t.tail).map (fun n => -n)
  else pyIntDigits t

/-- Models Python range(a, b) rendered with str, fuelled loop body. -/
def rangeListAux : Nat → Int → List (List Char)
  | 0, _ => []
  | fuel + 1, a => intToStr a :: rangeListAux fuel (a + 1)

/-- Models [str(i) for i in range(a, b)] of CodeGen.parse_range. -/
def rangeList (a b : Int) : List (List Char) := rangeListAux (b - a).toNat a

/-- Models Python str.split(sep) for a nonempty separator, fuelled scan
(fuel at least the length of the string suffices). -/
def splitSubAux : Nat → List Char → List Char → List Char → List (List Char)
  | 0, _, acc, s => [acc.reverse ++ s]
  | _ + 1, _, acc, [] => [acc.reverse]
  | fuel + 1, sep, acc, c :: cs =>
    if sep.isPrefixOf (c :: cs) then
      acc.reverse :: splitSubAux fuel sep [] ((c :: cs).drop sep.length)
    else splitSubAux fuel sep (c :: acc) cs

/-- Models Python str.split(sep) for a nonempty separator. -/
def splitSub (sep s : List Char) : List (List Char) :=
  splitSubAux (s.length + 1) sep [] s

/-- CodeGen.parse_range of gen-math.py: "xyz" and "xyzw" name component
lists, "a..b" is a half-open integer interval (unpacking or int() can
raise ValueError, modelled as none), anything else is a singleton. -/
def parseRangeG (rng : List Char) : Option (List (List Char)) :=
  if rng = S "xyz" then some [S "x", S "y", S "z"]
  else if rng = S "xyzw" then some [S "x", S "y", S "z", S "w"]
  else if containsSub (S "..") rng then
    match splitSub (S "..") rng with
    | [a, b] => do
      let ia ← pyInt a
      let ib ← pyInt b
      some (rangeList ia ib)
    | _ => none
  else some [rng]

/-- Whether the word-boundary \b holds after a prefix of length
var.length of s: either nothing follows or a non-word character
follows. -/
def bAfterB (var s : List Char) : Bool :=
  match s.drop var.length with
  | [] => true
  | d :: _ => !wordChar d

/-- Models re.sub(rf"\b{var}\b", val, code) for a word-character var:
replace every word-bounded occurrence of var, scanning left to right.
The Boolean argument records whether the previously scanned character
was a word character (false at the start of the string).  Fuelled; fuel
at least the length of the string suffices.  For var = [] the Python
pattern degenerates; the model leaves the string unchanged (no caller
passes an empty var in the verified claims). -/
def subWF : Nat → List Char → List Char → Bool → List Char → List Char
  | 0, _, _, _, s => s
  | _ + 1, _, _, _, [] => []
  | fuel + 1, var, val, prevW, c :: cs =>
    if var ≠ [] && prevW = false && var.isPrefixOf (c :: cs) && bAfterB var (c :: cs) then
      val ++ subWF fuel var val true ((c :: cs).drop var.length)
    else c :: subWF fuel var val (wordChar c) cs

/-- Word-bounded substitution of var by val (first step of
CodeGen.substitute_index). -/
def subWord (var val code : List Char) : List Char :=
  subWF code.length var val false code

/-- Models re.sub(r"\[v\](?!\[)", ".v", code) for a component letter v
(the vector clean-up of CodeGen.substitute_index). -/
def compFix (v : Char) : List Char → List Char
  | '[' :: c :: ']' :: rest =>
    if c = v && rest.headD ' ' ≠ '[' then '.' :: v :: compFix v rest
    else '[' :: compFix v (c :: ']' :: rest)
  | c :: cs => c :: compFix v cs
  | [] => []

/-- Models re.sub(r"\[d\.0f\]", "[d]", code) for a digit d (the matrix
index clean-up of CodeGen.substitute_index). -/
def idxFix0f (d : Char) : List Char → List Char
  | '[' :: c :: '.' :: '0' :: 'f' :: ']' :: rest =>
    if c = d then '[' :: d :: ']' :: idxFix0f d rest
    else '[' :: idxFix0f d (c :: '.' :: '0' :: 'f' :: ']' :: rest)
  | c :: cs => c :: idxFix0f d cs
  | [] => []

/-- Models re.sub(r"(?<!\])\[d\](?!\[)", ".comp", code) for a digit d
and its component letter comp.  The prev argument is the character
before the scan position in the original string (lookbehinds refer to
the original text). -/
def idxComp (d comp : Char) (prev : Option Char) : List Char → List Char
  | '[' :: c :: ']' :: rest =>
    if c = d && prev ≠ some ']' && rest.headD ' ' ≠ '[' then
      '.' :: comp :: idxComp d comp (some ']') rest
    else '[' :: idxComp d comp (some '[') (c :: ']' :: rest)
  | c :: cs => c :: idxComp d comp (some c) cs
  | [] => []

/-- Models re.sub(r"\.m\[(\d+)\.0f\]", r".m[\1]", code) (the final
clean-up of CodeGen.substitute_index).  Fuelled; fuel at least the
length of the string suffices. -/
def mFixAux : Nat → List Char → List Char
  | 0, s => s
  | _ + 1, [] => []
  | fuel + 1, '.' :: 'm' :: '[' :: rest =>
    let ds := rest.takeWhile pyDigit
    let r2 := rest.dropWhile pyDigit
    if ds ≠ [] && (S ".0f]").isPrefixOf r2 then
      S ".m[" ++ ds ++ S "]" ++ mFixAux fuel (r2.drop 4)
    else '.' :: mFixAux fuel ('m' :: '[' :: rest)
  | fuel + 1, c :: cs => c :: mFixAux fuel cs

/-- Final clean-up of CodeGen.substitute_index. -/
def mFix (s : List Char) : List Char := mFixAux s.length s

/-- CodeGen.substitute_index of gen-math.py: word-bounded replacement of
the loop variable, then the component-access clean-up appropriate to
the index value, then the matrix-index clean-up. -/
def substituteIndex (code var val : List Char) : List Char :=
  let c1 := subWord var val code
  let c2 :=
    if val = S "x" || val = S "y" || val = S "z" || val = S "w" then
      compFix (val.headD 'x') c1
    else if val = S "0" || val = S "1" || val = S "2" || val = S "3" then
      let d := val.headD '0'
      let comp :=
        if val = S "0" then 'x'
        else if val = S "1" then 'y'
        else if val = S "2" then 'z'
        else 'w'
      idxComp d comp none (idxFix0f d c1)
    else c1
  mFix c2

/-- Suffix strip re.sub(r"\.0f$", "", s) used on matrix indices. -/
def stripDot0f (s : List Char) : List Char :=
  if (S ".0f").isSuffixOf s then s.take (s.length - 3) else s

/-- Whether a whole-word occurrence of var begins at the head of s
(left boundary not checked here): var is a prefix and the following
character, if any, is not a word character. -/
def wwAt (var s : List Char) : Bool := var.isPrefixOf s && bAfterB var s

/-- Scan for a whole-word occurrence of var; the Boolean records
whether the character before the scan position is a word character
(false at the start of the text). -/
def cwAux (var : List Char) : Bool → List Char → Bool
  | _, [] => false
  | prevW, c :: cs => (!prevW && wwAt var (c :: cs)) || cwAux var (wordChar c) cs

/-- The text contains var as a whole word, the notion matched by the
regex \bvar\b of CodeGen.substitute_index for a word-character var. -/
def containsWord (s var : List Char) : Bool := cwAux var false s

mutual

/-- CodeGen.emit_expr of gen-math.py.  The Boolean is the
emit_int_context flag, threaded as state because the Python attribute
is mutable on the generator object; the result is none when Python
would raise (IndexError in emit_call, ValueError in parse_range) or on
fuel exhaustion. -/
def emitExpr (mode : Mode) (suffix : List Char) :
    Nat → Expr → Bool → Option (List Char × Bool)
  | 0, _, _ => none
  | fuel + 1, e, ic =>
    match e with
    | .num v =>
      if ic then some (if v.contains '.' then v.takeWhile (fun c => c ≠ '.') else v, ic)
      else if v.contains '.' then some (v ++ S "f", ic)
      else some (v ++ S ".0f", ic)
    | .var n => some (emitVar mode suffix n, ic)
    | .binOp op l r => do
      let (ls, ic₁) ← emitExpr mode suffix fuel l ic
      let (rs, ic₂) ← emitExpr mode suffix fuel r ic₁
      some (emitBinop mode suffix op ls rs, ic₂)
    | .unary op x => do
      let (xs, ic₁) ← emitExpr mode suffix fuel x ic
      if op = S "-" then some (S "-(" ++ xs ++ S ")", ic₁)
      else if op = S "T" then
        some (S "b3d_mat_transpose" ++ suffix ++ S "(" ++ xs ++ S ")", ic₁)
      else some (op ++ S "(" ++ xs ++ S ")", ic₁)
    | .call f args => do
      let (as, ic₁) ← emitCallArgs mode suffix fuel f args 0 ic
      let r ← emitCall suffix f as
      some (r, ic₁)
    | .index b i => do
      let (bs, ic₁) ← emitExpr mode suffix fuel b ic
      let (is, ic₂) ← emitExpr mode suffix fuel i ic₁
      if is = S "0" || is = S "0.0f" then some (bs ++ S ".x", ic₂)
      else if is = S "1" || is = S "1.0f" then some (bs ++ S ".y", ic₂)
      else if is = S "2" || is = S "2.0f" then some (bs ++ S ".z", ic₂)
      else if is = S "3" || is = S "3.0f" then some (bs ++ S ".w", ic₂)
      else if is = S "x" || is = S "y" || is = S "z" || is = S "w" then
        some (bs ++ S "." ++ is, ic₂)
      else some (bs ++ S "[" ++ is ++ S "]", ic₂)
    | .matrixIndex b r c => do
      let (bs, ic₁) ← emitExpr mode suffix fuel b ic
      let (rs, ic₂) ← emitExpr mode suffix fuel r ic₁
      let (cs, ic₃) ← emitExpr mode suffix fuel c ic₂
      some (bs ++ S ".m[" ++ stripDot0f rs ++ S "][" ++ stripDot0f cs ++ S "]", ic₃)
    | .dotAccess b f => do
      let (bs, ic₁) ← emitExpr mode suffix fuel b ic
      some (bs ++ S "." ++ f, ic₁)
    | .sum v rng body => emitSumE mode suffix fuel v rng body ic
    | .norm x => do
      let (xs, ic₁) ← emitExpr mode suffix fuel x ic
      some (S "b3d_vec_length" ++ suffix ++ S "(" ++ xs ++ S ")", ic₁)
    | .vector es => do
      let (ss, ic₁) ← emitList mode suffix fuel es ic
      some (S "(b3d_vec_t)\x7b" ++ joinComma ss ++ S "\x7d", ic₁)
    | .compr body v rng => emitComprE mode suffix fuel body v rng ic
    | .matrix rows => do
      let (rs, ic₁) ← emitRows mode suffix fuel rows ic
      some (S "(b3d_mat_t)\x7b.m = \x7b" ++ joinComma rs ++ S "\x7d\x7d", ic₁)
    | .letE _ body => emitExpr mode suffix fuel body ic
    | .ifE c t e' => do
      let (cs, ic₁) ← emitExpr mode suffix fuel c ic
      let (ts, ic₂) ← emitExpr mode suffix fuel t ic₁
      let (es, ic₃) ← emitExpr mode suffix fuel e' ic₂
      some (S "((" ++ cs ++ S ") ? " ++ ts ++ S " : " ++ es ++ S ")", ic₃)

/-- CodeGen.emit_sum of gen-math.py: parse the range, render the body
once per index (threading the int-context flag), substitute the loop
variable, parenthesize, and join the terms with " + ". -/
def emitSumE (mode : Mode) (suffix : List Char) :
    Nat → List Char → List Char → Expr → Bool → Option (List Char × Bool)
  | 0, _, _, _, _ => none
  | fuel + 1, v, rng, body, ic => do
    let idxs ← parseRangeG rng
    let (codes, ic₁) ← emitIter mode suffix fuel body idxs.length ic
    let terms := (codes.zip idxs).map
      (fun p => S "(" ++ substituteIndex p.1 v p.2 ++ S ")")
    some ((S " + ").intercalate terms, ic₁)

/-- CodeGen.emit_comprehension of gen-math.py: like emit_sum but the
substituted elements are joined with ", " inside a vector literal. -/
def emitComprE (mode : Mode) (suffix : List Char) :
    Nat → Expr → List Char → List Char → Bool → Option (List Char × Bool)
  | 0, _, _, _, _ => none
  | fuel + 1, body, v, rng, ic => do
    let idxs ← parseRangeG rng
    let (codes, ic₁) ← emitIter mode suffix fuel body idxs.length ic
    let elems := (codes.zip idxs).map (fun p => substituteIndex p.1 v p.2)
    some (S "(b3d_vec_t)\x7b" ++ joinComma elems ++ S "\x7d", ic₁)

/-- Repeated rendering of a loop body (the per-index emit_expr calls of
emit_sum and emit_comprehension), threading the int-context flag. -/
def emitIter (mode : Mode) (suffix : List Char) :
    Nat → Expr → Nat → Bool → Option (List (List Char) × Bool)
  | _, _, 0, ic => some ([], ic)
  | 0, _, _ + 1, _ => none
  | fuel + 1, body, n + 1, ic => do
    let (s, ic₁) ← emitExpr mode suffix fuel body ic
    let (ss, ic₂) ← emitIter mode suffix fuel body n ic₁
    some (s :: ss, ic₂)

/-- Left-to-right emission of a list of expressions (vector elements,
matrix row elements). -/
def emitList (mode : Mode) (suffix : List Char) :
    Nat → List Expr → Bool → Option (List (List Char) × Bool)
  | _, [], ic => some ([], ic)
  | 0, _ :: _, _ => none
  | fuel + 1, e :: rest, ic => do
    let (s, ic₁) ← emitExpr mode suffix fuel e ic
    let (ss, ic₂) ← emitList mode suffix fuel rest ic₁
    some (s :: ss, ic₂)

/-- Row strings of a matrix literal (emit_expr MatrixExpr case). -/
def emitRows (mode : Mode) (suffix : List Char) :
    Nat → List (List Expr) → Bool → Option (List (List Char) × Bool)
  | _, [], ic => some ([], ic)
  | 0, _ :: _, _ => none
  | fuel + 1, row :: rest, ic => do
    let (es, ic₁) ← emitList mode suffix fuel row ic
    let (rs, ic₂) ← emitRows mode suffix fuel rest ic₁
    some ((S "\x7b" ++ joinComma es ++ S "\x7d") :: rs, ic₂)

/-- CodeGen.emit_call_args of gen-math.py: arguments are emitted left to
right; an argument position listed in INT_PARAM_FUNCS is emitted with
the int-context flag set, and the flag is reset to False afterwards
(the Python attribute assignment, not a restore of the previous
value). -/
def emitCallArgs (mode : Mode) (suffix : List Char) :
    Nat → List Char → List Expr → Nat → Bool → Option (List (List Char) × Bool)
  | _, _, [], _, ic => some ([], ic)
  | 0, _, _ :: _, _, _ => none
  | fuel + 1, f, a :: rest, i, ic =>
    if (intParamIdxs f).contains i then do
      let (s, _) ← emitExpr mode suffix fuel a true
      let (ss, ic₂) ← emitCallArgs mode suffix fuel f rest (i + 1) false
      some (s :: ss, ic₂)
    else do
      let (s, ic₁) ← emitExpr mode suffix fuel a ic
      let (ss, ic₂) ← emitCallArgs mode suffix fuel f rest (i + 1) ic₁
      some (s :: ss, ic₂)

end

/-- Declaration strings for one group of let bindings (the inner loop of
CodeGen.extract_lets and CodeGen.emit_complex_body). -/
def emitBindings (mode : Mode) (suffix : List Char) :
    Nat → List (List Char × Expr) → Bool → Option (List (List Char) × Bool)
  | _, [], ic => some ([], ic)
  | fuel, (name, value) :: rest, ic => do
    let (code, ic₁) ← emitExpr mode suffix fuel value ic
    let (ds, ic₂) ← emitBindings mode suffix fuel rest ic₁
    some ((inferCType value ++ S " " ++ name ++ S " = " ++ code ++ S ";") :: ds, ic₂)

/-- CodeGen.extract_lets of gen-math.py: peel let layers into
declaration strings and emit the residual expression. -/
def extractLets (mode : Mode) (suffix : List Char) :
    Nat → Expr → Bool → Option (List (List Char) × List Char × Bool)
  | 0, _, _ => none
  | fuel + 1, .letE bs body, ic => do
    let (ds, ic₁) ← emitBindings mode suffix (fuel + 1) bs ic
    let (more, fin, ic₂) ← extractLets mode suffix fuel body ic₁
    some (ds ++ more, fin, ic₂)
  | fuel + 1, e, ic => do
    let (s, ic₁) ← emitExpr mode suffix (fuel + 1) e ic
    some ([], s, ic₁)

/-- Indentation string "    " * n. -/
def indS (n : Nat) : List Char := (List.replicate n (S "    ")).flatten

/-- CodeGen.emit_complex_body of gen-math.py: outer lets become
declarations; a conditional one of whose branches contains a let
becomes an if/else block, otherwise a ternary return; a plain
expression becomes a return statement.  The ret argument mirrors the
unused ret_type parameter of the Python method. -/
def emitComplexBody (mode : Mode) (suffix : List Char) :
    Nat → Expr → List Char → Nat → Bool → Option (List Char × Bool)
  | 0, _, _, _, _ => none
  | fuel + 1, .letE bs body, ret, ind, ic => do
    let (ds, ic₁) ← emitBindings mode suffix (fuel + 1) bs ic
    let (rest, ic₂) ← emitComplexBody mode suffix fuel body ret ind ic₁
    let declLines := ds.map (fun d => indS ind ++ d)
    if declLines.isEmpty then some (rest, ic₂)
    else some (joinNL declLines ++ S "\n" ++ rest, ic₂)
  | fuel + 1, .ifE c t e, ret, ind, ic => do
    let (cs, ic₁) ← emitExpr mode suffix (fuel + 1) c ic
    let thenHas := isLetE t || hasNestedCondLets t
    let elseHas := isLetE e || hasNestedCondLets e
    if thenHas || elseHas then do
      let (tb, ic₂) ← emitComplexBody mode suffix fuel t ret (ind + 1) ic₁
      let (eb, ic₃) ← emitComplexBody mode suffix fuel e ret (ind + 1) ic₂
      some (indS ind ++ S "if (" ++ cs ++ S ") \x7b\n" ++ tb ++ S "\n" ++
        indS ind ++ S "\x7d else \x7b\n" ++ eb ++ S "\n" ++ indS ind ++ S "\x7d", ic₃)
    else do
      let (ts, ic₂) ← emitExpr mode suffix (fuel + 1) t ic₁
      let (es, ic₃) ← emitExpr mode suffix (fuel + 1) e ic₂
      some (indS ind ++ S "return ((" ++ cs ++ S ") ? " ++ ts ++ S " : " ++ es ++ S ");",
        ic₃)
  | fuel + 1, e, _, ind, ic => do
    let (s, ic₁) ← emitExpr mode suffix (fuel + 1) e ic
    some (indS ind ++ S "return " ++ s ++ S ";", ic₁)

/-- CodeGen.emit_func of gen-math.py. -/
def emitFunc (mode : Mode) (suffix : List Char) (fuel : Nat) (f : FuncDef)
    (ic : Bool) : Option (List Char × Bool) :=
  let retType := cType f.returnType
  let params := joinComma (f.params.map (fun p => cType p.typeStr ++ S " " ++ p.name))
  let funcName := S "b3d_" ++ f.name ++ suffix
  let head := S "static inline " ++ retType ++ S " " ++ funcName ++ S "(" ++ params ++ S ")"
  if hasNestedCondLets f.body then do
    let (bodyLines, ic₁) ← emitComplexBody mode suffix fuel f.body retType 1 ic
    some (head ++ S "\n\x7b\n" ++ bodyLines ++ S "\n\x7d", ic₁)
  else do
    let (decls, fin, ic₁) ← extractLets mode suffix fuel f.body ic
    if decls.isEmpty then do
      let (bodyCode, ic₂) ← emitExpr mode suffix fuel f.body ic₁
      some (head ++ S "\n\x7b\n    return " ++ bodyCode ++ S ";\n\x7d", ic₂)
    else
      let declStr := joinNL (decls.map (fun d => S "    " ++ d))
      some (head ++ S "\n\x7b\n" ++ declStr ++ S "\n\n    return " ++ fin ++ S ";\n\x7d", ic₁)

/-- Header comment lines of generate_c of gen-math.py. -/
def hdrLines (mode : Mode) : List (List Char) :=
  [S "/* Auto-generated from math.dsl - DO NOT EDIT",
   S " *",
   S " * Math operations for B3D (" ++
     (if mode = .float then S "floating-point" else S "fixed-point") ++ S " mode).",
   S " * I❤LA-style DSL compiled to C.",
   S " */",
   []]

/-- Per-function output lines of generate_c (each function followed by a
blank line), threading the generator state across functions. -/
def genFuncLines (mode : Mode) (suffix : List Char) (fuel : Nat) :
    List FuncDef → Bool → Option (List (List Char) × Bool)
  | [], ic => some ([], ic)
  | f :: rest, ic => do
    let (s, ic₁) ← emitFunc mode suffix fuel f ic
    let (ls, ic₂) ← genFuncLines mode suffix fuel rest ic₁
    some (s :: [] :: ls, ic₂)

/-- generate_c of gen-math.py: header comment then the functions,
joined with newlines. -/
def generateC (mode : Mode) (suffix : List Char) (fuel : Nat)
    (funcs : List FuncDef) : Option (List Char) := do
  let (ls, _) ← genFuncLines mode suffix fuel funcs false
  some (joinNL (hdrLines mode ++ ls))

/-- The whole compiler pipeline of gen-math.py main: tokenize, parse,
generate; a parse error or generator exception yields none. -/
def genMath (mode : Mode) (suffix : List Char) (pfuel efuel : Nat)
    (src : List Char) : Option (List Char) :=
  match parseAll pfuel (tokenize src) with
  | .ok funcs => generateC mode suffix efuel funcs
  | .error _ => none

/-- The ASCII word class [a-zA-Z0-9_] of the negative lookbehind in
FUNC_PATTERN of check-math-usage.py. -/
def reWordAscii (c : Char) : Bool := c.isAlphanum || c = '_'

/-- Models the regex class \s on the ASCII repertoire. -/
def pySpace (c : Char) : Bool :=
  c = ' ' || c = '\t' || c = '\n' || c = '\r' ||
  c = Char.ofNat 11 || c = Char.ofNat 12

/-- FORBIDDEN_FUNCS of check-math-usage.py. -/
def forbiddenFuncs : List (List Char) :=
  [S "sinf", S "cosf", S "tanf", S "sqrtf", S "fabsf", S "sincosf"]

/-- The alternation (sinf|cosf|tanf|sqrtf|fabsf|sincosf) of FUNC_PATTERN
tried at the head of s, in source order. -/
def matchForbidden (s : List Char) : Option (List Char) :=
  if (S "sinf").isPrefixOf s then some (S "sinf")
  else if (S "cosf").isPrefixOf s then some (S "cosf")
  else if (S "tanf").isPrefixOf s then some (S "tanf")
  else if (S "sqrtf").isPrefixOf s then some (S "sqrtf")
  else if (S "fabsf").isPrefixOf s then some (S "fabsf")
  else if (S "sincosf").isPrefixOf s then some (S "sincosf")
  else none

/-- The negative lookbehind (?<![a-zA-Z0-9_]) given the character before
the scan position (none at the start of the line). -/
def bOK : Option Char → Bool
  | none => true
  | some c => !reWordAscii c

/-- Models FUNC_PATTERN.finditer of check-math-usage.py on one line:
left-to-right scan; at each position, the lookbehind, then one
forbidden name, then \s* and a literal ( must match; a match records
(start position, name) and the scan resumes after the parenthesis.
Fuelled; fuel at least the line length suffices. -/
def reMatchesAux : Nat → Option Char → Nat → List Char → List (Nat × List Char)
  | 0, _, _, _ => []
  | _ + 1, _, _, [] => []
  | fuel + 1, prev, pos, c :: cs =>
    if bOK prev then
      match matchForbidden (c :: cs) with
      | some nm =>
        let r1 := (c :: cs).drop nm.length
        let wsn := (r1.takeWhile pySpace).length
        match r1.dropWhile pySpace with
        | '(' :: r3 =>
          (pos, nm) :: reMatchesAux fuel (some '(') (pos + nm.length + wsn + 1) r3
        | _ => reMatchesAux fuel (some c) (pos + 1) cs
      | none => reMatchesAux fuel (some c) (pos + 1) cs
    else reMatchesAux fuel (some c) (pos + 1) cs

/-- The offenses FUNC_PATTERN reports on one (comment-stripped) line of
check_file in check-math-usage.py. -/
def lineOffenses (line : List Char) : List (Nat × List Char) :=
  reMatchesAux (line.length + 1) none 0 line

/-- The lowering context of the mode-swap law: the two tables through
which the mode is allowed to influence the emitted text, the binary
operator lowering of emit_binop and the named-constant table of
emit_var. -/
structure LowerCtx where
  bin : List Char → List Char → List Char → List Char
  konst : List Char → List Char

/-- The lowering context a given mode and suffix actually install. -/
def ctxFor (mode : Mode) (suffix : List Char) : LowerCtx :=
  LowerCtx.mk (emitBinop mode suffix) (emitVar mode suffix)

/-- The mode name interpolated into the header comment. -/
def modeWord (mode : Mode) : List Char :=
  if mode = .float then S "floating-point" else S "fixed-point"

mutual

/-- Generic clone of emitExpr in which the lowering of binary
operators and of named constants is abstracted into the LowerCtx
parameter; every other aspect of the emission is fixed. -/
def emitExprG (ctx : LowerCtx) (suffix : List Char) :
    Nat → Expr → Bool → Option (List Char × Bool)
  | 0, _, _ => none
  | fuel + 1, e, ic =>
    match e with
    | .num v =>
      if ic then some (if v.contains '.' then v.takeWhile (fun c => c ≠ '.') else v, ic)
      else if v.contains '.' then some (v ++ S "f", ic)
      else some (v ++ S ".0f", ic)
    | .var n => some (ctx.konst n, ic)
    | .binOp op l r => do
      let (ls, ic₁) ← emitExprG ctx suffix fuel l ic
      let (rs, ic₂) ← emitExprG ctx suffix fuel r ic₁
      some (ctx.bin op ls rs, ic₂)
    | .unary op x => do
      let (xs, ic₁) ← emitExprG ctx suffix fuel x ic
      if op = S "-" then some (S "-(" ++ xs ++ S ")", ic₁)
      else if op = S "T" then
        some (S "b3d_mat_transpose" ++ suffix ++ S "(" ++ xs ++ S ")", ic₁)
      else some (op ++ S "(" ++ xs ++ S ")", ic₁)
    | .call f args => do
      let (as, ic₁) ← emitCallArgsG ctx suffix fuel f args 0 ic
      let r ← emitCall suffix f as
      some (r, ic₁)
    | .index b i => do
      let (bs, ic₁) ← emitExprG ctx suffix fuel b ic
      let (is, ic₂) ← emitExprG ctx suffix fuel i ic₁
      if is = S "0" || is = S "0.0f" then some (bs ++ S ".x", ic₂)
      else if is = S "1" || is = S "1.0f" then some (bs ++ S ".y", ic₂)
      else if is = S "2" || is = S "2.0f" then some (bs ++ S ".z", ic₂)
      else if is = S "3" || is = S "3.0f" then some (bs ++ S ".w", ic₂)
      else if is = S "x" || is = S "y" || is = S "z" || is = S "w" then
        some (bs ++ S "." ++ is, ic₂)
      else some (bs ++ S "[" ++ is ++ S "]", ic₂)
    | .matrixIndex b r c => do
      let (bs, ic₁) ← emitExprG ctx suffix fuel b ic
      let (rs, ic₂) ← emitExprG ctx suffix fuel r ic₁
      let (cs, ic₃) ← emitExprG ctx suffix fuel c ic₂
      some (bs ++ S ".m[" ++ stripDot0f rs ++ S "][" ++ stripDot0f cs ++ S "]", ic₃)
    | .dotAccess b f => do
      let (bs, ic₁) ← emitExprG ctx suffix fuel b ic
      some (bs ++ S "." ++ f, ic₁)
    | .sum v rng body => emitSumEG ctx suffix fuel v rng body ic
    | .norm x => do
      let (xs, ic₁) ← emitExprG ctx suffix fuel x ic
      some (S "b3d_vec_length" ++ suffix ++ S "(" ++ xs ++ S ")", ic₁)
    | .vector es => do
      let (ss, ic₁) ← emitListG ctx suffix fuel es ic
      some (S "(b3d_vec_t)\x7b" ++ joinComma ss ++ S "\x7d", ic₁)
    | .compr body v rng => emitComprEG ctx suffix fuel body v rng ic
    | .matrix rows => do
      let (rs, ic₁) ← emitRowsG ctx suffix fuel rows ic
      some (S "(b3d_mat_t)\x7b.m = \x7b" ++ joinComma rs ++ S "\x7d\x7d", ic₁)
    | .letE _ body => emitExprG ctx suffix fuel body ic
    | .ifE c t e' => do
      let (cs, ic₁) ← emitExprG ctx suffix fuel c ic
      let (ts, ic₂) ← emitExprG ctx suffix fuel t ic₁
      let (es, ic₃) ← emitExprG ctx suffix fuel e' ic₂
      some (S "((" ++ cs ++ S ") ? " ++ ts ++ S " : " ++ es ++ S ")", ic₃)

/-- CodeGen.emit_sum of gen-math.py: parse the range, render the body
once per index (threading the int-context flag), substitute the loop
variable, parenthesize, and join the terms with " + ". -/
def emitSumEG (ctx : LowerCtx) (suffix : List Char) :
    Nat → List Char → List Char → Expr → Bool → Option (List Char × Bool)
  | 0, _, _, _, _ => none
  | fuel + 1, v, rng, body, ic => do
    let idxs ← parseRangeG rng
    let (codes, ic₁) ← emitIterG ctx suffix fuel body idxs.length ic
    let terms := (codes.zip idxs).map
      (fun p => S "(" ++ substituteIndex p.1 v p.2 ++ S ")")
    some ((S " + ").intercalate terms, ic₁)

/-- CodeGen.emit_comprehension of gen-math.py: like emit_sum but the
substituted elements are joined with ", " inside a vector literal. -/
def emitComprEG (ctx : LowerCtx) (suffix : List Char) :
    Nat → Expr → List Char → List Char → Bool → Option (List Char × Bool)
  | 0, _, _, _, _ => none
  | fuel + 1, body, v, rng, ic => do
    let idxs ← parseRangeG rng
    let (codes, ic₁) ← emitIterG ctx suffix fuel body idxs.length ic
    let elems := (codes.zip idxs).map (fun p => substituteIndex p.1 v p.2)
    some (S "(b3d_vec_t)\x7b" ++ joinComma elems ++ S "\x7d", ic₁)

/-- Repeated rendering of a loop body (the per-index emit_expr calls of
emit_sum and emit_comprehension), threading the int-context flag. -/
def emitIterG (ctx : LowerCtx) (suffix : List Char) :
    Nat → Expr → Nat → Bool → Option (List (List Char) × Bool)
  | _, _, 0, ic => some ([], ic)
  | 0, _, _ + 1, _ => none
  | fuel + 1, body, n + 1, ic => do
    let (s, ic₁) ← emitExprG ctx suffix fuel body ic
    let (ss, ic₂) ← emitIterG ctx suffix fuel body n ic₁
    some (s :: ss, ic₂)

/-- Left-to-right emission of a list of expressions (vector elements,
matrix row elements). -/
def emitListG (ctx : LowerCtx) (suffix : List Char) :
    Nat → List Expr → Bool → Option (List (List Char) × Bool)
  | _, [], ic => some ([], ic)
  | 0, _ :: _, _ => none
  | fuel + 1, e :: rest, ic => do
    let (s, ic₁) ← emitExprG ctx suffix fuel e ic
    let (ss, ic₂) ← emitListG ctx suffix fuel rest ic₁
    some (s :: ss, ic₂)

/-- Row strings of a matrix literal (emit_expr MatrixExpr case). -/
def emitRowsG (ctx : LowerCtx) (suffix : List Char) :
    Nat → List (List Expr) → Bool → Option (List (List Char) × Bool)
  | _, [], ic => some ([], ic)
  | 0, _ :: _, _ => none
  | fuel + 1, row :: rest, ic => do
    let (es, ic₁) ← emitListG ctx suffix fuel row ic
    let (rs, ic₂) ← emitRowsG ctx suffix fuel rest ic₁
    some ((S "\x7b" ++ joinComma es ++ S "\x7d") :: rs, ic₂)

/-- CodeGen.emit_call_args of gen-math.py: arguments are emitted left to
right; an argument position listed in INT_PARAM_FUNCS is emitted with
the int-context flag set, and the flag is reset to False afterwards
(the Python attribute assignment, not a restore of the previous
value). -/
def emitCallArgsG (ctx : LowerCtx) (suffix : List Char) :
    Nat → List Char → List Expr → Nat → Bool → Option (List (List Char) × Bool)
  | _, _, [], _, ic => some ([], ic)
  | 0, _, _ :: _, _, _ => none
  | fuel + 1, f, a :: rest, i, ic =>
    if (intParamIdxs f).contains i then do
      let (s, _) ← emitExprG ctx suffix fuel a true
      let (ss, ic₂) ← emitCallArgsG ctx suffix fuel f rest (i + 1) false
      some (s :: ss, ic₂)
    else do
      let (s, ic₁) ← emitExprG ctx suffix fuel a ic
      let (ss, ic₂) ← emitCallArgsG ctx suffix fuel f rest (i + 1) ic₁
      some (s :: ss, ic₂)

end

/-- Declaration strings for one group of let bindings (the inner loop of
CodeGen.extract_lets and CodeGen.emit_complex_body). -/
def emitBindingsG (ctx : LowerCtx) (suffix : List Char) :
    Nat → List (List Char × Expr) → Bool → Option (List (List Char) × Bool)
  | _, [], ic => some ([], ic)
  | fuel, (name, value) :: rest, ic => do
    let (code, ic₁) ← emitExprG ctx suffix fuel value ic
    let (ds, ic₂) ← emitBindingsG ctx suffix fuel rest ic₁
    some ((inferCType value ++ S " " ++ name ++ S " = " ++ code ++ S ";") :: ds, ic₂)

/-- CodeGen.extract_lets of gen-math.py: peel let layers into
declaration strings and emit the residual expression. -/
def extractLetsG (ctx : LowerCtx) (suffix : List Char) :
    Nat → Expr → Bool → Option (List (List Char) × List Char × Bool)
  | 0, _, _ => none
  | fuel + 1, .letE bs body, ic => do
    let (ds, ic₁) ← emitBindingsG ctx suffix (fuel + 1) bs ic
    let (more, fin, ic₂) ← extractLetsG ctx suffix fuel body ic₁
    some (ds ++ more, fin, ic₂)
  | fuel + 1, e, ic => do
    let (s, ic₁) ← emitExprG ctx suffix (fuel + 1) e ic
    some ([], s, ic₁)

/-- CodeGen.emit_complex_body of gen-math.py: outer lets become
declarations; a conditional one of whose branches contains a let
becomes an if/else block, otherwise a ternary return; a plain
expression becomes a return statement.  The ret argument mirrors the
unused ret_type parameter of the Python method. -/
def emitComplexBodyG (ctx : LowerCtx) (suffix : List Char) :
    Nat → Expr → List Char → Nat → Bool → Option (List Char × Bool)
  | 0, _, _, _, _ => none
  | fuel + 1, .letE bs body, ret, ind, ic => do
    let (ds, ic₁) ← emitBindingsG ctx suffix (fuel + 1) bs ic
    let (rest, ic₂) ← emitComplexBodyG ctx suffix fuel body ret ind ic₁
    let declLines := ds.map (fun d => indS ind ++ d)
    if declLines.isEmpty then some (rest, ic₂)
    else some (joinNL declLines ++ S "\n" ++ rest, ic₂)
  | fuel + 1, .ifE c t e, ret, ind, ic => do
    let (cs, ic₁) ← emitExprG ctx suffix (fuel + 1) c ic
    let thenHas := isLetE t || hasNestedCondLets t
    let elseHas := isLetE e || hasNestedCondLets e
    if thenHas || elseHas then do
      let (tb, ic₂) ← emitComplexBodyG ctx suffix fuel t ret (ind + 1) ic₁
      let (eb, ic₃) ← emitComplexBodyG ctx suffix fuel e ret (ind + 1) ic₂
      some (indS ind ++ S "if (" ++ cs ++ S ") \x7b\n" ++ tb ++ S "\n" ++
        indS ind ++ S "\x7d else \x7b\n" ++ eb ++ S "\n" ++ indS ind ++ S "\x7d", ic₃)
    else do
      let (ts, ic₂) ← emitExprG ctx suffix (fuel + 1) t ic₁
      let (es, ic₃) ← emitExprG ctx suffix (fuel + 1) e ic₂
      some (indS ind ++ S "return ((" ++ cs ++ S ") ? " ++ ts ++ S " : " ++ es ++ S ");",
        ic₃)
  | fuel + 1, e, _, ind, ic => do
    let (s, ic₁) ← emitExprG ctx suffix (fuel + 1) e ic
    some (indS ind ++ S "return " ++ s ++ S ";", ic₁)

/-- CodeGen.emit_func of gen-math.py. -/
def emitFuncG (ctx : LowerCtx) (suffix : List Char) (fuel : Nat) (f : FuncDef)
    (ic : Bool) : Option (List Char × Bool) :=
  let retType := cType f.returnType
  let params := joinComma (f.params.map (fun p => cType p.typeStr ++ S " " ++ p.name))
  let funcName := S "b3d_" ++ f.name ++ suffix
  let head := S "static inline " ++ retType ++ S " " ++ funcName ++ S "(" ++ params ++ S ")"
  if hasNestedCondLets f.body then do
    let (bodyLines, ic₁) ← emitComplexBodyG ctx suffix fuel f.body retType 1 ic
    some (head ++ S "\n\x7b\n" ++ bodyLines ++ S "\n\x7d", ic₁)
  else do
    let (decls, fin, ic₁) ← extractLetsG ctx suffix fuel f.body ic
    if decls.isEmpty then do
      let (bodyCode, ic₂) ← emitExprG ctx suffix fuel f.body ic₁
      some (head ++ S "\n\x7b\n    return " ++ bodyCode ++ S ";\n\x7d", ic₂)
    else
      let declStr := joinNL (decls.map (fun d => S "    " ++ d))
      some (head ++ S "\n\x7b\n" ++ declStr ++ S "\n\n    return " ++ fin ++ S ";\n\x7d", ic₁)

/-- Header comment lines of the generic generator, with the mode name
of the header comment as a parameter. -/
def hdrLinesG (mw : List Char) : List (List Char) :=
  [S "/* Auto-generated from math.dsl - DO NOT EDIT",
   S " *",
   S " * Math operations for B3D (" ++ mw ++ S " mode).",
   S " * I❤LA-style DSL compiled to C.",
   S " */",
   []]

/-- Per-function output lines of generate_c (each function followed by a
blank line), threading the generator state across functions. -/
def genFuncLinesG (ctx : LowerCtx) (suffix : List Char) (fuel : Nat) :
    List FuncDef → Bool → Option (List (List Char) × Bool)
  | [], ic => some ([], ic)
  | f :: rest, ic => do
    let (s, ic₁) ← emitFuncG ctx suffix fuel f ic
    let (ls, ic₂) ← genFuncLinesG ctx suffix fuel rest ic₁
    some (s :: [] :: ls, ic₂)

/-- The generic generator: the output of generate_c as a function of
the operator-lowering table, the constant table, the header mode name
and the suffix alone. -/
def generateCG (ctx : LowerCtx) (mw : List Char) (suffix : List Char) (fuel : Nat)
    (funcs : List FuncDef) : Option (List Char) := do
  let (ls, _) ← genFuncLinesG ctx suffix fuel funcs false
  some (joinNL (hdrLinesG mw ++ ls))

/-- Scenario 1 of the specification: the dot3 definition. -/
def c1src : List Char :=
  S "dot3(a, b) = ∑(i∈xyz) a_i · b_i where a ∈ ℝ³ b ∈ ℝ³"

/-- The function text the compiler actually emits for scenario 1, in
both modes. -/
def c1actual : List Char :=
  S "static inline float b3d_dot3(float a, float b)\n\x7b\n    return (a.x.b_i) + (a.y.b_i) + (a.z.b_i);\n\x7d"

set_option maxRecDepth 40000 in
/-- C1: the claim is false on the code.  Compiling scenario 1
(dot3(a, b) = ∑(i∈xyz) a_i · b_i where a ∈ ℝ³ b ∈ ℝ³) in float mode
with empty suffix yields an output that contains neither the claimed
signature float b3d_dot3(b3d_vec_t a, b3d_vec_t b) nor the claimed body
return (a.x * b.x) + (a.y * b.y) + (a.z * b.z); anywhere. -/
theorem c1_scenario1_float_counterexample :
    (genMath .float [] 64 64 c1src).isSome = true ∧
    (genMath .float [] 64 64 c1src).map
      (containsSub (S "float b3d_dot3(b3d_vec_t a, b3d_vec_t b)")) = some false ∧
    (genMath .float [] 64 64 c1src).map
      (containsSub (S "return (a.x * b.x) + (a.y * b.y) + (a.z * b.z);")) =
      some false :=
  ⟨rfl, rfl, rfl⟩

set_option maxRecDepth 40000 in
/-- C1 amended: compiling scenario 1 in float mode with empty suffix
emits static inline float b3d_dot3(float a, float b) whose body is
return (a.x.b_i) + (a.y.b_i) + (a.z.b_i); — the middle dot before the
identifier b_i parses as field access, and the where-types ℝ³ are
stored as ℝ3, which c_type maps to float. -/
theorem c1_scenario1_float_amended :
    genMath .float [] 64 64 c1src =
      some (joinNL (hdrLines .float ++ [c1actual, []])) := rfl

set_option maxRecDepth 40000 in
/-- C3: the claim is false on the code.  Compiling scenario 1 in fixed
mode with empty suffix yields an output that contains neither the
claimed body return B3D_FP_ADD(B3D_FP_ADD(B3D_FP_MUL(a.x, b.x),
B3D_FP_MUL(a.y, b.y)), B3D_FP_MUL(a.z, b.z)); nor any B3D_FP_ADD or
B3D_FP_MUL call at all. -/
theorem c3_scenario1_fixed_counterexample :
    (genMath .fixed [] 64 64 c1src).isSome = true ∧
    (genMath .fixed [] 64 64 c1src).map
      (containsSub (S "return B3D_FP_ADD(B3D_FP_ADD(B3D_FP_MUL(a.x, b.x), B3D_FP_MUL(a.y, b.y)), B3D_FP_MUL(a.z, b.z));")) =
      some false ∧
    (genMath .fixed [] 64 64 c1src).map (containsSub (S "B3D_FP_ADD")) = some false ∧
    (genMath .fixed [] 64 64 c1src).map (containsSub (S "B3D_FP_MUL")) = some false :=
  ⟨rfl, rfl, rfl, rfl⟩

set_option maxRecDepth 40000 in
/-- C3 amended: compiling scenario 1 in fixed mode with empty suffix
emits exactly the same function text as float mode — the body is
return (a.x.b_i) + (a.y.b_i) + (a.z.b_i); because the dot parses as
field access, so no arithmetic operator is lowered, and emit_sum joins
its expanded terms with the literal text " + " in every mode; only the
header comment differs. -/
theorem c3_scenario1_fixed_amended :
    genMath .fixed [] 64 64 c1src =
      some (joinNL (hdrLines .fixed ++ [c1actual, []])) := rfl

/-- Digit characters are not int() whitespace. -/
theorem pyDigit_not_sp {c : Char} (h : pyDigit c = true) : pyIntSp c = false := by
  cases hsp : pyIntSp c with
  | false => rfl
  | true =>
    exfalso
    simp only [pyIntSp, Bool.or_eq_true, decide_eq_true_eq] at hsp
    rcases hsp with ((((h1 | h1) | h1) | h1) | h1) | h1 <;> subst h1 <;>
      exact absurd h (by decide)

/-- Digit characters are not a decimal point. -/
theorem pyDigit_ne_dot {c : Char} (h : pyDigit c = true) : c ≠ '.' := by
  intro h1
  subst h1
  exact absurd h (by decide)

/-- Digit characters are not a sign. -/
theorem pyDigit_ne_sign {c : Char} (h : pyDigit c = true) : c ≠ '+' ∧ c ≠ '-' := by
  constructor <;> intro h1 <;> subst h1 <;> exact absurd h (by decide)

/-- Python int() on a nonempty all-digit string yields its value. -/
theorem pyInt_digits {s : List Char} (hne : s ≠ []) (hd : s.all pyDigit = true) :
    pyInt s = some (digitsVal s) := by
  have hdw : ∀ (t : List Char), t.all pyDigit = true → t.dropWhile pyIntSp = t := by
    intro t ht
    cases t with
    | nil => rfl
    | cons c cs =>
      rw [List.dropWhile_cons]
      simp only [List.all_cons, Bool.and_eq_true] at ht
      simp [pyDigit_not_sp ht.1]
  have hrev : s.reverse.all pyDigit = true := by
    simp only [List.all_eq_true] at hd ⊢
    intro c hc
    exact hd c (List.mem_reverse.mp hc)
  have ht : ((s.dropWhile pyIntSp).reverse.dropWhile pyIntSp).reverse = s := by
    rw [hdw s hd, hdw s.reverse hrev, List.reverse_reverse]
  cases s with
  | nil => exact absurd rfl hne
  | cons c cs =>
    simp only [List.all_cons, Bool.and_eq_true] at hd
    have hplus := (pyDigit_ne_sign hd.1).1
    have hminus := (pyDigit_ne_sign hd.1).2
    simp only [pyInt, ht, List.headD_cons]
    rw [if_neg hplus, if_neg hminus]
    simp [pyIntDigits, hd.1, hd.2]

/-- Tail of the split of a dot-free string: one field. -/
theorem splitSubAux_nodot {t : List Char} (ht : t.all (fun c => c ≠ '.') = true) :
    ∀ (fuel : Nat) (acc : List Char),
      splitSubAux fuel (S "..") acc t = [acc.reverse ++ t] := by
  induction t with
  | nil =>
    intro fuel acc
    cases fuel with
    | zero => rfl
    | succ f => simp [splitSubAux]
  | cons c cs ih =>
    intro fuel acc
    simp only [List.all_cons, Bool.and_eq_true, decide_eq_true_eq] at ht
    cases fuel with
    | zero => rfl
    | succ f =>
      have hpre : (S "..").isPrefixOf (c :: cs) = false := by
        cases hp : (S "..").isPrefixOf (c :: cs) with
        | false => rfl
        | true =>
          exfalso
          have := List.isPrefixOf_iff_prefix.mp hp
          rcases this with ⟨u, hu⟩
          have : c = '.' := by
            have := congrArg (fun l => l.headD ' ') hu
            simpa [S] using this.symm
          exact ht.1 this
      simp only [splitSubAux, hpre]
      rw [ih ht.2]
      simp

/-- Split of s ++ ".." ++ t for dot-free s and t: exactly two fields. -/
theorem splitSubAux_two {s : List Char} (hs : s.all (fun c => c ≠ '.') = true) :
    ∀ (t : List Char), t.all (fun c => c ≠ '.') = true →
    ∀ (fuel : Nat) (acc : List Char), s.length + t.length + 2 ≤ fuel →
      splitSubAux fuel (S "..") acc (s ++ S ".." ++ t) =
        [acc.reverse ++ s, t] := by
  induction s with
  | nil =>
    intro t ht fuel acc hf
    cases fuel with
    | zero => omega
    | succ f =>
      have hpre : (S "..").isPrefixOf ([] ++ S ".." ++ t) = true := by
        simp only [List.nil_append]
        exact List.isPrefixOf_iff_prefix.mpr ⟨t, by simp [S]⟩
      have hstep : (([] : List Char) ++ S ".." ++ t) = '.' :: '.' :: t := by simp [S]
      rw [hstep] at hpre ⊢
      simp only [splitSubAux, hpre, if_pos]
      rw [show (('.' :: '.' :: t).drop (S "..").length) = t from rfl]
      rw [splitSubAux_nodot ht]
      simp
  | cons c cs ih =>
    intro t ht fuel acc hf
    simp only [List.all_cons, Bool.and_eq_true, decide_eq_true_eq] at hs
    cases fuel with
    | zero => simp at hf
    | succ f =>
      have hpre : (S "..").isPrefixOf ((c :: cs) ++ S ".." ++ t) = false := by
        cases hp : (S "..").isPrefixOf ((c :: cs) ++ S ".." ++ t) with
        | false => rfl
        | true =>
          exfalso
          have := List.isPrefixOf_iff_prefix.mp hp
          rcases this with ⟨u, hu⟩
          have : c = '.' := by
            have := congrArg (fun l => l.headD ' ') hu
            simpa [S] using this.symm
          exact hs.1 this
      have hstep : ((c :: cs) ++ S ".." ++ t) = c :: (cs ++ S ".." ++ t) := by simp
      rw [hstep] at hpre ⊢
      simp only [splitSubAux, hpre, Bool.false_eq_true, if_false]
      have hf2 : cs.length + t.length + 2 ≤ f := by
        simp only [List.length_cons] at hf
        omega
      rw [ih hs.2 t ht f (c :: acc) hf2]
      simp

/-- Membership of the range operator in s ++ ".." ++ t. -/
theorem containsSub_mid (s t : List Char) :
    containsSub (S "..") (s ++ S ".." ++ t) = true := by
  induction s with
  | nil =>
    have : (([] : List Char) ++ S ".." ++ t) = '.' :: ('.' :: t) := by simp [S]
    rw [this]
    simp only [containsSub, Bool.or_eq_true]
    left
    exact List.isPrefixOf_iff_prefix.mpr ⟨t, by simp [S]⟩
  | cons c cs ih =>
    have : ((c :: cs) ++ S ".." ++ t) = c :: (cs ++ S ".." ++ t) := by simp
    rw [this]
    simp only [containsSub, Bool.or_eq_true]
    right
    exact ih

/-- All-digit strings contain no dot. -/
theorem digits_nodot {s : List Char} (h : s.all pyDigit = true) :
    s.all (fun c => c ≠ '.') = true := by
  simp only [List.all_eq_true, decide_eq_true_eq] at h ⊢
  intro c hc
  exact pyDigit_ne_dot (h c hc)

/-- C10: a Sum over an integer interval "a..b" with a at least b
expands through an empty index list: parse_range yields [], emit_sum
yields the empty string for any body and any mode without an error,
and a function whose body is only such a sum is emitted with the
statement return ; (shown at the concrete interval 5..3). -/
theorem c10_degenerate_range (s t : List Char) (hs : s ≠ []) (ht : t ≠ [])
    (hsd : s.all pyDigit = true) (htd : t.all pyDigit = true)
    (hge : digitsVal t ≤ digitsVal s) :
    parseRangeG (s ++ S ".." ++ t) = some [] ∧
    (∀ (mode : Mode) (suffix : List Char) (fuel : Nat) (v : List Char)
      (body : Expr) (ic : Bool),
      emitSumE mode suffix (fuel + 1) v (s ++ S ".." ++ t) body ic = some ([], ic)) ∧
    emitFunc .float [] 8
      (FuncDef.mk (S "f") [] (S "scalar")
        (Expr.sum (S "i") (S "5..3") (Expr.var (S "a")))) false =
      some (S "static inline float b3d_f()\n\x7b\n    return ;\n\x7d", false) := by
  have hdot : '.' ∈ s ++ S ".." ++ t := by
    simp [S]
  have hx : ¬(s ++ S ".." ++ t = S "xyz") := by
    intro h
    rw [h] at hdot
    simp [S] at hdot
  have hw : ¬(s ++ S ".." ++ t = S "xyzw") := by
    intro h
    rw [h] at hdot
    simp [S] at hdot
  have hsplit : splitSub (S "..") (s ++ S ".." ++ t) = [s, t] := by
    unfold splitSub
    rw [splitSubAux_two (digits_nodot hsd) t (digits_nodot htd)]
    · simp
    · simp [S]
      omega
  have hrange : parseRangeG (s ++ S ".." ++ t) = some [] := by
    unfold parseRangeG
    rw [if_neg hx, if_neg hw, if_pos (containsSub_mid s t), hsplit]
    simp only [pyInt_digits hs hsd, pyInt_digits ht htd, Option.bind_eq_bind,
      Option.some_bind]
    have : ((digitsVal t : Int) - (digitsVal s : Int)).toNat = 0 := by omega
    simp [rangeList, this, rangeListAux]
  refine ⟨hrange, ?_, by decide⟩
  intro mode suffix fuel v body ic
  have hrange2 : parseRangeG (s ++ (S ".." ++ t)) = some [] := by
    rw [← List.append_assoc]
    exact hrange
  simp [emitSumE, hrange2, emitIter, List.intercalate]

/-- Token lookahead after one advance is lookahead at offset one. -/
theorem peekT_shift (st : PSt) : peekT ⟨st.toks, st.pos + 1⟩ 0 = peekT st 1 := by
  simp [peekT]

/-- C2: at a DOT token (from a period or a middle dot alike), when the
next token is an identifier the postfix layer consumes the dot and the
identifier as field access, building DotAccess, while the
multiplicative layer refuses to consume it; when the next token is not
an identifier, the multiplicative layer consumes the dot as the binary
dot-product operator (operator name dot), while the postfix layer
leaves the state unchanged. -/
theorem c2_dot_field_access_vs_dot_product (fuel : Nat) (left : Expr) (st : PSt)
    (h : (peekT st 0).ttype = .DOT) :
    ((peekT st 1).ttype = .IDENT →
      parsePfxLoop (fuel + 1) left st =
        parsePfxLoop fuel (Expr.dotAccess left (peekT st 1).value)
          ⟨st.toks, st.pos + 2⟩ ∧
      parseMulLoop (fuel + 1) left st = .ok (left, st)) ∧
    ((peekT st 1).ttype ≠ .IDENT →
      parseMulLoop (fuel + 1) left st =
        (parseUnary fuel ⟨st.toks, st.pos + 1⟩).bind
          (fun r => parseMulLoop fuel (Expr.binOp (S "dot") left r.1) r.2) ∧
      parsePfxLoop (fuel + 1) left st = .ok (left, st)) := by
  constructor
  · intro h1
    constructor
    · simp only [parsePfxLoop, h, h1]
      have h2 : peekT ⟨st.toks, st.pos + 1⟩ 0 = peekT st 1 := peekT_shift st
      simp [advanceT, h2]
    · simp [parseMulLoop, h, h1]
  · intro h1
    constructor
    · simp only [parseMulLoop, h]
      simp only [advanceT, h]
      simp [h1, Except.bind]
      rfl
    · simp [parsePfxLoop, h, h1]

/-- C2 witness: concrete token streams exercising both branches. -/
theorem c2_dot_field_access_vs_dot_product_witness :
    (parsePfxLoop 4 (Expr.var (S "v"))
        ⟨[Token.mk .DOT (S "·") 1 1, Token.mk .IDENT (S "f") 1 2,
          Token.mk .EOF [] 1 3], 0⟩ =
      parsePfxLoop 3 (Expr.dotAccess (Expr.var (S "v")) (S "f"))
        ⟨[Token.mk .DOT (S "·") 1 1, Token.mk .IDENT (S "f") 1 2,
          Token.mk .EOF [] 1 3], 2⟩) ∧
    (parseMulLoop 4 (Expr.var (S "v"))
        ⟨[Token.mk .DOT (S ".") 1 1, Token.mk .NUMBER (S "2") 1 2,
          Token.mk .EOF [] 1 3], 0⟩ =
      (parseUnary 3
          ⟨[Token.mk .DOT (S ".") 1 1, Token.mk .NUMBER (S "2") 1 2,
            Token.mk .EOF [] 1 3], 1⟩).bind
        (fun r => parseMulLoop 3 (Expr.binOp (S "dot") (Expr.var (S "v")) r.1) r.2)) := by
  constructor
  · exact ((c2_dot_field_access_vs_dot_product 3 (Expr.var (S "v"))
      ⟨[Token.mk .DOT (S "·") 1 1, Token.mk .IDENT (S "f") 1 2,
        Token.mk .EOF [] 1 3], 0⟩ (by decide)).1 (by decide)).1
  · exact ((c2_dot_field_access_vs_dot_product 3 (Expr.var (S "v"))
      ⟨[Token.mk .DOT (S ".") 1 1, Token.mk .NUMBER (S "2") 1 2,
        Token.mk .EOF [] 1 3], 0⟩ (by decide)).2 (by decide)).1

/-- C8: Parser.expect consumes and returns the current token when its
kind matches, and otherwise raises a syntax error carrying the
expected kind, the actual kind, the actual literal text, and the
token's line and column. -/
theorem c8_expect_behavior (tt : TokenType) (st : PSt) :
    ((peekT st 0).ttype = tt →
      expectT tt st = .ok (peekT st 0, ⟨st.toks, st.pos + 1⟩)) ∧
    ((peekT st 0).ttype ≠ tt →
      expectT tt st = .error (.syn tt (peekT st 0).ttype (peekT st 0).value
        (peekT st 0).line (peekT st 0).col)) := by
  constructor
  · intro h
    simp [expectT, advanceT, h]
  · intro h
    simp [expectT, advanceT, h]

/-- C8 witness: a matching and a mismatching expect call on a concrete
state. -/
theorem c8_expect_behavior_witness :
    expectT .LPAREN ⟨[Token.mk .LPAREN (S "(") 3 7], 0⟩ =
      .ok (Token.mk .LPAREN (S "(") 3 7, ⟨[Token.mk .LPAREN (S "(") 3 7], 1⟩) ∧
    expectT .RPAREN ⟨[Token.mk .LPAREN (S "(") 3 7], 0⟩ =
      .error (.syn .RPAREN .LPAREN (S "(") 3 7) := by
  constructor
  · exact (c8_expect_behavior .LPAREN ⟨[Token.mk .LPAREN (S "(") 3 7], 0⟩).1 (by decide)
  · exact (c8_expect_behavior .RPAREN ⟨[Token.mk .LPAREN (S "(") 3 7], 0⟩).2 (by decide)

/-- C10 witness: the degenerate interval 5..3. -/
theorem c10_degenerate_range_witness :
    parseRangeG (S "5" ++ S ".." ++ S "3") = some [] ∧
    emitSumE .fixed (S "_fp") 7 (S "i") (S "5" ++ S ".." ++ S "3")
      (Expr.var (S "q")) false = some ([], false) := by
  have h := c10_degenerate_range (S "5") (S "3") (by decide) (by decide)
    (by decide) (by decide) (by decide)
  exact ⟨h.1, h.2.1 .fixed (S "_fp") 6 (S "i") (Expr.var (S "q")) false⟩

/-- Kinds reachable through LATEX_ESCAPES are never NEWLINE or EOF. -/
theorem latexEscape_kind {nm : List Char} {tt : TokenType}
    (h : latexEscape nm = some tt) : tt ≠ .NEWLINE ∧ tt ≠ .EOF := by
  unfold latexEscape at h
  cases hf : latexTable.find? (fun p => p.1 = nm) with
  | none => rw [hf] at h; exact absurd h (by simp)
  | some p =>
    rw [hf] at h
    have h2 : p.2 = tt := by simpa using h
    subst h2
    have hm := List.mem_of_find?_eq_some hf
    have hall : latexTable.all (fun q => q.2 ≠ .NEWLINE ∧ q.2 ≠ .EOF) = true := by decide
    exact of_decide_eq_true ((List.all_eq_true.mp hall) p hm)

/-- Kinds reachable through UNICODE_MAP are never NEWLINE or EOF. -/
theorem unicodeMap_kind {c : Char} {tt : TokenType}
    (h : unicodeMap c = some tt) : tt ≠ .NEWLINE ∧ tt ≠ .EOF := by
  unfold unicodeMap at h
  cases hf : unicodeTable.find? (fun p => p.1 = c) with
  | none => rw [hf] at h; exact absurd h (by simp)
  | some p =>
    rw [hf] at h
    have h2 : p.2 = tt := by simpa using h
    subst h2
    have hm := List.mem_of_find?_eq_some hf
    have hall : unicodeTable.all (fun q => q.2 ≠ .NEWLINE ∧ q.2 ≠ .EOF) = true := by decide
    exact of_decide_eq_true ((List.all_eq_true.mp hall) p hm)

/-- Kinds reachable through KEYWORDS are never NEWLINE or EOF. -/
theorem kwLookup_kind {nm : List Char} {tt : TokenType}
    (h : kwLookup nm = some tt) : tt ≠ .NEWLINE ∧ tt ≠ .EOF := by
  unfold kwLookup at h
  cases hf : kwTable.find? (fun p => p.1 = nm) with
  | none => rw [hf] at h; exact absurd h (by simp)
  | some p =>
    rw [hf] at h
    have h2 : p.2 = tt := by simpa using h
    subst h2
    have hm := List.mem_of_find?_eq_some hf
    have hall : kwTable.all (fun q => q.2 ≠ .NEWLINE ∧ q.2 ≠ .EOF) = true := by decide
    exact of_decide_eq_true ((List.all_eq_true.mp hall) p hm)

/-- Kinds reachable through the single-character operator table are
never NEWLINE or EOF. -/
theorem simpleMap_kind {c : Char} {tt : TokenType}
    (h : simpleMap c = some tt) : tt ≠ .NEWLINE ∧ tt ≠ .EOF := by
  unfold simpleMap at h
  cases hf : simpleTable.find? (fun p => p.1 = c) with
  | none => rw [hf] at h; exact absurd h (by simp)
  | some p =>
    rw [hf] at h
    have h2 : p.2 = tt := by simpa using h
    subst h2
    have hm := List.mem_of_find?_eq_some hf
    have hall : simpleTable.all (fun q => q.2 ≠ .NEWLINE ∧ q.2 ≠ .EOF) = true := by decide
    exact of_decide_eq_true ((List.all_eq_true.mp hall) p hm)

/-- Case-analysis principle for lexStep, following the branch dispatch
of Lexer.tokenize in source order: any property of all fifteen branch
results (under the dispatch conditions that reach them) holds of the
step result. -/
theorem lexStep_elim (c : Char) (cs : List Char) (st : LexSt)
    (motive : List (Token × Nat × Nat) × List Char × LexSt → Prop)
    (hNewline : c = '\n' → motive (lexNewline cs st))
    (hEscape : motive (lexEscape cs st))
    (hUni : ∀ tt, unicodeMap c = some tt → motive (lexUni c tt cs st))
    (hSub : ∀ d, subMap c = some d → motive (lexSubscr c d cs st))
    (hSup : (supMap c).isSome = true → motive (lexSup c cs st))
    (hNum : pyDigit c = true → motive (lexNum c cs st))
    (hIdent : motive (lexIdent c cs st))
    (hDot : motive (lexDot cs st))
    (hArrow : motive (lexArrow cs st))
    (hDPipe : motive (lexDPipe cs st))
    (hCaret : motive (lexCaret cs st))
    (hLe : motive (lexLe cs st))
    (hGe : motive (lexGe cs st))
    (hSimple : ∀ tt, simpleMap c = some tt → motive (lexSimple c tt cs st))
    (hSkip : motive (lexSkip c cs st)) :
    motive (lexStep c cs st) := by
  unfold lexStep
  by_cases h1 : c = '\n'
  · rw [if_pos h1]; exact hNewline h1
  rw [if_neg h1]
  by_cases h2 : c = '\\'
  · rw [if_pos h2]; exact hEscape
  rw [if_neg h2]
  cases hu : unicodeMap c with
  | some tt => exact hUni tt hu
  | none =>
    cases hsb : subMap c with
    | some d => exact hSub d hsb
    | none =>
      by_cases h5 : (supMap c).isSome = true
      · rw [if_pos h5]; exact hSup h5
      rw [if_neg h5]
      by_cases h6 : pyDigit c = true
      · rw [if_pos h6]; exact hNum h6
      rw [if_neg h6]
      by_cases h7 : identFirst c = true
      · rw [if_pos h7]; exact hIdent
      rw [if_neg h7]
      by_cases h8 : c = '.'
      · rw [if_pos h8]; exact hDot
      rw [if_neg h8]
      by_cases h9 : (c = '-' && cs.headD ' ' = '>') = true
      · rw [if_pos h9]; exact hArrow
      rw [if_neg h9]
      by_cases h10 : (c = '|' && cs.headD ' ' = '|') = true
      · rw [if_pos h10]; exact hDPipe
      rw [if_neg h10]
      by_cases h11 : (c = '^' && pyDigit (cs.headD ' ')) = true
      · rw [if_pos h11]; exact hCaret
      rw [if_neg h11]
      by_cases h12 : (c = '<' && cs.headD ' ' = '=') = true
      · rw [if_pos h12]; exact hLe
      rw [if_neg h12]
      by_cases h13 : (c = '>' && cs.headD ' ' = '=') = true
      · rw [if_pos h13]; exact hGe
      rw [if_neg h13]
      cases hsm : simpleMap c with
      | some tt => exact hSimple tt hsm
      | none => exact hSkip

/-- Tokens emitted by one lexer step: never EOF, and a NEWLINE token is
emitted only with both depth counters equal to zero (recorded in its
ghost annotation). -/
theorem lexStep_emits (c : Char) (cs : List Char) (st : LexSt) :
    ∀ e ∈ (lexStep c cs st).1,
      e.1.ttype ≠ .EOF ∧ (e.1.ttype = .NEWLINE → e.2.1 = 0 ∧ e.2.2 = 0) := by
  refine lexStep_elim c cs st
    (fun r => ∀ e ∈ r.1,
      e.1.ttype ≠ .EOF ∧ (e.1.ttype = .NEWLINE → e.2.1 = 0 ∧ e.2.2 = 0))
    ?_ ?_ ?_ ?_ ?_ ?_ ?_ ?_ ?_ ?_ ?_ ?_ ?_ ?_ ?_
  · intro _ e he
    unfold lexNewline at he
    by_cases hb : (st.bd = 0 && st.pd = 0) = true
    · rw [if_pos hb] at he
      rw [List.mem_singleton] at he
      subst he
      refine ⟨by simp, fun _ => ?_⟩
      simp only [Bool.and_eq_true, decide_eq_true_eq] at hb
      exact hb
    · rw [if_neg hb] at he
      exact absurd he (List.not_mem_nil e)
  · intro e he
    simp only [lexEscape, List.mem_singleton] at he
    subst he
    cases hl : latexEscape (cs.takeWhile pyAlnum) with
    | some tt =>
      exact ⟨(latexEscape_kind hl).2, fun hN => absurd hN (latexEscape_kind hl).1⟩
    | none => simp
  · intro tt htt e he
    simp only [lexUni, List.mem_singleton] at he
    subst he
    exact ⟨(unicodeMap_kind htt).2, fun hN => absurd hN (unicodeMap_kind htt).1⟩
  · intro d _ e he
    simp only [lexSubscr, List.mem_singleton] at he
    subst he
    simp
  · intro _ e he
    simp only [lexSup, List.mem_singleton] at he
    subst he
    simp
  · intro _ e he
    simp only [lexNum, List.mem_singleton] at he
    subst he
    simp
  · intro e he
    simp only [lexIdent, List.mem_singleton] at he
    subst he
    cases hk : kwLookup (lowerStr (c :: (readIdentTail cs).1)) with
    | some tt =>
      exact ⟨(kwLookup_kind hk).2, fun hN => absurd hN (kwLookup_kind hk).1⟩
    | none => simp
  · intro e he
    simp only [lexDot] at he
    split at he <;> (simp at he; subst he; simp)
  · intro e he
    simp only [lexArrow, List.mem_singleton] at he
    subst he
    simp
  · intro e he
    simp only [lexDPipe, List.mem_singleton] at he
    subst he
    simp
  · intro e he
    simp only [lexCaret, List.mem_singleton] at he
    subst he
    simp
  · intro e he
    simp only [lexLe, List.mem_singleton] at he
    subst he
    simp
  · intro e he
    simp only [lexGe, List.mem_singleton] at he
    subst he
    simp
  · intro tt htt e he
    simp only [lexSimple, List.mem_singleton] at he
    subst he
    exact ⟨(simpleMap_kind htt).2, fun hN => absurd hN (simpleMap_kind htt).1⟩
  · intro e he
    exact absurd he (List.not_mem_nil e)

/-- Dropping a matched run of characters never lengthens a list. -/
theorem dropWhile_len_le (p : Char → Bool) :
    ∀ (l : List Char), (l.dropWhile p).length ≤ l.length := by
  intro l
  induction l with
  | nil => simp
  | cons a l ih =>
    rw [List.dropWhile_cons]
    split
    · exact le_trans ih (Nat.le_succ _)
    · simp

/-- The whitespace-and-comment skipper never lengthens the remaining
source. -/
theorem skipWC_le : ∀ (fuel : Nat) (s : List Char) (st : LexSt),
    ((skipWC fuel s st).1).length ≤ s.length := by
  intro fuel
  induction fuel with
  | zero => intro s st; simp [skipWC]
  | succ f ih =>
    intro s st
    cases s with
    | nil => simp [skipWC]
    | cons c cs =>
      simp only [skipWC]
      split
      · exact le_trans (le_trans (ih _ _) (dropWhile_len_le _ _)) (by simp)
      · split
        · exact le_trans (ih _ _) (Nat.le_succ _)
        · simp

/-- read_number never lengthens the remaining source. -/
theorem readNum_rest_le : ∀ (s : List Char) (hd : Bool),
    ((readNum hd s).2).length ≤ s.length := by
  intro s
  induction s with
  | nil => intro hd; simp [readNum]
  | cons c cs ih =>
    intro hd
    simp only [readNum]
    split
    · exact le_trans (ih hd) (Nat.le_succ _)
    · split
      · split
        · simp_all
        · exact le_trans (ih true) (Nat.le_succ _)
      · simp

/-- read_ident never lengthens the remaining source. -/
theorem readIdentTail_rest_le : ∀ (s : List Char),
    ((readIdentTail s).2.2).length ≤ s.length := by
  intro s
  induction s with
  | nil => simp [readIdentTail]
  | cons c cs ih =>
    simp only [readIdentTail]
    split
    · exact le_trans ih (Nat.le_succ _)
    · split
      · exact le_trans ih (Nat.le_succ _)
      · simp

/-- One lexer step, offered a nonempty source c :: cs, leaves a rest no
longer than cs: the step always consumes at least one character. -/
theorem lexStep_rest_le (c : Char) (cs : List Char) (st : LexSt) :
    ((lexStep c cs st).2.1).length ≤ cs.length := by
  refine lexStep_elim c cs st (fun r => (r.2.1).length ≤ cs.length)
    ?_ ?_ ?_ ?_ ?_ ?_ ?_ ?_ ?_ ?_ ?_ ?_ ?_ ?_ ?_
  · intro _
    unfold lexNewline
    split <;> simp
  · simp only [lexEscape]
    exact dropWhile_len_le _ _
  · intro tt _
    simp [lexUni]
  · intro d _
    simp [lexSubscr]
  · intro h5
    simp only [lexSup, List.dropWhile_cons, h5, if_true]
    exact dropWhile_len_le _ _
  · intro h6
    simp only [lexNum, readNum, h6, if_true]
    exact readNum_rest_le cs false
  · simp only [lexIdent]
    exact readIdentTail_rest_le cs
  · simp only [lexDot]
    split <;> simp
  · simp [lexArrow]
  · simp [lexDPipe]
  · simp only [lexCaret]
    exact dropWhile_len_le _ _
  · simp [lexLe]
  · simp [lexGe]
  · intro tt _
    simp [lexSimple]
  · simp [lexSkip]

/-- Every token the lexer main loop emits is a non-EOF token, and any
NEWLINE among them carries zero bracket and paren depths. -/
theorem lexLoop_emits : ∀ (fuel : Nat) (s : List Char) (st : LexSt),
    ∀ e ∈ (lexLoop fuel s st).1,
      e.1.ttype ≠ .EOF ∧ (e.1.ttype = .NEWLINE → e.2.1 = 0 ∧ e.2.2 = 0) := by
  intro fuel
  induction fuel with
  | zero => intro s st e he; simp [lexLoop] at he
  | succ f ih =>
    intro s st e he
    simp only [lexLoop] at he
    cases hp : (skipWC (s.length + 1) s st).1 with
    | nil => simp only [hp] at he; simp at he
    | cons c cs =>
      simp only [hp, List.mem_append] at he
      rcases he with he | he
      · exact lexStep_emits c cs _ e he
      · exact ih _ _ e he

/-- Fuel stability of the lexer main loop: any fuel strictly above the
source length computes the same result as the canonical fuel, the
counterpart of the Python loop's termination by strict position
progress. -/
theorem lexLoop_stable : ∀ (fuel : Nat) (s : List Char) (st : LexSt),
    s.length < fuel → lexLoop fuel s st = lexLoop (s.length + 1) s st := by
  intro fuel
  induction fuel using Nat.strong_induction_on with
  | _ fuel ih =>
    intro s st hlt
    cases fuel with
    | zero => omega
    | succ f =>
      simp only [lexLoop]
      cases hp : (skipWC (s.length + 1) s st).1 with
      | nil => simp [hp]
      | cons c cs =>
        simp only [hp]
        have hcs : cs.length < s.length := by
          have h1 := skipWC_le (s.length + 1) s st
          rw [hp] at h1
          simp at h1
          omega
        have hr := lexStep_rest_le c cs ((skipWC (s.length + 1) s st).2)
        have h2 := ih f (Nat.lt_succ_self f)
          ((lexStep c cs ((skipWC (s.length + 1) s st).2)).2.1)
          ((lexStep c cs ((skipWC (s.length + 1) s st).2)).2.2)
          (by omega)
        have h3 := ih s.length (by omega)
          ((lexStep c cs ((skipWC (s.length + 1) s st).2)).2.1)
          ((lexStep c cs ((skipWC (s.length + 1) s st).2)).2.2)
          (by omega)
        rw [h2, h3]

/-- C6: every NEWLINE token the lexer emits is emitted with both the
bracket-depth counter and the paren-depth counter equal to zero (its
ghost annotation records the depths at the emission point), and a
newline character reached while either counter is non-zero produces no
token at all. -/
theorem c6_newline_depth_zero (src : List Char) :
    (∀ e ∈ lexerRun src, e.1.ttype = .NEWLINE → e.2.1 = 0 ∧ e.2.2 = 0) ∧
    (∀ (cs : List Char) (st : LexSt), st.bd ≠ 0 ∨ st.pd ≠ 0 →
      (lexStep '\n' cs st).1 = []) := by
  constructor
  · intro e he hN
    unfold lexerRun at he
    simp only [List.mem_append, List.mem_singleton] at he
    rcases he with he | he
    · exact (lexLoop_emits _ _ _ e he).2 hN
    · subst he
      simp at hN
  · intro cs st hne
    have hb : (decide (st.bd = 0) && decide (st.pd = 0)) = false := by
      rcases hne with h | h <;> simp [h]
    simp [lexStep, lexNewline, hb]

/-- Witness for c6_newline_depth_zero: on the source text a\nb the loop
emits the NEWLINE token at line 1 column 2 with ghost depths (0, 0),
and a newline seen at bracket depth 1 emits nothing. -/
theorem c6_newline_depth_zero_witness :
    (Token.mk .NEWLINE (S "\n") 1 2, (0 : Nat), (0 : Nat)) ∈ lexerRun (S "a\nb") ∧
    ((Token.mk .NEWLINE (S "\n") 1 2, (0 : Nat), (0 : Nat)).2.1 = 0 ∧
      (Token.mk .NEWLINE (S "\n") 1 2, (0 : Nat), (0 : Nat)).2.2 = 0) ∧
    (lexStep '\n' [] (LexSt.mk 1 1 1 0)).1 = [] := by
  have hm : (Token.mk .NEWLINE (S "\n") 1 2, (0 : Nat), (0 : Nat)) ∈
      lexerRun (S "a\nb") := by decide
  exact ⟨hm, (c6_newline_depth_zero (S "a\nb")).1 _ hm rfl,
    (c6_newline_depth_zero (S "a\nb")).2 [] (LexSt.mk 1 1 1 0)
      (Or.inl (by decide))⟩

/-- C7: the lexer is total and silent on junk. Its main loop is
fuel-stable at any fuel above the source length (the counterpart of the
Python loop terminating by strict position progress), the token list
ends in an EOF token which is its only EOF token, and a character
matching no branch is skipped, producing no token. -/
theorem c7_tokenize_total (src : List Char) :
    (∀ fuel, src.length + 1 ≤ fuel →
      lexLoop fuel src (LexSt.mk 1 1 0 0) =
        lexLoop (src.length + 1) src (LexSt.mk 1 1 0 0)) ∧
    (∃ t, (tokenize src).getLast? = some t ∧ t.ttype = .EOF) ∧
    (tokenize src).countP (fun t => t.ttype = .EOF) = 1 ∧
    (∀ (c : Char) (cs : List Char) (st : LexSt),
      c ≠ '\n' → c ≠ '\\' → unicodeMap c = none → subMap c = none →
      supMap c = none → pyDigit c = false → identFirst c = false →
      c ≠ '.' → c ≠ '-' → c ≠ '|' → c ≠ '^' → c ≠ '<' → c ≠ '>' →
      simpleMap c = none →
      lexStep c cs st = ([], cs, advCh st c)) := by
  have hsplit : tokenize src =
      List.map (fun e => e.1) (lexLoop (src.length + 1) src (LexSt.mk 1 1 0 0)).1 ++
        [Token.mk .EOF []
          (lexLoop (src.length + 1) src (LexSt.mk 1 1 0 0)).2.line
          (lexLoop (src.length + 1) src (LexSt.mk 1 1 0 0)).2.col] := by
    simp [tokenize, lexerRun]
  refine ⟨fun fuel hf => lexLoop_stable fuel src _ (by omega), ?_, ?_, ?_⟩
  · refine ⟨Token.mk .EOF []
      (lexLoop (src.length + 1) src (LexSt.mk 1 1 0 0)).2.line
      (lexLoop (src.length + 1) src (LexSt.mk 1 1 0 0)).2.col, ?_, rfl⟩
    rw [hsplit, List.getLast?_concat]
  · rw [hsplit, List.countP_append]
    have hA : (List.map (fun e => e.1)
        (lexLoop (src.length + 1) src (LexSt.mk 1 1 0 0)).1).countP
          (fun t => t.ttype = .EOF) = 0 := by
      rw [List.countP_eq_zero]
      intro t ht
      rw [List.mem_map] at ht
      obtain ⟨e, he, rfl⟩ := ht
      exact fun hc => (lexLoop_emits _ _ _ e he).1 (of_decide_eq_true hc)
    rw [hA]
    simp
  · intro c cs st h1 h2 hu hs hsup hd hi h8 h9 h10 h11 h12 h13 hsm
    simp [lexStep, lexSkip, h1, h2, hu, hs, hsup, hd, hi, h8, h9, h10, h11,
      h12, h13, hsm]

/-- Witness for c7_tokenize_total: on the source ab extra fuel is
irrelevant, the token list ends in its single EOF token, and the
unrecognized character at code point 0x2603 is skipped silently. -/
theorem c7_tokenize_total_witness :
    lexLoop 5 (S "ab") (LexSt.mk 1 1 0 0) =
      lexLoop 3 (S "ab") (LexSt.mk 1 1 0 0) ∧
    (∃ t, (tokenize (S "ab")).getLast? = some t ∧ t.ttype = .EOF) ∧
    (tokenize (S "ab")).countP (fun t => t.ttype = .EOF) = 1 ∧
    lexStep (Char.ofNat 0x2603) [] (LexSt.mk 1 1 0 0) =
      ([], [], advCh (LexSt.mk 1 1 0 0) (Char.ofNat 0x2603)) := by
  obtain ⟨hfu, hlast, hcnt, hskip⟩ := c7_tokenize_total (S "ab")
  exact ⟨hfu 5 (by decide), hlast, hcnt,
    hskip (Char.ofNat 0x2603) [] (LexSt.mk 1 1 0 0) (by decide) (by decide)
      (by decide) (by decide) (by decide) (by decide) (by decide) (by decide)
      (by decide) (by decide) (by decide) (by decide) (by decide) (by decide)⟩

/-- A name returned by the forbidden-name alternation is one of the six
FORBIDDEN_FUNCS entries. -/
theorem matchForbidden_mem {s nm : List Char} (h : matchForbidden s = some nm) :
    nm ∈ forbiddenFuncs := by
  unfold matchForbidden at h
  repeat' split at h
  all_goals first
    | (injection h with h; subst h; decide)
    | exact absurd h (by simp)

/-- Every FORBIDDEN_FUNCS entry is a nonempty string. -/
theorem forbiddenFuncs_ne_nil : ∀ nm ∈ forbiddenFuncs, nm ≠ [] := by decide

/-- Indexing below the length of a verified prefix reads the prefix. -/
theorem isPrefixOf_getElem {l1 l2 : List Char} (h : l1.isPrefixOf l2 = true) :
    ∀ k, k < l1.length → l2[k]? = l1[k]? := by
  obtain ⟨t, rfl⟩ := List.isPrefixOf_iff_prefix.mp h
  intro k hk
  exact List.getElem?_append_left hk

/-- Dropping the length of the matched run is the same as dropping the
run. -/
theorem drop_takeWhile_len (p : Char → Bool) (l : List Char) :
    l.drop ((l.takeWhile p).length) = l.dropWhile p := by
  have h := List.drop_left (l.takeWhile p) (l.dropWhile p)
  rwa [List.takeWhile_append_dropWhile] at h

/-- Soundness of the finditer scan: every reported match lies at or
after the scan position, names a forbidden function, and either sits
exactly at the scan position with the lookbehind satisfied, or is
preceded (within the scanned suffix) by a character outside the word
class of the negative lookbehind. -/
theorem reMatchesAux_sound : ∀ (fuel : Nat) (prev : Option Char) (pos : Nat)
    (t : List Char), ∀ p ∈ reMatchesAux fuel prev pos t,
      pos ≤ p.1 ∧ p.2 ∈ forbiddenFuncs ∧
      ((p.1 = pos ∧ bOK prev = true) ∨
        (pos < p.1 ∧ ∃ ch, t[p.1 - pos - 1]? = some ch ∧ reWordAscii ch = false)) := by
  intro fuel
  induction fuel with
  | zero => intro prev pos t p hp; simp [reMatchesAux] at hp
  | succ f ih =>
    intro prev pos t p hp
    have step : ∀ (c : Char) (cs : List Char) (pos : Nat) (p : Nat × List Char),
        p ∈ reMatchesAux f (some c) (pos + 1) cs →
        pos ≤ p.1 ∧ p.2 ∈ forbiddenFuncs ∧
        (pos < p.1 ∧ ∃ ch, (c :: cs)[p.1 - pos - 1]? = some ch ∧
          reWordAscii ch = false) := by
      intro c cs pos p hp
      obtain ⟨h1, h2, h3⟩ := ih (some c) (pos + 1) cs p hp
      refine ⟨by omega, h2, by omega, ?_⟩
      rcases h3 with ⟨heq, hbc⟩ | ⟨hgt, ch, hch, hw⟩
      · refine ⟨c, ?_, ?_⟩
        · have h0 : p.1 - pos - 1 = 0 := by omega
          rw [h0]
          simp
        · simpa [bOK] using hbc
      · refine ⟨ch, ?_, hw⟩
        have hidx : p.1 - pos - 1 = (p.1 - (pos + 1) - 1) + 1 := by omega
        rw [hidx, List.getElem?_cons_succ]
        exact hch
    cases t with
    | nil => simp [reMatchesAux] at hp
    | cons c cs =>
      simp only [reMatchesAux] at hp
      by_cases hb : bOK prev = true
      · rw [if_pos hb] at hp
        cases hm : matchForbidden (c :: cs) with
        | some nm =>
          simp only [hm] at hp
          split at hp
          · rename_i r3 heq
            rcases List.mem_cons.mp hp with hphead | hp2
            · subst hphead
              exact ⟨le_refl _, matchForbidden_mem hm, Or.inl ⟨rfl, hb⟩⟩
            · obtain ⟨h1, h2, h3⟩ := ih _ _ _ p hp2
              have hnm : nm ≠ [] := forbiddenFuncs_ne_nil nm (matchForbidden_mem hm)
              have hnm1 : 1 ≤ nm.length := by
                cases nm with
                | nil => exact absurd rfl hnm
                | cons a l => simp
              have hdw : ((c :: cs).drop nm.length).drop
                  ((((c :: cs).drop nm.length).takeWhile pySpace).length) =
                  '(' :: r3 := by
                rw [drop_takeWhile_len]
                exact heq
              have hdd : (c :: cs).drop (nm.length +
                  (((c :: cs).drop nm.length).takeWhile pySpace).length) =
                  '(' :: r3 := by
                rw [← hdw, List.drop_drop, Nat.add_comm]
              refine ⟨by omega, h2, Or.inr ⟨by omega, ?_⟩⟩
              rcases h3 with ⟨hpe, _⟩ | ⟨hgt, ch, hch, hw⟩
              · refine ⟨'(', ?_, by decide⟩
                have hix : p.1 - pos - 1 = nm.length +
                    (((c :: cs).drop nm.length).takeWhile pySpace).length + 0 := by
                  omega
                rw [hix, ← List.getElem?_drop, hdd]
                simp
              · refine ⟨ch, ?_, hw⟩
                have hix : p.1 - pos - 1 = (nm.length +
                    (((c :: cs).drop nm.length).takeWhile pySpace).length) +
                    ((p.1 - (pos + nm.length +
                      (((c :: cs).drop nm.length).takeWhile pySpace).length + 1) - 1)
                      + 1) := by
                  omega
                rw [hix, ← List.getElem?_drop, hdd, List.getElem?_cons_succ]
                exact hch
          · obtain ⟨h1, h2, h3⟩ := step c cs pos p hp
            exact ⟨h1, h2, Or.inr h3⟩
        | none =>
          simp only [hm] at hp
          obtain ⟨h1, h2, h3⟩ := step c cs pos p hp
          exact ⟨h1, h2, Or.inr h3⟩
      · rw [if_neg hb] at hp
        obtain ⟨h1, h2, h3⟩ := step c cs pos p hp
        exact ⟨h1, h2, Or.inr h3⟩

/-- C9: an offense reported on a line names a forbidden function, and
its match position is either the line start or directly preceded by a
character that is not a letter, digit or underscore (the negative
lookbehind); consequently the forbidden-name occurrences inside
b3d_sinf, asinf and _sinf are never reported. -/
theorem c9_forbidden_lookbehind (ln : List Char) :
    (∀ p ∈ lineOffenses ln,
      p.2 ∈ forbiddenFuncs ∧
      (p.1 = 0 ∨ ∃ ch, ln[p.1 - 1]? = some ch ∧ reWordAscii ch = false)) ∧
    (∀ i : Nat,
      ((S "b3d_sinf").isPrefixOf (ln.drop i) = true →
        (i + 4, S "sinf") ∉ lineOffenses ln) ∧
      ((S "asinf").isPrefixOf (ln.drop i) = true →
        (i + 1, S "sinf") ∉ lineOffenses ln) ∧
      ((S "_sinf").isPrefixOf (ln.drop i) = true →
        (i + 1, S "sinf") ∉ lineOffenses ln)) := by
  have sound : ∀ p ∈ lineOffenses ln,
      p.2 ∈ forbiddenFuncs ∧
      (p.1 = 0 ∨ ∃ ch, ln[p.1 - 1]? = some ch ∧ reWordAscii ch = false) := by
    intro p hp
    obtain ⟨_, h2, h3⟩ := reMatchesAux_sound (ln.length + 1) none 0 ln p hp
    refine ⟨h2, ?_⟩
    rcases h3 with ⟨he, _⟩ | ⟨hgt, ch, hch, hw⟩
    · exact Or.inl he
    · refine Or.inr ⟨ch, ?_, hw⟩
      simpa using hch
  refine ⟨sound, ?_⟩
  intro i
  refine ⟨?_, ?_, ?_⟩
  · intro hpre hmem
    obtain ⟨_, h3⟩ := sound _ hmem
    rcases h3 with he | ⟨ch, hch, hw⟩
    · omega
    · have hc : ln[i + 3]? = some '_' := by
        have h := isPrefixOf_getElem hpre 3 (by decide)
        rw [List.getElem?_drop] at h
        simpa using h
      have : i + 4 - 1 = i + 3 := by omega
      rw [this, hc] at hch
      injection hch with hch
      subst hch
      exact absurd hw (by decide)
  · intro hpre hmem
    obtain ⟨_, h3⟩ := sound _ hmem
    rcases h3 with he | ⟨ch, hch, hw⟩
    · omega
    · have hc : ln[i]? = some 'a' := by
        have h := isPrefixOf_getElem hpre 0 (by decide)
        rw [List.getElem?_drop] at h
        simpa using h
      have : i + 1 - 1 = i := by omega
      rw [this, hc] at hch
      injection hch with hch
      subst hch
      exact absurd hw (by decide)
  · intro hpre hmem
    obtain ⟨_, h3⟩ := sound _ hmem
    rcases h3 with he | ⟨ch, hch, hw⟩
    · omega
    · have hc : ln[i]? = some '_' := by
        have h := isPrefixOf_getElem hpre 0 (by decide)
        rw [List.getElem?_drop] at h
        simpa using h
      have : i + 1 - 1 = i := by omega
      rw [this, hc] at hch
      injection hch with hch
      subst hch
      exact absurd hw (by decide)

/-- Witness for c9_forbidden_lookbehind: on the line
x = sinf(y) + b3d_sinf(z); the offense at column 4 names sinf with a
non-word character before it, and the sinf occurrence inside the
b3d_sinf call at column 14 is not reported. -/
theorem c9_forbidden_lookbehind_witness :
    ((S "sinf") ∈ forbiddenFuncs ∧
      ((4 : Nat) = 0 ∨ ∃ ch,
        (S "x = sinf(y) + b3d_sinf(z);")[(4 : Nat) - 1]? = some ch ∧
          reWordAscii ch = false)) ∧
    (14 + 4, S "sinf") ∉ lineOffenses (S "x = sinf(y) + b3d_sinf(z);") := by
  exact ⟨(c9_forbidden_lookbehind (S "x = sinf(y) + b3d_sinf(z);")).1
      (4, S "sinf") (by decide),
    ((c9_forbidden_lookbehind (S "x = sinf(y) + b3d_sinf(z);")).2 14).1
      (by decide)⟩

/-- The mode-specific emitters factor through the generic emitters at
the lowering context the mode installs: mutual agreement for the six
expression-level emitters, by induction on fuel. -/
theorem emitG_agree (mode : Mode) (suffix : List Char) : ∀ fuel : Nat,
    (∀ e ic, emitExpr mode suffix fuel e ic =
      emitExprG (ctxFor mode suffix) suffix fuel e ic) ∧
    (∀ v rng body ic, emitSumE mode suffix fuel v rng body ic =
      emitSumEG (ctxFor mode suffix) suffix fuel v rng body ic) ∧
    (∀ body v rng ic, emitComprE mode suffix fuel body v rng ic =
      emitComprEG (ctxFor mode suffix) suffix fuel body v rng ic) ∧
    (∀ body n ic, emitIter mode suffix fuel body n ic =
      emitIterG (ctxFor mode suffix) suffix fuel body n ic) ∧
    (∀ es ic, emitList mode suffix fuel es ic =
      emitListG (ctxFor mode suffix) suffix fuel es ic) ∧
    (∀ rows ic, emitRows mode suffix fuel rows ic =
      emitRowsG (ctxFor mode suffix) suffix fuel rows ic) ∧
    (∀ f args i ic, emitCallArgs mode suffix fuel f args i ic =
      emitCallArgsG (ctxFor mode suffix) suffix fuel f args i ic) := by
  intro fuel
  induction fuel with
  | zero =>
    refine ⟨fun e ic => rfl, fun v rng body ic => rfl, fun body v rng ic => rfl,
      ?_, ?_, ?_, ?_⟩
    · intro body n ic; cases n <;> rfl
    · intro es ic; cases es <;> rfl
    · intro rows ic; cases rows <;> rfl
    · intro f args i ic; cases args <;> rfl
  | succ f ih =>
    obtain ⟨ihE, ihS, ihC, ihI, ihL, ihR, ihA⟩ := ih
    refine ⟨?_, ?_, ?_, ?_, ?_, ?_, ?_⟩
    · intro e ic
      cases e <;>
        simp [emitExpr, emitExprG, ctxFor, ihE, ihS, ihC, ihI, ihL, ihR, ihA]
    · intro v rng body ic
      simp [emitSumE, emitSumEG, ihI]
    · intro body v rng ic
      simp [emitComprE, emitComprEG, ihI]
    · intro body n ic
      cases n <;> simp [emitIter, emitIterG, ihE, ihI]
    · intro es ic
      cases es <;> simp [emitList, emitListG, ihE, ihL]
    · intro rows ic
      cases rows <;> simp [emitRows, emitRowsG, ihL, ihR]
    · intro f2 args i ic
      cases args <;> simp [emitCallArgs, emitCallArgsG, ihE, ihA]

/-- Binding-group emission factors through the generic emitter. -/
theorem emitBindingsG_agree (mode : Mode) (suffix : List Char) (fuel : Nat) :
    ∀ bs ic, emitBindings mode suffix fuel bs ic =
      emitBindingsG (ctxFor mode suffix) suffix fuel bs ic := by
  intro bs
  induction bs with
  | nil => intro ic; rfl
  | cons b rest ih =>
    intro ic
    cases b
    simp [emitBindings, emitBindingsG, (emitG_agree mode suffix fuel).1, ih]

/-- Let extraction factors through the generic emitter. -/
theorem extractLetsG_agree (mode : Mode) (suffix : List Char) : ∀ fuel : Nat,
    ∀ e ic, extractLets mode suffix fuel e ic =
      extractLetsG (ctxFor mode suffix) suffix fuel e ic := by
  intro fuel
  induction fuel with
  | zero => intro e ic; rfl
  | succ f ih =>
    intro e ic
    cases e <;>
      simp [extractLets, extractLetsG, emitBindingsG_agree,
        (emitG_agree mode suffix (f + 1)).1, ih]

/-- Complex-body emission factors through the generic emitter. -/
theorem emitComplexBodyG_agree (mode : Mode) (suffix : List Char) : ∀ fuel : Nat,
    ∀ e ret ind ic, emitComplexBody mode suffix fuel e ret ind ic =
      emitComplexBodyG (ctxFor mode suffix) suffix fuel e ret ind ic := by
  intro fuel
  induction fuel with
  | zero => intro e ret ind ic; rfl
  | succ f ih =>
    intro e ret ind ic
    cases e <;>
      simp [emitComplexBody, emitComplexBodyG, emitBindingsG_agree,
        (emitG_agree mode suffix (f + 1)).1, ih]

/-- Function emission factors through the generic emitter. -/
theorem emitFuncG_agree (mode : Mode) (suffix : List Char) (fuel : Nat)
    (f : FuncDef) (ic : Bool) :
    emitFunc mode suffix fuel f ic = emitFuncG (ctxFor mode suffix) suffix fuel f ic := by
  simp [emitFunc, emitFuncG, emitComplexBodyG_agree, extractLetsG_agree,
    (emitG_agree mode suffix fuel).1]

/-- The per-function line generation factors through the generic
emitter. -/
theorem genFuncLinesG_agree (mode : Mode) (suffix : List Char) (fuel : Nat) :
    ∀ funcs ic, genFuncLines mode suffix fuel funcs ic =
      genFuncLinesG (ctxFor mode suffix) suffix fuel funcs ic := by
  intro funcs
  induction funcs with
  | nil => intro ic; rfl
  | cons f rest ih =>
    intro ic
    simp [genFuncLines, genFuncLinesG, emitFuncG_agree, ih]

/-- The header comment is the generic header at the mode word. -/
theorem hdrLinesG_agree (mode : Mode) :
    hdrLines mode = hdrLinesG (modeWord mode) := by
  cases mode <;> rfl

/-- C5: the mode-swap law.  For every suffix, fuel and function list
the output of each mode is the one generic generator applied to the
lowering context and header word of that mode, so the two modes can
only differ through those parameters; and off the four arithmetic
operators and off the four named constants the two contexts install
the same lowering, so identifier names and output structure coincide
between the modes. -/
theorem c5_mode_swap (suffix : List Char) (fuel : Nat) (funcs : List FuncDef) :
    (∀ mode, generateC mode suffix fuel funcs =
      generateCG (ctxFor mode suffix) (modeWord mode) suffix fuel funcs) ∧
    (∀ op l r, op ≠ S "+" → op ≠ S "-" → op ≠ S "*" → op ≠ S "/" →
      (ctxFor .float suffix).bin op l r = (ctxFor .fixed suffix).bin op l r) ∧
    (∀ n, n ≠ S "PI" → n ≠ S "EPSILON" → n ≠ S "ZERO" → n ≠ S "ONE" →
      (ctxFor .float suffix).konst n = (ctxFor .fixed suffix).konst n) := by
  refine ⟨?_, ?_, ?_⟩
  · intro mode
    simp [generateC, generateCG, genFuncLinesG_agree, hdrLinesG_agree]
  · intro op l r h1 h2 h3 h4
    simp [ctxFor, emitBinop, h1, h2, h3, h4]
  · intro n h1 h2 h3 h4
    simp [ctxFor, emitVar, h1, h2, h3, h4]

/-- Witness for c5_mode_swap: the factoring at fixed mode on the empty
function list, the dot operator lowered identically in both modes, and
the identity-matrix constant emitted identically in both modes. -/
theorem c5_mode_swap_witness :
    generateC .fixed [] 9 [] =
      generateCG (ctxFor .fixed []) (modeWord .fixed) [] 9 [] ∧
    (ctxFor .float []).bin (S "dot") (S "a") (S "b") =
      (ctxFor .fixed []).bin (S "dot") (S "a") (S "b") ∧
    (ctxFor .float []).konst (S "I") = (ctxFor .fixed []).konst (S "I") := by
  obtain ⟨h1, h2, h3⟩ := c5_mode_swap [] 9 []
  exact ⟨h1 .fixed,
    h2 (S "dot") (S "a") (S "b") (by decide) (by decide) (by decide) (by decide),
    h3 (S "I") (by decide) (by decide) (by decide) (by decide)⟩

/-- Character-class facts used throughout the whole-word analysis. -/
theorem wordChar_facts :
    wordChar '[' = false ∧ wordChar ']' = false ∧ wordChar '.' = false ∧
    wordChar '(' = false ∧ wordChar ')' = false ∧ wordChar ' ' = false ∧
    wordChar '+' = false ∧ wordChar ',' = false ∧ wordChar lbr = false ∧
    wordChar rbr = false ∧ wordChar 'm' = true ∧ wordChar '0' = true ∧
    wordChar 'f' = true := by decide

/-- One step of the whole-word-at-head test. -/
theorem wwAt_cons (v c : Char) (vt R : List Char) :
    wwAt (v :: vt) (c :: R) = (decide (v = c) && wwAt vt R) := by
  simp only [wwAt, List.isPrefixOf, bAfterB, List.drop_succ_cons]
  cases hvc : v == c with
  | false =>
    have : decide (v = c) = false := by simpa using hvc
    simp [this]
  | true =>
    have : decide (v = c) = true := by simpa using hvc
    simp [this, Bool.and_assoc]

/-- A head character the variable cannot start with kills the head
test. -/
theorem wwAt_head_ne {var : List Char} (hv : var ≠ [])
    (h : var.headD ' ' ≠ c) (R : List Char) : wwAt var (c :: R) = false := by
  cases var with
  | nil => exact absurd rfl hv
  | cons v vt =>
    rw [wwAt_cons]
    have : decide (v = c) = false := by
      simp only [List.headD_cons] at h
      simpa using h
    simp [this]

/-- A non-word head character kills the head test for an all-word
variable. -/
theorem wwAt_head_nonword {var : List Char} (hv : var ≠ [])
    (hw : var.all wordChar = true) (hc : wordChar c = false) (R : List Char) :
    wwAt var (c :: R) = false := by
  refine wwAt_head_ne hv ?_ R
  intro hh
  cases var with
  | nil => exact absurd rfl hv
  | cons v vt =>
    simp only [List.headD_cons] at hh
    subst hh
    simp only [List.all_cons, Bool.and_eq_true] at hw
    rw [hw.1] at hc
    exact absurd hc (by simp)

/-- The head test is unchanged by appending text after a trailing
non-word character (or nothing at all). -/
theorem wwAt_append_nw {var : List Char} (hw : var.all wordChar = true)
    {X : List Char} (hX : X = [] ∨ ∃ d xs, X = d :: xs ∧ wordChar d = false) :
    ∀ l, wwAt var (l ++ X) = wwAt var l := by
  induction var with
  | nil =>
    intro l
    cases l with
    | nil =>
      rcases hX with rfl | ⟨d, xs, rfl, hd⟩
      · rfl
      · simp [wwAt, bAfterB, List.isPrefixOf, hd]
    | cons a l2 => simp [wwAt, bAfterB, List.isPrefixOf]
  | cons v vt ih =>
    intro l
    have hw2 : vt.all wordChar = true := by
      simp only [List.all_cons, Bool.and_eq_true] at hw
      exact hw.2
    have hwv : wordChar v = true := by
      simp only [List.all_cons, Bool.and_eq_true] at hw
      exact hw.1
    cases l with
    | nil =>
      rcases hX with rfl | ⟨d, xs, rfl, hd⟩
      · rfl
      · simp only [List.nil_append]
        rw [wwAt_cons]
        have : decide (v = d) = false := by
          refine decide_eq_false ?_
          intro hvd
          subst hvd
          rw [hwv] at hd
          exact absurd hd (by simp)
        simp [this, wwAt, List.isPrefixOf]
    | cons a l2 =>
      simp only [List.cons_append]
      rw [wwAt_cons, wwAt_cons, ih hw2 l2]

/-- The head test on a block of word characters followed by a non-word
boundary succeeds exactly on the block itself. -/
theorem wwAt_wordblock {var : List Char} (hw : var.all wordChar = true) :
    ∀ (W : List Char), W.all wordChar = true →
    ∀ {X : List Char}, (X = [] ∨ ∃ d xs, X = d :: xs ∧ wordChar d = false) →
    wwAt var (W ++ X) = decide (var = W) := by
  intro W
  induction W generalizing var with
  | nil =>
    intro _ X hX
    cases var with
    | nil =>
      rcases hX with rfl | ⟨d, xs, rfl, hd⟩
      · simp [wwAt, bAfterB, List.isPrefixOf]
      · simp [wwAt, bAfterB, List.isPrefixOf, hd]
    | cons v vt =>
      rcases hX with rfl | ⟨d, xs, rfl, hd⟩
      · simp [wwAt, List.isPrefixOf]
      · simp only [List.nil_append]
        rw [wwAt_head_nonword (by simp) hw hd]
        simp
  | cons w W2 ih =>
    intro hvw X hX
    have hWw : wordChar w = true := by
      simp only [List.all_cons, Bool.and_eq_true] at hvw
      exact hvw.1
    have hW2 : W2.all wordChar = true := by
      simp only [List.all_cons, Bool.and_eq_true] at hvw
      exact hvw.2
    cases var with
    | nil =>
      simp only [List.cons_append]
      simp [wwAt, bAfterB, List.isPrefixOf, hWw]
    | cons v vt =>
      have hvt : vt.all wordChar = true := by
        simp only [List.all_cons, Bool.and_eq_true] at hw
        exact hw.2
      simp only [List.cons_append]
      rw [wwAt_cons, ih hvt hW2 hX]
      by_cases hv : v = w
      · subst hv; simp
      · simp [hv]

/-- Unfolding equation of the scanner at a cons cell. -/
theorem cwAux_cons (var : List Char) (f : Bool) (c : Char) (l : List Char) :
    cwAux var f (c :: l) = ((!f && wwAt var (c :: l)) || cwAux var (wordChar c) l) :=
  rfl

/-- Scanning with the previous character marked as word only drops the
match at the first position. -/
theorem cwAux_mono {var s : List Char} (h : cwAux var false s = false) :
    cwAux var true s = false := by
  cases s with
  | nil => rfl
  | cons c cs =>
    simp only [cwAux, Bool.or_eq_false_iff] at h ⊢
    exact ⟨by simp, h.2⟩

/-- A non-word head character contributes nothing to the scan of an
all-word variable. -/
theorem cwAux_nonword_head {var : List Char} (hv : var ≠ [])
    (hw : var.all wordChar = true) (hc : wordChar c = false) (f : Bool)
    (t : List Char) : cwAux var f (c :: t) = cwAux var false t := by
  simp only [cwAux, wwAt_head_nonword hv hw hc, hc]
  simp

/-- Scanning an append whose right part opens with a non-word character
(or is empty) splits into the two scans. -/
theorem cwAux_append_nw {var : List Char} (hv : var ≠ [])
    (hw : var.all wordChar = true) {X : List Char}
    (hX : X = [] ∨ ∃ d xs, X = d :: xs ∧ wordChar d = false) :
    ∀ (a : List Char) (f : Bool),
      cwAux var f (a ++ X) = (cwAux var f a || cwAux var false X) := by
  intro a
  induction a with
  | nil =>
    intro f
    rcases hX with rfl | ⟨d, xs, rfl, hd⟩
    · simp [cwAux]
    · simp only [List.nil_append, cwAux]
      rw [wwAt_head_nonword hv hw hd]
      simp [hd]
  | cons c as ih =>
    intro f
    have hww := wwAt_append_nw hw hX (c :: as)
    simp only [List.cons_append] at hww
    simp only [List.cons_append]
    rw [cwAux_cons, cwAux_cons, ih (wordChar c), hww]
    simp [Bool.or_assoc]

/-- Scanning a nonempty block of word characters: the match at the
block head plus the scan of the remainder entered in word context. -/
theorem cwAux_wordblock {var : List Char} :
    ∀ (W : List Char), W ≠ [] → W.all wordChar = true →
    ∀ (f : Bool) (t : List Char),
      cwAux var f (W ++ t) = ((!f && wwAt var (W ++ t)) || cwAux var true t) := by
  intro W
  induction W with
  | nil => intro h; exact absurd rfl h
  | cons w W2 ih =>
    intro _ hall f t
    have hWw : wordChar w = true := by
      simp only [List.all_cons, Bool.and_eq_true] at hall
      exact hall.1
    have hW2 : W2.all wordChar = true := by
      simp only [List.all_cons, Bool.and_eq_true] at hall
      exact hall.2
    cases W2 with
    | nil =>
      simp only [List.cons_append, List.nil_append]
      rw [cwAux_cons]
      simp [hWw]
    | cons w2 W3 =>
      have hih := ih (by simp) hW2 true t
      simp only [List.cons_append] at hih ⊢
      rw [cwAux_cons, hWw, hih]
      simp

/-- The substitution scanner on the empty string. -/
theorem subWF_nil (var val : List Char) (p : Bool) :
    ∀ fuel, subWF fuel var val p [] = [] := by
  intro fuel
  cases fuel <;> rfl

/-- The substitution scanner copies a non-word head character. -/
theorem subWF_head {var val : List Char} (hv : var ≠ [])
    (hw : var.all wordChar = true) {d : Char} (hd : wordChar d = false) :
    ∀ (fuel : Nat) (p : Bool) (ds : List Char),
      ∃ Z, subWF fuel var val p (d :: ds) = d :: Z := by
  intro fuel p ds
  cases fuel with
  | zero => exact ⟨ds, rfl⟩
  | succ f =>
    have hpf : var.isPrefixOf (d :: ds) = false := by
      cases var with
      | nil => exact absurd rfl hv
      | cons v vt =>
        have hwv : wordChar v = true := by
          simp only [List.all_cons, Bool.and_eq_true] at hw
          exact hw.1
        have : (v == d) = false := by
          refine beq_eq_false_iff_ne.mpr ?_
          intro hvd
          subst hvd
          rw [hwv] at hd
          exact absurd hd (by simp)
        simp [List.isPrefixOf, this]
    refine ⟨subWF f var val (wordChar d) ds, ?_⟩
    simp [subWF, hpf]

/-- Word-context run of the substitution scanner: starting in word
context the scan copies the text until the first non-word character and
resumes there in fresh context. -/
theorem subWF_run {var val : List Char} (hv : var ≠ [])
    (hw : var.all wordChar = true) :
    ∀ (s : List Char) (fuel : Nat), s.length ≤ fuel →
      subWF fuel var val true s = s ∨
      (∃ w d rest fuel2, s = w ++ d :: rest ∧ w.all wordChar = true ∧
        wordChar d = false ∧ rest.length ≤ fuel2 ∧
        subWF fuel var val true s = w ++ d :: subWF fuel2 var val false rest) := by
  intro s
  induction s with
  | nil => intro fuel _; exact Or.inl (subWF_nil var val true fuel)
  | cons c cs ih =>
    intro fuel hlen
    cases fuel with
    | zero => simp at hlen
    | succ f =>
      have hstep : subWF (f + 1) var val true (c :: cs) =
          c :: subWF f var val (wordChar c) cs := by
        simp [subWF]
      by_cases hc : wordChar c = true
      · rw [hstep, hc]
        rcases ih f (by simpa using hlen) with h | ⟨w, d, rest, fuel2, hs, hww, hd, hl, he⟩
        · exact Or.inl (by rw [h])
        · refine Or.inr ⟨c :: w, d, rest, fuel2, by rw [hs]; simp, ?_, hd, hl,
            by rw [he]; simp⟩
          simp [hww, hc]
      · have hc2 : wordChar c = false := by simpa using hc
        rw [hstep, hc2]
        exact Or.inr ⟨[], c, cs, f, rfl, by simp, hc2, by simpa using hlen, rfl⟩

/-- The head test across the substitution scanner in word context is
the head test on the original text. -/
theorem subWF_pfx {var val : List Char} (hv : var ≠ [])
    (hw : var.all wordChar = true) (c : Char) (fuel : Nat) (cs : List Char)
    (hlen : cs.length ≤ fuel) :
    wwAt var (c :: subWF fuel var val true cs) = wwAt var (c :: cs) := by
  rcases subWF_run hv hw cs fuel hlen with h | ⟨w, d, rest, fuel2, hs, hww, hd, _, he⟩
  · rw [h]
  · rw [he, hs]
    have h1 := wwAt_append_nw hw
      (Or.inr ⟨d, subWF fuel2 var val false rest, rfl, hd⟩) (c :: w)
    have h2 := wwAt_append_nw hw (Or.inr ⟨d, rest, rfl, hd⟩) (c :: w)
    simp only [List.cons_append] at h1 h2
    rw [h1, h2]

/-- Main elimination property of the word-bounded substitution: when
the replacement text itself has no whole-word occurrence of the
variable, neither does the substituted text. -/
theorem subWF_cw {var val : List Char} (hv : var ≠ [])
    (hw : var.all wordChar = true) (hval : containsWord val var = false) :
    ∀ (fuel : Nat) (s : List Char) (prevW : Bool), s.length ≤ fuel →
      cwAux var prevW (subWF fuel var val prevW s) = false := by
  intro fuel
  induction fuel with
  | zero =>
    intro s prevW hlen
    have hs : s = [] := by
      cases s with
      | nil => rfl
      | cons a b => simp at hlen
    subst hs
    rfl
  | succ f ih =>
    intro s prevW hlen
    cases s with
    | nil => rw [subWF_nil]; rfl
    | cons c cs =>
      by_cases hcond : (var ≠ [] && prevW = false && var.isPrefixOf (c :: cs) &&
          bAfterB var (c :: cs)) = true
      · have hstep : subWF (f + 1) var val prevW (c :: cs) =
            val ++ subWF f var val true ((c :: cs).drop var.length) := by
          simp only [subWF]
          rw [if_pos hcond]
        have hcp : prevW = false ∧ var.isPrefixOf (c :: cs) = true ∧
            bAfterB var (c :: cs) = true := by
          simp only [Bool.and_eq_true, decide_eq_true_eq] at hcond
          exact ⟨hcond.1.1.2, hcond.1.2, hcond.2⟩
        have hrest : (c :: cs).drop var.length = [] ∨
            ∃ d ds, (c :: cs).drop var.length = d :: ds ∧ wordChar d = false := by
          have haf := hcp.2.2
          unfold bAfterB at haf
          cases hr : (c :: cs).drop var.length with
          | nil => exact Or.inl rfl
          | cons d ds =>
            rw [hr] at haf
            exact Or.inr ⟨d, ds, rfl, by simpa using haf⟩
        have hrlen : ((c :: cs).drop var.length).length ≤ f := by
          have h1 : ((c :: cs).drop var.length).length ≤ cs.length := by
            cases var with
            | nil => exact absurd rfl hv
            | cons v vt =>
              simp only [List.length_cons, List.drop_succ_cons]
              have := List.length_drop vt.length cs
              omega
          simp only [List.length_cons] at hlen
          omega
        have hX : subWF f var val true ((c :: cs).drop var.length) = [] ∨
            ∃ d xs, subWF f var val true ((c :: cs).drop var.length) = d :: xs ∧
              wordChar d = false := by
          rcases hrest with hre | ⟨d, ds, hre, hd⟩
          · rw [hre, subWF_nil]
            exact Or.inl rfl
          · rw [hre]
            obtain ⟨Z, hZ⟩ := subWF_head hv hw hd f true ds
            exact Or.inr ⟨d, Z, hZ, hd⟩
        rw [hstep, cwAux_append_nw hv hw hX val prevW]
        have h1 : cwAux var prevW val = false := by
          rw [hcp.1]
          exact hval
        have h2 : cwAux var false (subWF f var val true ((c :: cs).drop var.length)) =
            false := by
          rcases hrest with hre | ⟨d, ds, hre, hd⟩
          · rw [hre, subWF_nil]
            rfl
          · have hIH := ih ((c :: cs).drop var.length) true hrlen
            rw [hre] at hIH ⊢
            obtain ⟨Z, hZ⟩ := subWF_head hv hw hd f true ds
            rw [hZ] at hIH ⊢
            rw [cwAux_nonword_head hv hw hd] at hIH ⊢
            exact hIH
        rw [h1, h2]
        rfl
      · have hstep : subWF (f + 1) var val prevW (c :: cs) =
            c :: subWF f var val (wordChar c) cs := by
          simp only [subWF]
          rw [if_neg hcond]
        rw [hstep, cwAux_cons]
        have htail : cwAux var (wordChar c) (subWF f var val (wordChar c) cs) = false :=
          ih cs (wordChar c) (by simpa using hlen)
        rw [htail]
        cases hp : prevW with
        | true => simp
        | false =>
          simp only [Bool.not_false, Bool.true_and, Bool.or_false]
          by_cases hc : wordChar c = true
          · have hY : subWF f var val (wordChar c) cs = subWF f var val true cs := by
              rw [hc]
            rw [hY, subWF_pfx hv hw c f cs (by simpa using hlen)]
            cases hb : var.isPrefixOf (c :: cs) && bAfterB var (c :: cs) with
            | false =>
              unfold wwAt
              exact hb
            | true =>
              exfalso
              apply hcond
              rw [hp]
              simp only [Bool.and_eq_true] at hb
              simp [hv, hb.1, hb.2]
          · have hc2 : wordChar c = false := by simpa using hc
            rw [wwAt_head_nonword hv hw hc2]

/-- Two texts sharing a word-character prefix up to a non-word
character have the same head test for any variable. -/
theorem wwAt_congr_run {var : List Char} (hw : var.all wordChar = true)
    {s t : List Char}
    (h : t = s ∨ ∃ w d rest d2 rest2, s = w ++ d :: rest ∧ t = w ++ d2 :: rest2 ∧
      w.all wordChar = true ∧ wordChar d = false ∧ wordChar d2 = false)
    (c : Char) : wwAt var (c :: t) = wwAt var (c :: s) := by
  rcases h with rfl | ⟨w, d, rest, d2, rest2, hs, ht, hww, hd, hd2⟩
  · rfl
  · subst hs
    subst ht
    have h1 := wwAt_append_nw hw (Or.inr ⟨d2, rest2, rfl, hd2⟩) (c :: w)
    have h2 := wwAt_append_nw hw (Or.inr ⟨d, rest, rfl, hd⟩) (c :: w)
    simp only [List.cons_append] at h1 h2
    rw [h1, h2]

/-- Run shape of the component clean-up: the output either is the
input or diverges only from a non-word position on. -/
theorem compFix_run (v : Char) : ∀ s : List Char,
    compFix v s = s ∨ ∃ w d rest d2 rest2, s = w ++ d :: rest ∧
      compFix v s = w ++ d2 :: rest2 ∧ w.all wordChar = true ∧
      wordChar d = false ∧ wordChar d2 = false := by
  intro s
  induction s using compFix.induct v with
  | case1 c rest hcond ih =>
    right
    refine ⟨[], '[', c :: ']' :: rest, '.', v :: compFix v rest, rfl, ?_,
      by simp, by decide, by decide⟩
    simp only [compFix]
    rw [if_pos hcond]
    rfl
  | case2 c rest hcond ih =>
    right
    refine ⟨[], '[', c :: ']' :: rest, '[', compFix v (c :: ']' :: rest), rfl, ?_,
      by simp, by decide, by decide⟩
    simp only [compFix]
    rw [if_neg hcond]
    rfl
  | case3 c cs hnp ih =>
    have heq : compFix v (c :: cs) = c :: compFix v cs := by
      rw [compFix.eq_def]
      split
      · rename_i c1 rest h1
        injection h1 with h1a h1b
        exact absurd (by subst h1a; exact rfl) (fun hh => hnp c1 rest hh h1b)
      · rename_i c1 cs1 h1
        injection h1 with h1a h1b
        subst h1a
        subst h1b
        rfl
      · rename_i h1
        exact absurd h1 (by simp)
    by_cases hc : wordChar c = true
    · rcases ih with h | ⟨w, d, rest, d2, rest2, hs, ht, hww, hd, hd2⟩
      · exact Or.inl (by rw [heq, h])
      · refine Or.inr ⟨c :: w, d, rest, d2, rest2, by rw [hs]; simp, ?_,
          by simp [hww, hc], hd, hd2⟩
        rw [heq, ht]
        simp
    · have hc2 : wordChar c = false := by simpa using hc
      exact Or.inr ⟨[], c, cs, c, compFix v cs, rfl, heq, by simp, hc2, hc2⟩
  | case4 => exact Or.inl rfl

/-- Run shape of the matrix-index clean-up. -/
theorem idxFix0f_run (d : Char) : ∀ s : List Char,
    idxFix0f d s = s ∨ ∃ w e rest e2 rest2, s = w ++ e :: rest ∧
      idxFix0f d s = w ++ e2 :: rest2 ∧ w.all wordChar = true ∧
      wordChar e = false ∧ wordChar e2 = false := by
  intro s
  induction s using idxFix0f.induct d with
  | case1 rest ih =>
    right
    refine ⟨[], '[', d :: '.' :: '0' :: 'f' :: ']' :: rest, '[',
      d :: ']' :: idxFix0f d rest, rfl, ?_, by simp, by decide, by decide⟩
    simp [idxFix0f]
  | case2 c rest hcond ih =>
    right
    refine ⟨[], '[', c :: '.' :: '0' :: 'f' :: ']' :: rest, '[',
      idxFix0f d (c :: '.' :: '0' :: 'f' :: ']' :: rest), rfl, ?_,
      by simp, by decide, by decide⟩
    simp only [idxFix0f]
    rw [if_neg hcond]
    rfl
  | case3 c cs hnp ih =>
    have heq : idxFix0f d (c :: cs) = c :: idxFix0f d cs := by
      rw [idxFix0f.eq_def]
      split
      · rename_i c1 rest h1
        injection h1 with h1a h1b
        exact absurd (by subst h1a; exact rfl) (fun hh => hnp c1 rest hh h1b)
      · rename_i c1 cs1 h1
        injection h1 with h1a h1b
        subst h1a
        subst h1b
        rfl
      · rename_i h1
        exact absurd h1 (by simp)
    by_cases hc : wordChar c = true
    · rcases ih with h | ⟨w, e, rest, e2, rest2, hs, ht, hww, he, he2⟩
      · exact Or.inl (by rw [heq, h])
      · refine Or.inr ⟨c :: w, e, rest, e2, rest2, by rw [hs]; simp, ?_,
          by simp [hww, hc], he, he2⟩
        rw [heq, ht]
        simp
    · have hc2 : wordChar c = false := by simpa using hc
      exact Or.inr ⟨[], c, cs, c, idxFix0f d cs, rfl, heq, by simp, hc2, hc2⟩
  | case4 => exact Or.inl rfl

/-- Run shape of the component clean-up for numeric indices. -/
theorem idxComp_run (d comp : Char) : ∀ (prev : Option Char) (s : List Char),
    idxComp d comp prev s = s ∨ ∃ w e rest e2 rest2, s = w ++ e :: rest ∧
      idxComp d comp prev s = w ++ e2 :: rest2 ∧ w.all wordChar = true ∧
      wordChar e = false ∧ wordChar e2 = false := by
  intro prev s
  induction prev, s using idxComp.induct d comp with
  | case1 prev c rest hcond ih =>
    right
    refine ⟨[], '[', c :: ']' :: rest, '.',
      comp :: idxComp d comp (some ']') rest, rfl, ?_, by simp, by decide,
      by decide⟩
    simp only [idxComp]
    rw [if_pos hcond]
    rfl
  | case2 prev c rest hcond ih =>
    right
    refine ⟨[], '[', c :: ']' :: rest, '[',
      idxComp d comp (some '[') (c :: ']' :: rest), rfl, ?_, by simp,
      by decide, by decide⟩
    simp only [idxComp]
    rw [if_neg hcond]
    rfl
  | case3 prev c cs hnp ih =>
    have heq : idxComp d comp prev (c :: cs) = c :: idxComp d comp (some c) cs := by
      rw [idxComp.eq_def]
      split
      · rename_i c1 rest h1
        injection h1 with h1a h1b
        exact absurd (by subst h1a; exact rfl) (fun hh => hnp c1 rest hh h1b)
      · rename_i c1 cs1 h1
        injection h1 with h1a h1b
        subst h1a
        subst h1b
        rfl
      · rename_i h1
        exact absurd h1 (by simp)
    by_cases hc : wordChar c = true
    · rcases ih with h | ⟨w, e, rest, e2, rest2, hs, ht, hww, he, he2⟩
      · exact Or.inl (by rw [heq, h])
      · refine Or.inr ⟨c :: w, e, rest, e2, rest2, by rw [hs]; simp, ?_,
          by simp [hww, hc], he, he2⟩
        rw [heq, ht]
        simp
    · have hc2 : wordChar c = false := by simpa using hc
      exact Or.inr ⟨[], c, cs, c, idxComp d comp (some c) cs, rfl, heq,
        by simp, hc2, hc2⟩
  | case4 prev => exact Or.inl rfl

/-- Run shape of the final matrix clean-up. -/
theorem mFixAux_run : ∀ (fuel : Nat) (s : List Char),
    mFixAux fuel s = s ∨ ∃ w e rest e2 rest2, s = w ++ e :: rest ∧
      mFixAux fuel s = w ++ e2 :: rest2 ∧ w.all wordChar = true ∧
      wordChar e = false ∧ wordChar e2 = false := by
  intro fuel s
  induction fuel, s using mFixAux.induct with
  | case1 s => exact Or.inl rfl
  | case2 fuel => exact Or.inl rfl
  | case3 fuel rest ds r2 hcond ih =>
    right
    refine ⟨[], '.', 'm' :: '[' :: rest, '.', ?_, rfl, ?_, by simp, by decide,
      by decide⟩
    · exact 'm' :: '[' :: (rest.takeWhile pyDigit ++ S "]" ++
        mFixAux fuel ((rest.dropWhile pyDigit).drop 4))
    · have hcond2 : (decide (rest.takeWhile pyDigit ≠ []) &&
          (S ".0f]").isPrefixOf (rest.dropWhile pyDigit)) = true := hcond
      simp only [mFixAux]
      rw [if_pos hcond2]
      simp [S]
  | case4 fuel rest ds r2 hcond ih =>
    right
    refine ⟨[], '.', 'm' :: '[' :: rest, '.',
      mFixAux fuel ('m' :: '[' :: rest), rfl, ?_, by simp, by decide,
      by decide⟩
    have hcond2 : ¬(decide (rest.takeWhile pyDigit ≠ []) &&
        (S ".0f]").isPrefixOf (rest.dropWhile pyDigit)) = true := hcond
    simp only [mFixAux]
    rw [if_neg hcond2]
    rfl
  | case5 fuel c cs hnp ih =>
    have heq : mFixAux (fuel + 1) (c :: cs) = c :: mFixAux fuel cs := by
      rw [mFixAux.eq_def]
      split
      · rename_i h1
        exact absurd h1 (by simp)
      · rename_i h1
        exact absurd h1 (by simp)
      · rename_i fuel2 rest h1 h2
        injection h2 with h2a h2b
        exact absurd (by subst h2a; exact rfl) (fun hh => hnp rest hh h2b)
      · rename_i fuel2 c1 cs1 h1 h2
        injection h2 with h2a h2b
        injection h1 with h1a
        subst h1a
        subst h2a
        subst h2b
        rfl
    by_cases hc : wordChar c = true
    · rcases ih with h | ⟨w, e, rest, e2, rest2, hs, ht, hww, he, he2⟩
      · exact Or.inl (by rw [heq, h])
      · refine Or.inr ⟨c :: w, e, rest, e2, rest2, by rw [hs]; simp, ?_,
          by simp [hww, hc], he, he2⟩
        rw [heq, ht]
        simp
    · have hc2 : wordChar c = false := by simpa using hc
      exact Or.inr ⟨[], c, cs, c, mFixAux fuel cs, rfl, heq, by simp, hc2, hc2⟩

/-- Step equation of the component clean-up off the bracket pattern. -/
theorem compFix_cons (v c : Char) (cs : List Char)
    (hnp : ∀ (c1 : Char) (rest : List Char), c = '[' → cs = c1 :: ']' :: rest → False) :
    compFix v (c :: cs) = c :: compFix v cs := by
  rw [compFix.eq_def]
  split
  · rename_i c1 rest h1
    injection h1 with h1a h1b
    exact absurd (by subst h1a; exact rfl) (fun hh => hnp c1 rest hh h1b)
  · rename_i c1 cs1 h1
    injection h1 with h1a h1b
    subst h1a
    subst h1b
    rfl
  · rename_i h1
    exact absurd h1 (by simp)

/-- Step equation of the matrix-index clean-up off its pattern. -/
theorem idxFix0f_cons (d c : Char) (cs : List Char)
    (hnp : ∀ (c1 : Char) (rest : List Char), c = '[' →
      cs = c1 :: '.' :: '0' :: 'f' :: ']' :: rest → False) :
    idxFix0f d (c :: cs) = c :: idxFix0f d cs := by
  rw [idxFix0f.eq_def]
  split
  · rename_i c1 rest h1
    injection h1 with h1a h1b
    exact absurd (by subst h1a; exact rfl) (fun hh => hnp c1 rest hh h1b)
  · rename_i c1 cs1 h1
    injection h1 with h1a h1b
    subst h1a
    subst h1b
    rfl
  · rename_i h1
    exact absurd h1 (by simp)

/-- Step equation of the numeric component clean-up off its pattern. -/
theorem idxComp_cons (d comp c : Char) (prev : Option Char) (cs : List Char)
    (hnp : ∀ (c1 : Char) (rest : List Char), c = '[' → cs = c1 :: ']' :: rest → False) :
    idxComp d comp prev (c :: cs) = c :: idxComp d comp (some c) cs := by
  rw [idxComp.eq_def]
  split
  · rename_i c1 rest h1
    injection h1 with h1a h1b
    exact absurd (by subst h1a; exact rfl) (fun hh => hnp c1 rest hh h1b)
  · rename_i c1 cs1 h1
    injection h1 with h1a h1b
    subst h1a
    subst h1b
    rfl
  · rename_i h1
    exact absurd h1 (by simp)

/-- Step equation of the final matrix clean-up off its pattern. -/
theorem mFixAux_cons (fuel : Nat) (c : Char) (cs : List Char)
    (hnp : ∀ (rest : List Char), c = '.' → cs = 'm' :: '[' :: rest → False) :
    mFixAux (fuel + 1) (c :: cs) = c :: mFixAux fuel cs := by
  rw [mFixAux.eq_def]
  split
  · rename_i h1
    exact absurd h1 (by simp)
  · rename_i h1
    exact absurd h1 (by simp)
  · rename_i fuel2 rest h1 h2
    injection h2 with h2a h2b
    exact absurd (by subst h2a; exact rfl) (fun hh => hnp rest hh h2b)
  · rename_i fuel2 c1 cs1 h1 h2
    injection h2 with h2a h2b
    injection h1 with h1a
    subst h1a
    subst h2a
    subst h2b
    rfl

/-- The head test for a word character at the head followed by a
non-word boundary: exactly the one-character variable matches. -/
theorem wwAt_single {var : List Char} (hw : var.all wordChar = true)
    {c : Char} (hc : wordChar c = true) {X : List Char}
    (hX : X = [] ∨ ∃ d xs, X = d :: xs ∧ wordChar d = false) :
    wwAt var (c :: X) = decide (var = [c]) := by
  have h := wwAt_wordblock hw [c] (by simp [hc]) hX
  simpa using h

/-- The component clean-up creates no whole-word occurrence of a
variable that does not start with the component letter. -/
theorem compFix_cw {var : List Char} (hv : var ≠ []) (hw : var.all wordChar = true)
    (v : Char) (hnv : var.headD ' ' ≠ v) :
    ∀ s : List Char, ∀ f, cwAux var f s = false → cwAux var f (compFix v s) = false := by
  intro s
  induction s using compFix.induct v with
  | case1 c rest hcond ih =>
    intro f h
    rw [cwAux_nonword_head hv hw (by decide) f, cwAux_cons] at h
    simp only [Bool.or_eq_false_iff] at h
    have h2 := h.2
    rw [cwAux_nonword_head hv hw (by decide) (wordChar c)] at h2
    have hout : compFix v ('[' :: c :: ']' :: rest) = '.' :: v :: compFix v rest := by
      simp only [compFix]
      rw [if_pos hcond]
    rw [hout, cwAux_nonword_head hv hw (by decide) f, cwAux_cons]
    simp only [Bool.or_eq_false_iff]
    constructor
    · rw [wwAt_head_ne hv hnv]
      simp
    · by_cases hwv : wordChar v = true
      · rw [hwv]
        exact cwAux_mono (ih false h2)
      · have hwv2 : wordChar v = false := by simpa using hwv
        rw [hwv2]
        exact ih false h2
  | case2 c rest hcond ih =>
    intro f h
    have hout : compFix v ('[' :: c :: ']' :: rest) =
        '[' :: compFix v (c :: ']' :: rest) := by
      simp only [compFix]
      rw [if_neg hcond]
    rw [hout, cwAux_nonword_head hv hw (by decide) f]
    rw [cwAux_nonword_head hv hw (by decide) f] at h
    exact ih false h
  | case3 c cs hnp ih =>
    intro f h
    rw [compFix_cons v c cs hnp, cwAux_cons]
    rw [cwAux_cons] at h
    simp only [Bool.or_eq_false_iff] at h ⊢
    refine ⟨?_, ih (wordChar c) h.2⟩
    rw [wwAt_congr_run hw (compFix_run v cs) c]
    exact h.1
  | case4 => intro f h; exact h

/-- The matrix-index clean-up creates no whole-word occurrence of any
all-word variable. -/
theorem idxFix0f_cw {var : List Char} (hv : var ≠ []) (hw : var.all wordChar = true)
    (d : Char) (hd : wordChar d = true) :
    ∀ s : List Char, ∀ f, cwAux var f s = false → cwAux var f (idxFix0f d s) = false := by
  intro s
  induction s using idxFix0f.induct d with
  | case1 rest ih =>
    intro f h
    rw [cwAux_nonword_head hv hw (by decide) f, cwAux_cons] at h
    simp only [Bool.or_eq_false_iff] at h
    obtain ⟨hhit, h2⟩ := h
    rw [hd] at h2
    rw [cwAux_nonword_head hv hw (by decide) true, cwAux_cons] at h2
    simp only [Bool.or_eq_false_iff] at h2
    have h3 := h2.2
    have hw0 : wordChar '0' = true := by decide
    rw [hw0] at h3
    cases h3rw : cwAux var true ('f' :: ']' :: rest) with
    | true => rw [h3rw] at h3; exact absurd h3 (by simp)
    | false =>
      have h4 : cwAux var (wordChar 'f') (']' :: rest) = false := by
        rw [cwAux_cons] at h3rw
        simp only [Bool.or_eq_false_iff] at h3rw
        exact h3rw.2
      rw [cwAux_nonword_head hv hw (by decide) (wordChar 'f')] at h4
      have hvd : decide (var = [d]) = false := by
        have hb := hhit
        rw [wwAt_single hw hd (Or.inr ⟨'.', _, rfl, by decide⟩)] at hb
        simpa using hb
      have hout : idxFix0f d ('[' :: d :: '.' :: '0' :: 'f' :: ']' :: rest) =
          '[' :: d :: ']' :: idxFix0f d rest := by
        simp [idxFix0f]
      rw [hout, cwAux_nonword_head hv hw (by decide) f, cwAux_cons]
      simp only [Bool.or_eq_false_iff]
      constructor
      · rw [wwAt_single hw hd (Or.inr ⟨']', _, rfl, by decide⟩), hvd]
        simp
      · rw [hd, cwAux_nonword_head hv hw (by decide) true]
        exact ih false h4
  | case2 c rest hcond ih =>
    intro f h
    have hout : idxFix0f d ('[' :: c :: '.' :: '0' :: 'f' :: ']' :: rest) =
        '[' :: idxFix0f d (c :: '.' :: '0' :: 'f' :: ']' :: rest) := by
      simp only [idxFix0f]
      rw [if_neg hcond]
    rw [hout, cwAux_nonword_head hv hw (by decide) f]
    rw [cwAux_nonword_head hv hw (by decide) f] at h
    exact ih false h
  | case3 c cs hnp ih =>
    intro f h
    rw [idxFix0f_cons d c cs hnp, cwAux_cons]
    rw [cwAux_cons] at h
    simp only [Bool.or_eq_false_iff] at h ⊢
    refine ⟨?_, ih (wordChar c) h.2⟩
    rw [wwAt_congr_run hw (idxFix0f_run d cs) c]
    exact h.1
  | case4 => intro f h; exact h

/-- The numeric component clean-up creates no whole-word occurrence of
a variable that does not start with the component letter. -/
theorem idxComp_cw {var : List Char} (hv : var ≠ []) (hw : var.all wordChar = true)
    (d comp : Char) (hd : wordChar d = true) (hnc : var.headD ' ' ≠ comp) :
    ∀ (prev : Option Char) (s : List Char), ∀ f,
      cwAux var f s = false → cwAux var f (idxComp d comp prev s) = false := by
  intro prev s
  induction prev, s using idxComp.induct d comp with
  | case1 prev c rest hcond ih =>
    intro f h
    rw [cwAux_nonword_head hv hw (by decide) f, cwAux_cons] at h
    simp only [Bool.or_eq_false_iff] at h
    have h2 := h.2
    rw [cwAux_nonword_head hv hw (by decide) (wordChar c)] at h2
    have hout : idxComp d comp prev ('[' :: c :: ']' :: rest) =
        '.' :: comp :: idxComp d comp (some ']') rest := by
      simp only [idxComp]
      rw [if_pos hcond]
    rw [hout, cwAux_nonword_head hv hw (by decide) f, cwAux_cons]
    simp only [Bool.or_eq_false_iff]
    constructor
    · rw [wwAt_head_ne hv hnc]
      simp
    · by_cases hwc : wordChar comp = true
      · rw [hwc]
        exact cwAux_mono (ih false h2)
      · have hwc2 : wordChar comp = false := by simpa using hwc
        rw [hwc2]
        exact ih false h2
  | case2 prev c rest hcond ih =>
    intro f h
    have hout : idxComp d comp prev ('[' :: c :: ']' :: rest) =
        '[' :: idxComp d comp (some '[') (c :: ']' :: rest) := by
      simp only [idxComp]
      rw [if_neg hcond]
    rw [hout, cwAux_nonword_head hv hw (by decide) f]
    rw [cwAux_nonword_head hv hw (by decide) f] at h
    exact ih false h
  | case3 prev c cs hnp ih =>
    intro f h
    rw [idxComp_cons d comp c prev cs hnp, cwAux_cons]
    rw [cwAux_cons] at h
    simp only [Bool.or_eq_false_iff] at h ⊢
    refine ⟨?_, ih (wordChar c) h.2⟩
    rw [wwAt_congr_run hw (idxComp_run d comp (some c) cs) c]
    exact h.1
  | case4 prev => intro f h; exact h

/-- The final matrix clean-up creates no whole-word occurrence of any
all-word variable. -/
theorem mFixAux_cw {var : List Char} (hv : var ≠ []) (hw : var.all wordChar = true) :
    ∀ (fuel : Nat) (s : List Char), ∀ f,
      cwAux var f s = false → cwAux var f (mFixAux fuel s) = false := by
  intro fuel s
  induction fuel, s using mFixAux.induct with
  | case1 s => intro f h; exact h
  | case2 fuel => intro f h; exact h
  | case3 fuel rest ds r2 hcond ih =>
    intro f h
    have hcondB : (decide (rest.takeWhile pyDigit ≠ []) &&
        (S ".0f]").isPrefixOf (rest.dropWhile pyDigit)) = true := hcond
    have hcond2 := hcondB
    simp only [Bool.and_eq_true, decide_eq_true_eq] at hcond2
    obtain ⟨hds, hpre⟩ := hcond2
    obtain ⟨tail0, htail0⟩ := List.isPrefixOf_iff_prefix.mp hpre
    have hr2 : rest.dropWhile pyDigit = '.' :: '0' :: 'f' :: ']' :: tail0 := by
      rw [← htail0]
      rfl
    have hdrop : (rest.dropWhile pyDigit).drop 4 = tail0 := by
      rw [hr2]
      rfl
    have hrest : rest = rest.takeWhile pyDigit ++ rest.dropWhile pyDigit :=
      (List.takeWhile_append_dropWhile pyDigit rest).symm
    have hdsw : (rest.takeWhile pyDigit).all wordChar = true := by
      rw [List.all_eq_true]
      intro x hx
      have hxd : pyDigit x = true := List.mem_takeWhile_imp hx
      have hxa : x.isAlphanum = true := by
        unfold Char.isAlphanum
        unfold pyDigit at hxd
        simp [hxd]
      simp [wordChar, pyAlnum, hxa]
    have hwm : wordChar 'm' = true := by decide
    rw [cwAux_nonword_head hv hw (by decide) f, cwAux_cons] at h
    simp only [Bool.or_eq_false_iff] at h
    obtain ⟨hhitm, htl⟩ := h
    rw [hwm, cwAux_nonword_head hv hw (by decide) true] at htl
    rw [hrest, cwAux_wordblock (rest.takeWhile pyDigit) hds hdsw false] at htl
    simp only [Bool.or_eq_false_iff] at htl
    obtain ⟨hwwds, htr2⟩ := htl
    rw [hr2, cwAux_nonword_head hv hw (by decide) true, cwAux_cons] at htr2
    simp only [Bool.or_eq_false_iff] at htr2
    have htr3 := htr2.2
    rw [show wordChar '0' = true from by decide, cwAux_cons] at htr3
    simp only [Bool.or_eq_false_iff] at htr3
    have htr4 := htr3.2
    rw [cwAux_nonword_head hv hw (by decide) (wordChar 'f')] at htr4
    have hout : mFixAux (fuel + 1) ('.' :: 'm' :: '[' :: rest) =
        '.' :: 'm' :: '[' :: (rest.takeWhile pyDigit ++
          ']' :: mFixAux fuel ((rest.dropWhile pyDigit).drop 4)) := by
      simp only [mFixAux]
      rw [if_pos hcondB]
      simp [S, List.append_assoc]
    rw [hout, cwAux_nonword_head hv hw (by decide) f, cwAux_cons]
    simp only [Bool.or_eq_false_iff]
    constructor
    · have e1 : wwAt var ('m' :: '[' :: (rest.takeWhile pyDigit ++
          ']' :: mFixAux fuel ((rest.dropWhile pyDigit).drop 4))) =
          decide (var = ['m']) :=
        wwAt_single hw hwm (Or.inr ⟨'[', _, rfl, by decide⟩)
      have e2 : wwAt var ('m' :: '[' :: rest) = decide (var = ['m']) :=
        wwAt_single hw hwm (Or.inr ⟨'[', _, rfl, by decide⟩)
      rw [e1, ← e2]
      exact hhitm
    · rw [hwm, cwAux_nonword_head hv hw (by decide) true]
      rw [cwAux_wordblock (rest.takeWhile pyDigit) hds hdsw false]
      simp only [Bool.or_eq_false_iff]
      constructor
      · have e1 : wwAt var (rest.takeWhile pyDigit ++
            ']' :: mFixAux fuel ((rest.dropWhile pyDigit).drop 4)) =
            decide (var = rest.takeWhile pyDigit) :=
          wwAt_wordblock hw _ hdsw (Or.inr ⟨']', _, rfl, by decide⟩)
        have e2 : wwAt var (rest.takeWhile pyDigit ++ rest.dropWhile pyDigit) =
            decide (var = rest.takeWhile pyDigit) := by
          refine wwAt_wordblock hw _ hdsw ?_
          rw [hr2]
          exact Or.inr ⟨'.', _, rfl, by decide⟩
        rw [e1, ← e2]
        exact hwwds
      · rw [cwAux_nonword_head hv hw (by decide) true]
        refine ih false ?_
        rw [hdrop]
        exact htr4
  | case4 fuel rest ds r2 hcond ih =>
    intro f h
    have hcondB : ¬(decide (rest.takeWhile pyDigit ≠ []) &&
        (S ".0f]").isPrefixOf (rest.dropWhile pyDigit)) = true := hcond
    have hout : mFixAux (fuel + 1) ('.' :: 'm' :: '[' :: rest) =
        '.' :: mFixAux fuel ('m' :: '[' :: rest) := by
      simp only [mFixAux]
      rw [if_neg hcondB]
    rw [hout, cwAux_nonword_head hv hw (by decide) f]
    rw [cwAux_nonword_head hv hw (by decide) f] at h
    exact ih false h
  | case5 fuel c cs hnp ih =>
    intro f h
    rw [mFixAux_cons fuel c cs hnp, cwAux_cons]
    rw [cwAux_cons] at h
    simp only [Bool.or_eq_false_iff] at h ⊢
    refine ⟨?_, ih (wordChar c) h.2⟩
    rw [wwAt_congr_run hw (mFixAux_run fuel cs) c]
    exact h.1

/-- A run of non-word characters contributes nothing to the scan. -/
theorem cwAux_nonword_strip {var : List Char} (hv : var ≠ [])
    (hw : var.all wordChar = true) :
    ∀ (u : List Char), u ≠ [] → u.all (fun c => !wordChar c) = true →
    ∀ (f : Bool) (w : List Char), cwAux var f (u ++ w) = cwAux var false w := by
  intro u
  induction u with
  | nil => intro h; exact absurd rfl h
  | cons c u2 ih =>
    intro _ hall f w
    have hc : wordChar c = false := by
      simp only [List.all_cons, Bool.and_eq_true, Bool.not_eq_true'] at hall
      exact hall.1
    have hu2 : u2.all (fun c => !wordChar c) = true := by
      simp only [List.all_cons, Bool.and_eq_true] at hall
      exact hall.2
    cases u2 with
    | nil =>
      simp only [List.cons_append, List.nil_append]
      rw [cwAux_nonword_head hv hw hc]
    | cons c2 u3 =>
      simp only [List.cons_append]
      rw [cwAux_nonword_head hv hw hc]
      have hih := ih (by simp) hu2 false w
      simpa using hih

/-- Intercalation elimination steps. -/
theorem intercalate_single (sep p : List Char) : sep.intercalate [p] = p := by
  simp [List.intercalate]

/-- Intercalation unfolding on two or more pieces. -/
theorem intercalate_cons2 (sep p q : List Char) (rest : List (List Char)) :
    sep.intercalate (p :: q :: rest) = p ++ sep ++ sep.intercalate (q :: rest) := by
  simp [List.intercalate]

/-- Joining pieces, none containing the variable as a whole word, with
an all-non-word separator and an all-non-word-or-empty closer yields a
text without the variable as a whole word. -/
theorem cwAux_join {var : List Char} (hv : var ≠ [])
    (hw : var.all wordChar = true) (sep : List Char) (hsep1 : sep ≠ [])
    (hsep2 : sep.all (fun c => !wordChar c) = true) :
    ∀ (pieces : List (List Char)) (t : List Char),
      (∀ p ∈ pieces, cwAux var false p = false) →
      (t = [] ∨ ∃ d xs, t = d :: xs ∧ wordChar d = false) →
      cwAux var false t = false →
      cwAux var false (sep.intercalate pieces ++ t) = false := by
  have hsephead : ∀ w : List Char, ∃ d xs, sep ++ w = d :: xs ∧ wordChar d = false := by
    intro w
    cases sep with
    | nil => exact absurd rfl hsep1
    | cons d sep2 =>
      refine ⟨d, sep2 ++ w, by simp, ?_⟩
      simp only [List.all_cons, Bool.and_eq_true, Bool.not_eq_true'] at hsep2
      exact hsep2.1
  intro pieces
  induction pieces with
  | nil =>
    intro t _ _ ht
    simpa [List.intercalate] using ht
  | cons p rest ih =>
    intro t hp ht hcwt
    cases rest with
    | nil =>
      rw [intercalate_single]
      rw [cwAux_append_nw hv hw ht p false, hp p (by simp), hcwt]
      rfl
    | cons q rest2 =>
      rw [intercalate_cons2]
      have hI := ih t (fun x hx => hp x (List.mem_cons_of_mem p hx)) ht hcwt
      have hstep : cwAux var false
          (p ++ (sep ++ (sep.intercalate (q :: rest2) ++ t))) = false := by
        have hX := hsephead (sep.intercalate (q :: rest2) ++ t)
        obtain ⟨d, xs, hdx, hd⟩ := hX
        rw [cwAux_append_nw hv hw (Or.inr ⟨d, xs, hdx, hd⟩) p false]
        rw [hp p (by simp)]
        rw [cwAux_nonword_strip hv hw sep hsep1 hsep2 false]
        rw [hI]
        rfl
      have hassoc : p ++ sep ++ sep.intercalate (q :: rest2) ++ t =
          p ++ (sep ++ (sep.intercalate (q :: rest2) ++ t)) := by
        simp [List.append_assoc]
      rw [hassoc]
      exact hstep

/-- CodeGen.substitute_index eliminates every whole-word occurrence of
a loop variable that is a nonempty word-character name not starting
with a component letter, provided the substituted value does not itself
contain the variable as a whole word. -/
theorem substituteIndex_cw (code var val : List Char) (hv : var ≠ [])
    (hw : var.all wordChar = true) (hval : containsWord val var = false)
    (hx : var.headD ' ' ≠ 'x') (hy : var.headD ' ' ≠ 'y')
    (hz : var.headD ' ' ≠ 'z') (hwc : var.headD ' ' ≠ 'w') :
    containsWord (substituteIndex code var val) var = false := by
  have h1 : cwAux var false (subWord var val code) = false := by
    unfold subWord
    exact subWF_cw hv hw hval code.length code false (le_refl _)
  simp only [substituteIndex, mFix, containsWord]
  apply mFixAux_cw hv hw
  split
  · rename_i hcase
    have hvh : val.headD 'x' = 'x' ∨ val.headD 'x' = 'y' ∨ val.headD 'x' = 'z' ∨
        val.headD 'x' = 'w' := by
      simp only [Bool.or_eq_true, decide_eq_true_eq] at hcase
      rcases hcase with ((h | h) | h) | h <;> subst h <;> simp [S]
    refine compFix_cw hv hw (val.headD 'x') ?_ _ false h1
    rcases hvh with h | h | h | h <;> rw [h]
    exacts [hx, hy, hz, hwc]
  · split
    · rename_i hc1 hcase
      simp only [Bool.or_eq_true, decide_eq_true_eq] at hcase
      rcases hcase with ((h | h) | h) | h <;> subst h
      · exact idxComp_cw hv hw '0' 'x' (by decide) hx none _ false
          (idxFix0f_cw hv hw '0' (by decide) _ false h1)
      · exact idxComp_cw hv hw '1' 'y' (by decide) hy none _ false
          (idxFix0f_cw hv hw '1' (by decide) _ false h1)
      · exact idxComp_cw hv hw '2' 'z' (by decide) hz none _ false
          (idxFix0f_cw hv hw '2' (by decide) _ false h1)
      · exact idxComp_cw hv hw '3' 'w' (by decide) hwc none _ false
          (idxFix0f_cw hv hw '3' (by decide) _ false h1)
    · exact h1

/-- The per-index rendering loop produces exactly as many code strings
as it is asked for. -/
theorem emitIter_len (mode : Mode) (suffix : List Char) :
    ∀ (fuel : Nat) (body : Expr) (n : Nat) (ic : Bool)
      (codes : List (List Char)) (ic2 : Bool),
      emitIter mode suffix fuel body n ic = some (codes, ic2) →
      codes.length = n := by
  intro fuel
  induction fuel with
  | zero =>
    intro body n ic codes ic2 h
    cases n with
    | zero =>
      simp only [emitIter, Option.some.injEq, Prod.mk.injEq] at h
      rw [← h.1]
      rfl
    | succ n => exact absurd h (by simp [emitIter])
  | succ f ih =>
    intro body n ic codes ic2 h
    cases n with
    | zero =>
      simp only [emitIter, Option.some.injEq, Prod.mk.injEq] at h
      rw [← h.1]
      rfl
    | succ n =>
      simp only [emitIter] at h
      cases hE : emitExpr mode suffix f body ic with
      | none =>
        rw [hE] at h
        simp at h
      | some p =>
        obtain ⟨s, ic1⟩ := p
        rw [hE] at h
        simp only [Option.bind_eq_bind, Option.some_bind] at h
        cases hI : emitIter mode suffix f body n ic1 with
        | none =>
          rw [hI] at h
          simp at h
        | some q =>
          obtain ⟨ss, ic3⟩ := q
          rw [hI] at h
          simp only [Option.bind_eq_bind, Option.some_bind, Option.some.injEq,
            Prod.mk.injEq] at h
          rw [← h.1]
          simp [ih body n ic1 ss ic3 hI]

/-- A single wrapped piece of an expanded sum has no whole-word
occurrence of the variable once the inner text has none. -/
theorem cwAux_paren {var : List Char} (hv : var ≠ [])
    (hw : var.all wordChar = true) {X : List Char}
    (hX : cwAux var false X = false) :
    cwAux var false (S "(" ++ X ++ S ")") = false := by
  show cwAux var false ('(' :: (X ++ [')'])) = false
  rw [cwAux_nonword_head hv hw (by decide)]
  rw [cwAux_append_nw hv hw (Or.inr ⟨')', [], rfl, by decide⟩) X false, hX]
  rw [cwAux_nonword_head hv hw (by decide)]
  rfl

/-- C4, amended.  Sum and Comprehension expansion each render exactly
one body instantiation per range index, unconditionally; and for a
loop variable that is a nonempty word-character name, does not start
with a component letter, differs as a whole word from every range
index and (for a comprehension) is not b3d_vec_t, the expanded text
contains no whole-word occurrence of the loop variable. -/
theorem c4_expansion_whole_word (mode : Mode) (suffix : List Char) (fuel : Nat)
    (v rng : List Char) (body : Expr) (ic ic2 : Bool)
    (idxs : List (List Char)) (out : List Char)
    (hr : parseRangeG rng = some idxs) :
    (emitSumE mode suffix (fuel + 1) v rng body ic = some (out, ic2) →
      ∃ codes, emitIter mode suffix fuel body idxs.length ic = some (codes, ic2) ∧
        codes.length = idxs.length ∧
        out = (S " + ").intercalate ((codes.zip idxs).map
          (fun p => S "(" ++ substituteIndex p.1 v p.2 ++ S ")")) ∧
        ((codes.zip idxs).map
          (fun p => S "(" ++ substituteIndex p.1 v p.2 ++ S ")")).length =
          idxs.length) ∧
    (emitComprE mode suffix (fuel + 1) body v rng ic = some (out, ic2) →
      ∃ codes, emitIter mode suffix fuel body idxs.length ic = some (codes, ic2) ∧
        codes.length = idxs.length ∧
        out = S "(b3d_vec_t)\x7b" ++ joinComma ((codes.zip idxs).map
          (fun p => substituteIndex p.1 v p.2)) ++ S "\x7d" ∧
        ((codes.zip idxs).map
          (fun p => substituteIndex p.1 v p.2)).length = idxs.length) ∧
    (v ≠ [] → v.all wordChar = true → v.headD ' ' ≠ 'x' → v.headD ' ' ≠ 'y' →
      v.headD ' ' ≠ 'z' → v.headD ' ' ≠ 'w' →
      (∀ idx ∈ idxs, containsWord idx v = false) →
      emitSumE mode suffix (fuel + 1) v rng body ic = some (out, ic2) →
      containsWord out v = false) ∧
    (v ≠ [] → v.all wordChar = true → v.headD ' ' ≠ 'x' → v.headD ' ' ≠ 'y' →
      v.headD ' ' ≠ 'z' → v.headD ' ' ≠ 'w' →
      (∀ idx ∈ idxs, containsWord idx v = false) → v ≠ S "b3d_vec_t" →
      emitComprE mode suffix (fuel + 1) body v rng ic = some (out, ic2) →
      containsWord out v = false) := by
  have hsum : emitSumE mode suffix (fuel + 1) v rng body ic = some (out, ic2) →
      ∃ codes, emitIter mode suffix fuel body idxs.length ic = some (codes, ic2) ∧
        codes.length = idxs.length ∧
        out = (S " + ").intercalate ((codes.zip idxs).map
          (fun p => S "(" ++ substituteIndex p.1 v p.2 ++ S ")")) := by
    intro he
    simp only [emitSumE] at he
    rw [hr] at he
    simp only [Option.bind_eq_bind, Option.some_bind] at he
    cases hIt : emitIter mode suffix fuel body idxs.length ic with
    | none =>
      rw [hIt] at he
      simp at he
    | some q =>
      obtain ⟨codes, ic1⟩ := q
      rw [hIt] at he
      simp only [Option.bind_eq_bind, Option.some_bind, Option.some.injEq,
        Prod.mk.injEq] at he
      obtain ⟨hout, hic⟩ := he
      subst hic
      exact ⟨codes, rfl,
        emitIter_len mode suffix fuel body idxs.length ic codes _ hIt, hout.symm⟩
  have hcompr : emitComprE mode suffix (fuel + 1) body v rng ic = some (out, ic2) →
      ∃ codes, emitIter mode suffix fuel body idxs.length ic = some (codes, ic2) ∧
        codes.length = idxs.length ∧
        out = S "(b3d_vec_t)\x7b" ++ joinComma ((codes.zip idxs).map
          (fun p => substituteIndex p.1 v p.2)) ++ S "\x7d" := by
    intro he
    simp only [emitComprE] at he
    rw [hr] at he
    simp only [Option.bind_eq_bind, Option.some_bind] at he
    cases hIt : emitIter mode suffix fuel body idxs.length ic with
    | none =>
      rw [hIt] at he
      simp at he
    | some q =>
      obtain ⟨codes, ic1⟩ := q
      rw [hIt] at he
      simp only [Option.bind_eq_bind, Option.some_bind, Option.some.injEq,
        Prod.mk.injEq] at he
      obtain ⟨hout, hic⟩ := he
      subst hic
      exact ⟨codes, rfl,
        emitIter_len mode suffix fuel body idxs.length ic codes _ hIt, hout.symm⟩
  refine ⟨?_, ?_, ?_, ?_⟩
  · intro he
    obtain ⟨codes, h1, h2, h3⟩ := hsum he
    refine ⟨codes, h1, h2, h3, ?_⟩
    rw [List.length_map, List.length_zip, h2]
    simp
  · intro he
    obtain ⟨codes, h1, h2, h3⟩ := hcompr he
    refine ⟨codes, h1, h2, h3, ?_⟩
    rw [List.length_map, List.length_zip, h2]
    simp
  · intro hv hw hx hy hz hwc hidx he
    obtain ⟨codes, h1, h2, h3⟩ := hsum he
    rw [h3]
    show cwAux v false ((S " + ").intercalate ((codes.zip idxs).map
      (fun p => S "(" ++ substituteIndex p.1 v p.2 ++ S ")"))) = false
    rw [← List.append_nil ((S " + ").intercalate ((codes.zip idxs).map
      (fun p => S "(" ++ substituteIndex p.1 v p.2 ++ S ")")))]
    refine cwAux_join hv hw (S " + ") (by decide) (by decide) _ [] ?_
      (Or.inl rfl) rfl
    intro p hp
    obtain ⟨pair, hpair, rfl⟩ := List.mem_map.mp hp
    refine cwAux_paren hv hw ?_
    have hmem := (List.of_mem_zip hpair).2
    exact substituteIndex_cw pair.1 v pair.2 hv hw (hidx pair.2 hmem)
      hx hy hz hwc
  · intro hv hw hx hy hz hwc hidx hvt he
    obtain ⟨codes, h1, h2, h3⟩ := hcompr he
    rw [h3]
    show cwAux v false ('(' :: (S "b3d_vec_t" ++ (')' :: lbr ::
      (joinComma ((codes.zip idxs).map (fun p => substituteIndex p.1 v p.2)) ++
        [rbr])))) = false
    rw [cwAux_nonword_head hv hw (by decide)]
    rw [cwAux_wordblock (S "b3d_vec_t") (by decide) (by decide) false]
    simp only [Bool.or_eq_false_iff]
    constructor
    · rw [wwAt_wordblock hw (S "b3d_vec_t") (by decide)
        (Or.inr ⟨')', _, rfl, by decide⟩)]
      simpa using hvt
    · rw [cwAux_nonword_head hv hw (by decide)]
      rw [cwAux_nonword_head hv hw wordChar_facts.2.2.2.2.2.2.2.2.1]
      refine cwAux_join hv hw (S ", ") (by decide) (by decide) _ [rbr] ?_
        (Or.inr ⟨rbr, [], rfl, wordChar_facts.2.2.2.2.2.2.2.2.2.1⟩) ?_
      · intro p hp
        obtain ⟨pair, hpair, rfl⟩ := List.mem_map.mp hp
        have hmem := (List.of_mem_zip hpair).2
        exact substituteIndex_cw pair.1 v pair.2 hv hw (hidx pair.2 hmem)
          hx hy hz hwc
      · rw [cwAux_nonword_head hv hw wordChar_facts.2.2.2.2.2.2.2.2.2.1]
        rfl

set_option maxRecDepth 40000 in
/-- C4, counterexample to the stated claim: expanding the sum over xyz
with loop variable x over the body v[x] produces the text
(v.x) + (v.y) + (v.z), which contains the loop variable x as a whole
word. -/
theorem c4_whole_word_counterexample :
    parseRangeG (S "xyz") = some [S "x", S "y", S "z"] ∧
    emitSumE .float [] 9 (S "x") (S "xyz")
      (Expr.index (Expr.var (S "v")) (Expr.var (S "x"))) false =
      some (S "(v.x) + (v.y) + (v.z)", false) ∧
    containsWord (S "(v.x) + (v.y) + (v.z)") (S "x") = true :=
  ⟨rfl, rfl, rfl⟩

set_option maxRecDepth 40000 in
/-- Witness for c4_expansion_whole_word: the sum and comprehension over
xyz with loop variable i and body a[i] each expand to three
instantiations, and the expanded texts contain no whole-word i. -/
theorem c4_expansion_whole_word_witness :
    (∃ codes, emitIter Mode.float [] 8
        (Expr.index (Expr.var (S "a")) (Expr.var (S "i"))) 3 false =
        some (codes, false) ∧ codes.length = 3 ∧
        S "(a.x) + (a.y) + (a.z)" = (S " + ").intercalate
          ((codes.zip [S "x", S "y", S "z"]).map
            (fun p => S "(" ++ substituteIndex p.1 (S "i") p.2 ++ S ")")) ∧
        ((codes.zip [S "x", S "y", S "z"]).map
          (fun p => S "(" ++ substituteIndex p.1 (S "i") p.2 ++ S ")")).length =
          3) ∧
    (∃ codes, emitIter Mode.float [] 8
        (Expr.index (Expr.var (S "a")) (Expr.var (S "i"))) 3 false =
        some (codes, false) ∧ codes.length = 3 ∧
        S "(b3d_vec_t)\x7ba.x, a.y, a.z\x7d" = S "(b3d_vec_t)\x7b" ++
          joinComma ((codes.zip [S "x", S "y", S "z"]).map
            (fun p => substituteIndex p.1 (S "i") p.2)) ++ S "\x7d" ∧
        ((codes.zip [S "x", S "y", S "z"]).map
          (fun p => substituteIndex p.1 (S "i") p.2)).length = 3) ∧
    containsWord (S "(a.x) + (a.y) + (a.z)") (S "i") = false ∧
    containsWord (S "(b3d_vec_t)\x7ba.x, a.y, a.z\x7d") (S "i") = false := by
  obtain ⟨hs, _, hws, _⟩ := c4_expansion_whole_word Mode.float [] 8 (S "i")
    (S "xyz") (Expr.index (Expr.var (S "a")) (Expr.var (S "i"))) false false
    [S "x", S "y", S "z"] (S "(a.x) + (a.y) + (a.z)") rfl
  obtain ⟨_, hc, _, hwc⟩ := c4_expansion_whole_word Mode.float [] 8 (S "i")
    (S "xyz") (Expr.index (Expr.var (S "a")) (Expr.var (S "i"))) false false
    [S "x", S "y", S "z"] (S "(b3d_vec_t)\x7ba.x, a.y, a.z\x7d") rfl
  exact ⟨hs rfl, hc rfl,
    hws (by decide) (by decide) (by decide) (by decide) (by decide) (by decide)
      (by decide) rfl,
    hwc (by decide) (by decide) (by decide) (by decide) (by decide) (by decide)
      (by decide) (by decide) rfl⟩

end B3D
